import Mathlib

/-!
# Verification of the libcaf snapshot engine

A shallow embedding, in Lean 4, of the core algorithms of the libcaf
content-addressed snapshot engine (`libcaf/index.py`, `libcaf/merge.py`,
`libcaf/diff.py`, `libcaf/checkout.py`, `libcaf/ref.py`), together with
theorems settling the specification claims about them.

Conventions used throughout:

* A content hash is an opaque string (the engine treats digests as opaque
  fixed-width hex strings; no claim depends on the hash algorithm itself).
* Python dictionaries are modelled as insertion-ordered association lists
  with unique keys where the code relies on uniqueness.
* Filesystem paths are modelled as lists of path components.
* Functions that walk hash-indexed stores take an explicit fuel argument,
  because an arbitrary store (a function from hash to object) need not be
  well-founded; every theorem either supplies enough fuel or assumes the
  run completed.
-/

namespace Caf

/-- A content hash: an opaque hex digest string. -/
abbrev Hash := String

/-- The kind of a tree entry (`TreeRecordType` in the `_libcaf` object model;
modelled from the spec §3: `kind ∈ {Blob, Tree}`). -/
inductive TreeRecordType where
  | blob
  | tree
deriving DecidableEq, Repr

/-- One entry inside a `Tree` (modelled from the spec §3:
`{kind, hash, name}`, name a single path component). -/
structure TreeRecord where
  type : TreeRecordType
  hash : Hash
  name : String
deriving DecidableEq, Repr

/-- A tree object: a mapping `name → TreeRecord`.  The Python `dict` is
modelled as an insertion-ordered association list. -/
structure Tree where
  records : List (String × TreeRecord)
deriving DecidableEq, Repr

/-- Dictionary lookup on an association list (Python `d.get(k)`). -/
def alookup {α : Type} (l : List (String × α)) (k : String) : Option α :=
  (l.find? (fun p => p.1 == k)).map Prod.snd

/-- Dictionary membership (Python `k in d`). -/
def amem {α : Type} (l : List (String × α)) (k : String) : Bool :=
  l.any (fun p => p.1 == k)

/-- Dictionary write `d[k] = v`: replace in place if the key exists,
append otherwise (Python dict assignment keeps the key's position). -/
def aset {α : Type} (l : List (String × α)) (k : String) (v : α) :
    List (String × α) :=
  if l.any (fun p => p.1 == k) then
    l.map (fun p => if p.1 == k then (k, v) else p)
  else l ++ [(k, v)]

/-- Dictionary deletion `del d[k]`. -/
def adel {α : Type} (l : List (String × α)) (k : String) :
    List (String × α) :=
  l.filter (fun p => p.1 != k)

theorem alookup_nil {α : Type} (k : String) : alookup ([] : List (String × α)) k = none := rfl

theorem alookup_cons {α : Type} (p : String × α) (l : List (String × α)) (k : String) :
    alookup (p :: l) k = if p.1 = k then some p.2 else alookup l k := by
  by_cases h : p.1 = k
  · rw [alookup, List.find?_cons_of_pos _ (by simp [h])]
    simp [h]
  · rw [alookup, List.find?_cons_of_neg _ (by simp [h])]
    simp [h, alookup]

theorem alookup_append {α : Type} (l₁ l₂ : List (String × α)) (k : String) :
    alookup (l₁ ++ l₂) k =
      match alookup l₁ k with
      | some v => some v
      | none => alookup l₂ k := by
  induction l₁ with
  | nil => simp [alookup_nil]
  | cons p l ih =>
    rw [List.cons_append, alookup_cons, alookup_cons]
    by_cases h : p.1 = k <;> simp [h, ih]

/-! ## Staging index (`src/libcaf/libcaf/index.py`)

The index file is modelled as its list of lines (each line without its
trailing newline; the writer emits `f'{path} {hash}\n'` per record, so a
file is exactly a list of lines). -/

/-- The characters stripped by `line.rstrip('\n\r')`. -/
def isNewlineChar (c : Char) : Bool := c == '\n' || c == '\r'

/-- `line.rstrip('\n\r')`. -/
def rstripNewlines (s : String) : String :=
  String.mk ((s.data.reverse.dropWhile isNewlineChar).reverse)

/-- `line.rsplit(' ', 1)` restricted to the two-part result: split at the
last space; `none` when the line contains no space (Python returns a
one-element list, which `merge_index`/`read_index` treat as malformed). -/
def rsplitSpace (s : String) : Option (String × String) :=
  let rev := s.data.reverse
  if rev.any (fun c => c == ' ') then
    some (String.mk ((rev.dropWhile (fun c => c != ' ')).drop 1).reverse,
          String.mk (rev.takeWhile (fun c => c != ' ')).reverse)
  else none

/-- Parse one index line the way both `read_index` and the `merge_index`
loop do: strip trailing newline characters, skip blank lines, split at the
last space; `none` means the line is skipped. -/
def parseIndexLine (line : String) : Option (String × String) :=
  let stripped := rstripNewlines line
  if stripped = "" then none
  else rsplitSpace stripped

/-- Serialize one index record (`f'{path} {hash}'`, the trailing newline
being the line separator of the file model). -/
def indexLine (path hash : String) : String := path ++ " " ++ hash

/-- One line of `read_index`: parse the line and either skip it or write
`index_dict[path] = hash_`. -/
def readStep (d : List (String × String)) (line : String) :
    List (String × String) :=
  match parseIndexLine line with
  | none => d
  | some ph => aset d ph.1 ph.2

/-- `read_index`: fold the parsed lines into a dictionary. -/
def read_index (lines : List String) : List (String × String) :=
  lines.foldl readStep []

/-- The streaming loop of `merge_index` over the existing index lines,
with the `inserted` flag threaded through.  Mirrors
`index.py:merge_index`, case 2 (per-line zipper) and case 3 (append at
end-of-file). -/
def mergeIndexLoop (target : String) (newHash : Option String) :
    List String → Bool → List String
  | [], inserted =>
      match newHash with
      | some nh => if inserted then [] else [indexLine target nh]
      | none => []
  | line :: rest, inserted =>
      match parseIndexLine line with
      | none => mergeIndexLoop target newHash rest inserted
      | some (p, h) =>
        if p < target then
          indexLine p h :: mergeIndexLoop target newHash rest inserted
        else if p = target then
          match newHash with
          | some nh => indexLine target nh :: mergeIndexLoop target newHash rest true
          | none => mergeIndexLoop target newHash rest true
        else
          if inserted = false then
            match newHash with
            | some nh =>
                indexLine target nh :: indexLine p h ::
                  mergeIndexLoop target newHash rest true
            | none => indexLine p h :: mergeIndexLoop target newHash rest inserted
          else indexLine p h :: mergeIndexLoop target newHash rest inserted

/-- `merge_index`: the contents installed at the index path on success.
`file = none` models a not-yet-existing index (case 1 of the source:
only the new entry, or an empty file on a removal). -/
def merge_index (target : String) (newHash : Option String)
    (file : Option (List String)) : List String :=
  match file with
  | none =>
      match newHash with
      | some nh => [indexLine target nh]
      | none => []
  | some lines => mergeIndexLoop target newHash lines false

/-- A line is well-formed when it parses and re-serializing the parse
reproduces it exactly (so copying a record through the zipper is the
identity). -/
def lineWF (line : String) : Bool :=
  match parseIndexLine line with
  | some ph => line == indexLine ph.1 ph.2
  | none => false

/-- The parsed records of an index file, in file order. -/
def parsedEntries (lines : List String) : List (String × String) :=
  lines.filterMap parseIndexLine

/-- The record paths of an index file, in file order. -/
def entryPaths (lines : List String) : List String :=
  (parsedEntries lines).map Prod.fst

/-- A hash value fit for an index record: no space (so the last-space
split recovers it) and no newline characters (so the line survives
`rstrip` unchanged). -/
def hashCharsOK (h : String) : Bool :=
  h.data.all (fun c => c != ' ' && c != '\n' && c != '\r')

theorem string_mk_data (s : String) : String.mk s.data = s := by
  cases s
  rfl

theorem dropWhile_eq_self_of_first {q : Char → Bool} :
    ∀ l : List Char, (∀ c, l.head? = some c → q c = false) → l.dropWhile q = l
  | [], _ => rfl
  | c :: cs, h => by
    have hc : q c = false := h c rfl
    simp [List.dropWhile, hc]

theorem takeWhile_append_stop {q : Char → Bool} :
    ∀ l₁ : List Char, ∀ x : Char, ∀ l₂ : List Char,
      (∀ c ∈ l₁, q c = true) → q x = false →
      ((l₁ ++ x :: l₂).takeWhile q = l₁ ∧ (l₁ ++ x :: l₂).dropWhile q = x :: l₂)
  | [], x, l₂, _, hx => by simp [List.takeWhile, List.dropWhile, hx]
  | c :: cs, x, l₂, h, hx => by
    have hc : q c = true := h c (by simp)
    have ih := takeWhile_append_stop cs x l₂ (fun d hd => h d (by simp [hd])) hx
    simp [List.takeWhile, List.dropWhile, hc, ih.1, ih.2]

theorem data_indexLine (p h : String) :
    (indexLine p h).data = p.data ++ ' ' :: h.data := by
  simp [indexLine, String.data_append]

theorem rstrip_indexLine (p h : String) (hh : hashCharsOK h = true) :
    rstripNewlines (indexLine p h) = indexLine p h := by
  have hchars : ∀ c ∈ h.data, isNewlineChar c = false := by
    intro c hc
    have := (List.all_eq_true.mp hh) c hc
    simp only [Bool.and_eq_true, bne_iff_ne, ne_eq] at this
    simp [isNewlineChar, this.1.2, this.2]
  rw [rstripNewlines, data_indexLine]
  rw [dropWhile_eq_self_of_first]
  · rw [List.reverse_reverse, ← data_indexLine, string_mk_data]
  · intro c hc
    rw [List.reverse_append, List.reverse_cons] at hc
    rcases hr : h.data.reverse with _ | ⟨d, ds⟩
    · rw [hr] at hc
      simp at hc
      rw [← hc]
      rfl
    · rw [hr] at hc
      simp at hc
      rw [← hc]
      refine hchars d ?hd
      have : d ∈ h.data.reverse := by rw [hr]; simp
      simpa using this

theorem rsplit_indexLine (p h : String) (hh : hashCharsOK h = true) :
    rsplitSpace (indexLine p h) = some (p, h) := by
  have hchars : ∀ c ∈ h.data.reverse, (c != ' ') = true := by
    intro c hc
    have hc2 : c ∈ h.data := by simpa using hc
    have := (List.all_eq_true.mp hh) c hc2
    simp only [Bool.and_eq_true, bne_iff_ne, ne_eq] at this
    simp [this.1.1]
  have hrev : (indexLine p h).data.reverse = h.data.reverse ++ ' ' :: p.data.reverse := by
    rw [data_indexLine, List.reverse_append, List.reverse_cons, List.append_assoc]
    simp
  have hsp : ((' ' : Char) != ' ') = false := by simp
  have hstop := takeWhile_append_stop h.data.reverse ' ' p.data.reverse hchars hsp
  rw [rsplitSpace]
  simp only [hrev]
  rw [if_pos]
  · rw [hstop.1, hstop.2]
    simp [string_mk_data]
  · exact List.any_eq_true.mpr ⟨' ', by simp⟩

theorem parse_indexLine (p h : String) (hh : hashCharsOK h = true) :
    parseIndexLine (indexLine p h) = some (p, h) := by
  have hne : ¬(indexLine p h = "") := by
    intro habs
    have hd : (indexLine p h).data = [] := by rw [habs]
    rw [data_indexLine] at hd
    simp at hd
  rw [parseIndexLine]
  simp only [rstrip_indexLine p h hh]
  rw [if_neg hne, rsplit_indexLine p h hh]

theorem lineWF_indexLine (p h : String) (hh : hashCharsOK h = true) :
    lineWF (indexLine p h) = true := by
  rw [lineWF, parse_indexLine p h hh]
  simp

theorem lineWF_elim {line : String} (hl : lineWF line = true) :
    ∃ p h, parseIndexLine line = some (p, h) ∧ line = indexLine p h := by
  rw [lineWF] at hl
  rcases hp : parseIndexLine line with _ | ⟨p, h⟩
  · rw [hp] at hl; simp at hl
  · rw [hp] at hl
    simp only [beq_iff_eq] at hl
    exact ⟨p, h, rfl, hl⟩

theorem alookup_eq_none {α : Type} (l : List (String × α)) (k : String)
    (h : ∀ pr ∈ l, pr.1 ≠ k) : alookup l k = none := by
  induction l with
  | nil => rfl
  | cons p rest ih =>
    rw [alookup_cons, if_neg (h p (by simp))]
    exact ih (fun pr hpr => h pr (by simp [hpr]))

theorem parsedEntries_nil : parsedEntries [] = [] := rfl

theorem parsedEntries_cons (line : String) (rest : List String) :
    parsedEntries (line :: rest) =
      match parseIndexLine line with
      | some ph => ph :: parsedEntries rest
      | none => parsedEntries rest := by
  rw [parsedEntries, List.filterMap_cons]
  rcases parseIndexLine line with _ | ph <;> rfl

theorem entryPaths_cons_of_parse {line : String} {p h : String} (rest : List String)
    (hp : parseIndexLine line = some (p, h)) :
    entryPaths (line :: rest) = p :: entryPaths rest := by
  rw [entryPaths, parsedEntries_cons, hp]
  rfl

/-- The record-level effect of the zipper on the parsed record list of a
sorted index: replace or insert the target entry, or drop it on removal. -/
def mergeParsed (target : String) (newHash : Option String) :
    List (String × String) → List (String × String)
  | [] =>
      match newHash with
      | some nh => [(target, nh)]
      | none => []
  | (p, h) :: rest =>
      if p < target then (p, h) :: mergeParsed target newHash rest
      else if p = target then
        match newHash with
        | some nh => (target, nh) :: rest
        | none => rest
      else
        match newHash with
        | some nh => (target, nh) :: (p, h) :: rest
        | none => (p, h) :: rest

theorem mergeIndexLoop_nil_some (target nh : String) (flag : Bool) :
    mergeIndexLoop target (some nh) [] flag =
      if flag then [] else [indexLine target nh] := rfl

theorem mergeIndexLoop_nil_none (target : String) (flag : Bool) :
    mergeIndexLoop target none [] flag = [] := rfl

theorem mergeIndexLoop_cons (target : String) (newHash : Option String)
    (line : String) (rest : List String) (flag : Bool) :
    mergeIndexLoop target newHash (line :: rest) flag =
      match parseIndexLine line with
      | none => mergeIndexLoop target newHash rest flag
      | some (p, h) =>
        if p < target then
          indexLine p h :: mergeIndexLoop target newHash rest flag
        else if p = target then
          match newHash with
          | some nh => indexLine target nh :: mergeIndexLoop target newHash rest true
          | none => mergeIndexLoop target newHash rest true
        else
          if flag = false then
            match newHash with
            | some nh =>
                indexLine target nh :: indexLine p h ::
                  mergeIndexLoop target newHash rest true
            | none => indexLine p h :: mergeIndexLoop target newHash rest flag
          else indexLine p h :: mergeIndexLoop target newHash rest flag := rfl

theorem mergeIndexLoop_cons_some {line p h : String} (target nh : String)
    (rest : List String) (flag : Bool)
    (hp : parseIndexLine line = some (p, h)) :
    mergeIndexLoop target (some nh) (line :: rest) flag =
      if p < target then
        indexLine p h :: mergeIndexLoop target (some nh) rest flag
      else if p = target then
        indexLine target nh :: mergeIndexLoop target (some nh) rest true
      else if flag = false then
        indexLine target nh :: indexLine p h ::
          mergeIndexLoop target (some nh) rest true
      else indexLine p h :: mergeIndexLoop target (some nh) rest flag := by
  rw [mergeIndexLoop_cons, hp]

theorem mergeIndexLoop_cons_none {line p h : String} (target : String)
    (rest : List String) (flag : Bool)
    (hp : parseIndexLine line = some (p, h)) :
    mergeIndexLoop target none (line :: rest) flag =
      if p < target then
        indexLine p h :: mergeIndexLoop target none rest flag
      else if p = target then
        mergeIndexLoop target none rest true
      else indexLine p h :: mergeIndexLoop target none rest flag := by
  rw [mergeIndexLoop_cons, hp]
  rcases flag with _ | _ <;> rfl

theorem mergeParsed_nil_some (target nh : String) :
    mergeParsed target (some nh) [] = [(target, nh)] := rfl

theorem mergeParsed_nil_none (target : String) :
    mergeParsed target none [] = [] := rfl

theorem mergeParsed_cons_some (target nh p h : String)
    (rest : List (String × String)) :
    mergeParsed target (some nh) ((p, h) :: rest) =
      if p < target then (p, h) :: mergeParsed target (some nh) rest
      else if p = target then (target, nh) :: rest
      else (target, nh) :: (p, h) :: rest := rfl

theorem mergeParsed_cons_none (target p h : String)
    (rest : List (String × String)) :
    mergeParsed target none ((p, h) :: rest) =
      if p < target then (p, h) :: mergeParsed target none rest
      else if p = target then rest
      else (p, h) :: rest := rfl

theorem parsedEntries_cons_some {line : String} {ph : String × String}
    (rest : List String) (hp : parseIndexLine line = some ph) :
    parsedEntries (line :: rest) = ph :: parsedEntries rest := by
  rw [parsedEntries_cons, hp]

theorem mergeIndexLoop_no_target (target : String) (newHash : Option String) :
    ∀ (lines : List String) (flag : Bool),
      (∀ l ∈ lines, lineWF l = true) →
      (∀ q ∈ entryPaths lines, q ≠ target) →
      (flag = true ∨ newHash = none) →
      mergeIndexLoop target newHash lines flag = lines
  | [], flag, _, _, hfl => by
    rcases hfl with hfl | hfl
    · subst hfl
      rcases newHash with _ | nh
      · exact mergeIndexLoop_nil_none target true
      · rw [mergeIndexLoop_nil_some, if_pos rfl]
    · rw [hfl]
      exact mergeIndexLoop_nil_none target flag
  | line :: rest, flag, hwf, hnt, hfl => by
    obtain ⟨p, h, hparse, hline⟩ := lineWF_elim (hwf line (by simp))
    have hwr : ∀ l ∈ rest, lineWF l = true := fun l hl => hwf l (by simp [hl])
    have hnr : ∀ q ∈ entryPaths rest, q ≠ target := by
      intro q hq
      exact hnt q (by rw [entryPaths_cons_of_parse rest hparse]; simp [hq])
    have hpt : p ≠ target := hnt p (by rw [entryPaths_cons_of_parse rest hparse]; simp)
    have ih := mergeIndexLoop_no_target target newHash rest
    rcases hfl with hfl | hfl
    · subst hfl
      rcases hn : newHash with _ | nh
      · rw [hn] at ih
        rw [mergeIndexLoop_cons_none target rest true hparse, if_neg hpt]
        by_cases hlt : p < target
        · rw [if_pos hlt, ih true hwr hnr (Or.inr rfl), ← hline]
        · rw [if_neg hlt, ih true hwr hnr (Or.inr rfl), ← hline]
      · rw [hn] at ih
        rw [mergeIndexLoop_cons_some target nh rest true hparse, if_neg hpt]
        by_cases hlt : p < target
        · rw [if_pos hlt, ih true hwr hnr (Or.inl rfl), ← hline]
        · rw [if_neg hlt,
            if_neg (by exact fun habs : (true : Bool) = false => nomatch habs),
            ih true hwr hnr (Or.inl rfl), ← hline]
    · rcases hf2 : flag with _ | _
      · rw [hfl] at ih
        rw [hfl, mergeIndexLoop_cons_none target rest false hparse, if_neg hpt]
        by_cases hlt : p < target
        · rw [if_pos hlt, ih false hwr hnr (Or.inr rfl), ← hline]
        · rw [if_neg hlt, ih false hwr hnr (Or.inr rfl), ← hline]
      · rw [hfl] at ih
        rw [hfl, mergeIndexLoop_cons_none target rest true hparse, if_neg hpt]
        by_cases hlt : p < target
        · rw [if_pos hlt, ih true hwr hnr (Or.inr rfl), ← hline]
        · rw [if_neg hlt, ih true hwr hnr (Or.inr rfl), ← hline]

theorem mergeIndexLoop_parsed (target : String) (newHash : Option String)
    (hnh : ∀ nh, newHash = some nh → hashCharsOK nh = true) :
    ∀ lines : List String,
      (∀ l ∈ lines, lineWF l = true) →
      List.Pairwise (fun a b : String => a < b) (entryPaths lines) →
      parsedEntries (mergeIndexLoop target newHash lines false) =
        mergeParsed target newHash (parsedEntries lines)
  | [], _, _ => by
    rcases hn : newHash with _ | nh
    · rw [mergeIndexLoop_nil_none, parsedEntries_nil, mergeParsed_nil_none]
    · rw [mergeIndexLoop_nil_some,
        if_neg (by exact fun habs : (false : Bool) = true => nomatch habs),
        parsedEntries_nil, mergeParsed_nil_some,
        parsedEntries_cons_some [] (parse_indexLine target nh (hnh nh hn)),
        parsedEntries_nil]
  | line :: rest, hwf, hsorted => by
    obtain ⟨p, h, hparse, hline⟩ := lineWF_elim (hwf line (by simp))
    have hwr : ∀ l ∈ rest, lineWF l = true := fun l hl => hwf l (by simp [hl])
    rw [entryPaths_cons_of_parse rest hparse] at hsorted
    have hsr : List.Pairwise (fun a b : String => a < b) (entryPaths rest) :=
      hsorted.of_cons
    have hgt : ∀ q ∈ entryPaths rest, p < q := fun q hq =>
      (List.pairwise_cons.mp hsorted).1 q hq
    have hparse2 : parseIndexLine (indexLine p h) = some (p, h) := by
      rw [← hline]
      exact hparse
    have ih := mergeIndexLoop_parsed target newHash hnh rest hwr hsr
    rw [parsedEntries_cons_some rest hparse]
    rcases hn : newHash with _ | nh
    · rw [hn] at ih
      rw [mergeIndexLoop_cons_none target rest false hparse, mergeParsed_cons_none]
      by_cases hlt : p < target
      · rw [if_pos hlt, if_pos hlt, parsedEntries_cons_some _ hparse2, ih]
      · rw [if_neg hlt, if_neg hlt]
        by_cases heq : p = target
        · rw [if_pos heq, if_pos heq]
          exact congrArg parsedEntries
            (mergeIndexLoop_no_target target none rest true hwr
              (fun q hq => by rw [← heq]; exact (hgt q hq).ne') (Or.inl rfl))
        · rw [if_neg heq, if_neg heq]
          have ht : target < p := by
            rcases lt_trichotomy p target with hc | hc | hc
            · exact absurd hc hlt
            · exact absurd hc heq
            · exact hc
          rw [mergeIndexLoop_no_target target none rest false hwr
              (fun q hq => (lt_trans ht (hgt q hq)).ne') (Or.inr rfl),
            parsedEntries_cons_some rest hparse2]
    · rw [hn] at ih
      rw [mergeIndexLoop_cons_some target nh rest false hparse, mergeParsed_cons_some]
      by_cases hlt : p < target
      · rw [if_pos hlt, if_pos hlt, parsedEntries_cons_some _ hparse2, ih]
      · rw [if_neg hlt, if_neg hlt]
        by_cases heq : p = target
        · rw [if_pos heq, if_pos heq]
          rw [mergeIndexLoop_no_target target (some nh) rest true hwr
              (fun q hq => by rw [← heq]; exact (hgt q hq).ne') (Or.inl rfl),
            parsedEntries_cons_some rest (parse_indexLine target nh (hnh nh hn))]
        · rw [if_neg heq, if_neg heq, if_pos rfl]
          have ht : target < p := by
            rcases lt_trichotomy p target with hc | hc | hc
            · exact absurd hc hlt
            · exact absurd hc heq
            · exact hc
          rw [mergeIndexLoop_no_target target (some nh) rest true hwr
              (fun q hq => (lt_trans ht (hgt q hq)).ne') (Or.inl rfl),
            parsedEntries_cons_some _ (parse_indexLine target nh (hnh nh hn)),
            parsedEntries_cons_some rest hparse2]

theorem mergeIndexLoop_wf (target : String) (newHash : Option String)
    (hnh : ∀ nh, newHash = some nh → hashCharsOK nh = true) :
    ∀ (lines : List String) (flag : Bool),
      (∀ l ∈ lines, lineWF l = true) →
      ∀ l ∈ mergeIndexLoop target newHash lines flag, lineWF l = true
  | [], flag, _ => by
    intro l hl
    rcases hn : newHash with _ | nh
    · rw [hn, mergeIndexLoop_nil_none] at hl
      exact absurd hl (List.not_mem_nil l)
    · rcases flag with _ | _
      · rw [hn, show mergeIndexLoop target (some nh) [] false = [indexLine target nh] from rfl] at hl
        have := List.mem_singleton.mp hl
        subst this
        exact lineWF_indexLine target nh (hnh nh hn)
      · rw [hn, show mergeIndexLoop target (some nh) [] true = [] from rfl] at hl
        exact absurd hl (List.not_mem_nil l)
  | line :: rest, flag, hwf => by
    intro l hl
    obtain ⟨p, h, hparse, hline⟩ := lineWF_elim (hwf line (by simp))
    have hwr : ∀ x ∈ rest, lineWF x = true := fun x hx => hwf x (by simp [hx])
    have hwl : lineWF (indexLine p h) = true := by
      rw [← hline]
      exact hwf line (by simp)
    have ih := mergeIndexLoop_wf target newHash hnh rest
    rcases hn : newHash with _ | nh
    · rw [hn] at ih
      rw [hn, mergeIndexLoop_cons_none target rest flag hparse] at hl
      by_cases hlt : p < target
      · rw [if_pos hlt] at hl
        rcases List.mem_cons.mp hl with rfl | hl
        · exact hwl
        · exact ih flag hwr l hl
      · rw [if_neg hlt] at hl
        by_cases heq : p = target
        · rw [if_pos heq] at hl
          exact ih true hwr l hl
        · rw [if_neg heq] at hl
          rcases List.mem_cons.mp hl with rfl | hl
          · exact hwl
          · exact ih flag hwr l hl
    · rw [hn] at ih
      rw [hn, mergeIndexLoop_cons_some target nh rest flag hparse] at hl
      by_cases hlt : p < target
      · rw [if_pos hlt] at hl
        rcases List.mem_cons.mp hl with rfl | hl
        · exact hwl
        · exact ih flag hwr l hl
      · rw [if_neg hlt] at hl
        by_cases heq : p = target
        · rw [if_pos heq] at hl
          rcases List.mem_cons.mp hl with rfl | hl
          · exact lineWF_indexLine target nh (hnh nh hn)
          · exact ih true hwr l hl
        · rw [if_neg heq] at hl
          rcases flag with _ | _
          · rw [if_pos rfl] at hl
            rcases List.mem_cons.mp hl with rfl | hl
            · exact lineWF_indexLine target nh (hnh nh hn)
            · rcases List.mem_cons.mp hl with rfl | hl
              · exact hwl
              · exact ih true hwr l hl
          · rw [if_neg (by exact fun habs : (true : Bool) = false => nomatch habs)] at hl
            rcases List.mem_cons.mp hl with rfl | hl
            · exact hwl
            · exact ih true hwr l hl

theorem readStep_none {line : String} (d : List (String × String))
    (hp : parseIndexLine line = none) : readStep d line = d := by
  rw [readStep, hp]

theorem readStep_some {line : String} {ph : String × String}
    (d : List (String × String)) (hp : parseIndexLine line = some ph) :
    readStep d line = aset d ph.1 ph.2 := by
  rw [readStep, hp]

theorem aset_append {α : Type} (d : List (String × α)) (k : String) (v : α)
    (h : amem d k = false) : aset d k v = d ++ [(k, v)] := by
  rw [aset, if_neg]
  rw [amem] at h
  simp [h]

theorem amem_append_single {α : Type} (d : List (String × α)) (k q : String) (v : α) :
    amem (d ++ [(k, v)]) q = (amem d q || (k == q)) := by
  rw [amem, amem, List.any_append]
  simp

theorem parsedEntries_cons_none {line : String} (rest : List String)
    (hp : parseIndexLine line = none) :
    parsedEntries (line :: rest) = parsedEntries rest := by
  rw [parsedEntries_cons, hp]

theorem read_index_go :
    ∀ (lines : List String) (d : List (String × String)),
      (∀ q ∈ entryPaths lines, amem d q = false) →
      (entryPaths lines).Nodup →
      lines.foldl readStep d = d ++ parsedEntries lines
  | [], d, _, _ => by
    simp [parsedEntries_nil]
  | line :: rest, d, hmem, hnd => by
    rw [List.foldl_cons]
    rcases hp : parseIndexLine line with _ | ⟨p, h⟩
    · rw [readStep_none d hp, parsedEntries_cons_none rest hp]
      have hep : entryPaths (line :: rest) = entryPaths rest := by
        rw [entryPaths, parsedEntries_cons_none rest hp, entryPaths]
      rw [hep] at hmem hnd
      exact read_index_go rest d hmem hnd
    · have hep : entryPaths (line :: rest) = p :: entryPaths rest :=
        entryPaths_cons_of_parse rest hp
      rw [hep] at hmem hnd
      have hdp : amem d p = false := hmem p (by simp)
      have hmm : ∀ q ∈ entryPaths rest, amem (d ++ [(p, h)]) q = false := by
        intro q hq
        rw [amem_append_single]
        have h1 : amem d q = false := hmem q (by simp [hq])
        have h2 : ¬(p = q) := by
          intro habs
          subst habs
          exact (List.nodup_cons.mp hnd).1 hq
        simp [h1, h2]
      have hnn : (entryPaths rest).Nodup := (List.nodup_cons.mp hnd).2
      rw [readStep_some d hp, aset_append d p h hdp,
        read_index_go rest (d ++ [(p, h)]) hmm hnn,
        parsedEntries_cons_some rest hp, List.append_assoc]
      rfl

theorem read_index_eq_parsed (lines : List String)
    (hnd : (entryPaths lines).Nodup) : read_index lines = parsedEntries lines := by
  have h := read_index_go lines [] (fun q _ => rfl) hnd
  rw [read_index, h]
  rfl

theorem mem_map_fst_cons {α : Type} (q p : String) (v : α)
    (rest : List (String × α)) :
    q ∈ List.map Prod.fst ((p, v) :: rest) ↔
      (q = p ∨ q ∈ List.map Prod.fst rest) := by
  simp

theorem mergeParsed_paths (target : String) (newHash : Option String) :
    ∀ (l : List (String × String)) (q : String),
      q ∈ (mergeParsed target newHash l).map Prod.fst →
      q = target ∨ q ∈ l.map Prod.fst
  | [], q, hq => by
    rcases hn : newHash with _ | nh
    · rw [hn, mergeParsed_nil_none] at hq
      simp at hq
    · rw [hn, mergeParsed_nil_some] at hq
      rw [mem_map_fst_cons] at hq
      rcases hq with hq | hq
      · exact Or.inl hq
      · simp at hq
  | (p, h) :: rest, q, hq => by
    rcases hn : newHash with _ | nh
    · rw [hn, mergeParsed_cons_none] at hq
      by_cases hlt : p < target
      · rw [if_pos hlt, mem_map_fst_cons] at hq
        rcases hq with rfl | hq
        · exact Or.inr ((mem_map_fst_cons q q h rest).mpr (Or.inl rfl))
        · rcases mergeParsed_paths target newHash rest q (by rw [hn]; exact hq) with hc | hc
          · exact Or.inl hc
          · exact Or.inr ((mem_map_fst_cons q p h rest).mpr (Or.inr hc))
      · rw [if_neg hlt] at hq
        by_cases heq : p = target
        · rw [if_pos heq] at hq
          exact Or.inr ((mem_map_fst_cons q p h rest).mpr (Or.inr hq))
        · rw [if_neg heq] at hq
          exact Or.inr hq
    · rw [hn, mergeParsed_cons_some] at hq
      by_cases hlt : p < target
      · rw [if_pos hlt, mem_map_fst_cons] at hq
        rcases hq with rfl | hq
        · exact Or.inr ((mem_map_fst_cons q q h rest).mpr (Or.inl rfl))
        · rcases mergeParsed_paths target newHash rest q (by rw [hn]; exact hq) with hc | hc
          · exact Or.inl hc
          · exact Or.inr ((mem_map_fst_cons q p h rest).mpr (Or.inr hc))
      · rw [if_neg hlt] at hq
        by_cases heq : p = target
        · rw [if_pos heq, mem_map_fst_cons] at hq
          rcases hq with rfl | hq
          · exact Or.inl rfl
          · exact Or.inr ((mem_map_fst_cons q p h rest).mpr (Or.inr hq))
        · rw [if_neg heq, mem_map_fst_cons] at hq
          rcases hq with rfl | hq
          · exact Or.inl rfl
          · exact Or.inr hq

theorem mergeParsed_sorted (target : String) (newHash : Option String) :
    ∀ l : List (String × String),
      List.Pairwise (fun a b : String => a < b) (l.map Prod.fst) →
      List.Pairwise (fun a b : String => a < b)
        ((mergeParsed target newHash l).map Prod.fst)
  | [], _ => by
    rcases hn : newHash with _ | nh
    · rw [mergeParsed_nil_none]
      simp
    · rw [mergeParsed_nil_some]
      simp
  | (p, h) :: rest, hs => by
    simp only [List.map_cons] at hs
    have hsr := hs.of_cons
    have hgt : ∀ x ∈ rest.map Prod.fst, p < x := (List.pairwise_cons.mp hs).1
    have ihgen := mergeParsed_sorted target newHash rest hsr
    rcases hn : newHash with _ | nh
    · rw [hn] at ihgen
      rw [mergeParsed_cons_none]
      by_cases hlt : p < target
      · rw [if_pos hlt]
        simp only [List.map_cons]
        refine List.pairwise_cons.mpr ⟨?h1, ihgen⟩
        intro x hx
        rcases mergeParsed_paths target newHash rest x (by rw [hn]; exact hx) with hc | hc
        · rw [hc]; exact hlt
        · exact hgt x hc
      · rw [if_neg hlt]
        by_cases heq : p = target
        · rw [if_pos heq]
          exact hsr
        · rw [if_neg heq]
          simp only [List.map_cons]
          exact hs
    · rw [hn] at ihgen
      rw [mergeParsed_cons_some]
      by_cases hlt : p < target
      · rw [if_pos hlt]
        simp only [List.map_cons]
        refine List.pairwise_cons.mpr ⟨?h2, ihgen⟩
        intro x hx
        rcases mergeParsed_paths target newHash rest x (by rw [hn]; exact hx) with hc | hc
        · rw [hc]; exact hlt
        · exact hgt x hc
      · rw [if_neg hlt]
        by_cases heq : p = target
        · rw [if_pos heq]
          simp only [List.map_cons]
          refine List.pairwise_cons.mpr ⟨?h3, hsr⟩
          intro x hx
          rw [← heq]
          exact hgt x hx
        · rw [if_neg heq]
          have ht : target < p := by
            rcases lt_trichotomy p target with hc | hc | hc
            · exact absurd hc hlt
            · exact absurd hc heq
            · exact hc
          simp only [List.map_cons]
          refine List.pairwise_cons.mpr ⟨?h4, hs⟩
          intro x hx
          simp only [List.mem_cons] at hx
          rcases hx with rfl | hx
          · exact ht
          · exact lt_trans ht (hgt x hx)

theorem mergeParsed_lookup (target : String) (newHash : Option String) :
    ∀ l : List (String × String),
      List.Pairwise (fun a b : String => a < b) (l.map Prod.fst) →
      ∀ q, alookup (mergeParsed target newHash l) q =
        if q = target then newHash else alookup l q
  | [], _, q => by
    rcases hn : newHash with _ | nh
    · rw [mergeParsed_nil_none]
      by_cases hq : q = target <;> simp [hq, alookup_nil]
    · rw [mergeParsed_nil_some, alookup_cons]
      by_cases hq : q = target
      · rw [if_pos (show target = q from hq.symm), if_pos hq]
      · rw [if_neg (fun habs => hq habs.symm), if_neg hq, alookup_nil]
  | (p, h) :: rest, hs, q => by
    simp only [List.map_cons] at hs
    have hsr := hs.of_cons
    have hgt : ∀ x ∈ rest.map Prod.fst, p < x := (List.pairwise_cons.mp hs).1
    have hrestlook : ∀ z, (∀ x ∈ rest.map Prod.fst, x ≠ z) → alookup rest z = none := by
      intro z hz
      refine alookup_eq_none rest z ?hpr
      intro pr hpr
      exact hz pr.1 (List.mem_map_of_mem Prod.fst hpr)
    have ihgen := mergeParsed_lookup target newHash rest hsr q
    rcases hn : newHash with _ | nh
    · rw [hn] at ihgen
      rw [mergeParsed_cons_none]
      by_cases hlt : p < target
      · rw [if_pos hlt, alookup_cons, alookup_cons]
        by_cases hpq : p = q
        · have hqt : ¬(q = target) := by
            rw [← hpq]
            exact ne_of_lt hlt
          rw [if_pos hpq, if_neg hqt, if_pos hpq]
        · rw [if_neg hpq, if_neg hpq, ihgen]
      · rw [if_neg hlt]
        by_cases heq : p = target
        · rw [if_pos heq, alookup_cons]
          by_cases hq : q = target
          · rw [if_pos hq, hq, ← heq]
            exact hrestlook p (fun x hx => (hgt x hx).ne')
          · rw [if_neg hq, if_neg (by rw [heq]; exact fun habs => hq habs.symm)]
        · have ht : target < p := by
            rcases lt_trichotomy p target with hc | hc | hc
            · exact absurd hc hlt
            · exact absurd hc heq
            · exact hc
          rw [if_neg heq]
          by_cases hq : q = target
          · rw [if_pos hq, alookup_cons,
              if_neg (show ¬((p, h).1 = q) from by rw [hq]; exact fun habs => heq habs), hq]
            exact hrestlook target (fun x hx => (lt_trans ht (hgt x hx)).ne')
          · rw [if_neg hq]
    · rw [hn] at ihgen
      rw [mergeParsed_cons_some]
      by_cases hlt : p < target
      · rw [if_pos hlt, alookup_cons, alookup_cons]
        by_cases hpq : p = q
        · have hqt : ¬(q = target) := by
            rw [← hpq]
            exact ne_of_lt hlt
          rw [if_pos hpq, if_neg hqt, if_pos hpq]
        · rw [if_neg hpq, if_neg hpq, ihgen]
      · rw [if_neg hlt]
        by_cases heq : p = target
        · rw [if_pos heq, alookup_cons, alookup_cons]
          by_cases hq : q = target
          · rw [if_pos (show target = q from hq.symm), if_pos hq]
          · rw [if_neg (fun habs => hq habs.symm), if_neg hq,
              if_neg (by rw [heq]; exact fun habs => hq habs.symm)]
        · have ht : target < p := by
            rcases lt_trichotomy p target with hc | hc | hc
            · exact absurd hc hlt
            · exact absurd hc heq
            · exact hc
          rw [if_neg heq, alookup_cons]
          by_cases hq : q = target
          · rw [if_pos (show (target, nh).1 = q from hq.symm), if_pos hq]
          · rw [if_neg (show ¬((target, nh).1 = q) from fun habs => hq habs.symm), if_neg hq]

/-- Claim C5 (index zipper correctness).  For every well-formed index file
whose records are sorted by path, and every target path with an optional
new hash (`some h` = insert or replace, `none` = remove), the zipper of
`merge_index` leaves the file sorted by path, and `read_index` of the
resulting file returns exactly the input mapping with the target path
bound to the new hash (or removed); removing a path that has no record
leaves the file unchanged (a no-op). -/
theorem merge_index_zipper_correct
    (lines : List String) (target : String) (newHash : Option String)
    (hwf : ∀ l ∈ lines, lineWF l = true)
    (hsorted : List.Pairwise (fun a b : String => a < b) (entryPaths lines))
    (hok : newHash.all hashCharsOK = true) :
    List.Pairwise (fun a b : String => a < b)
      (entryPaths (merge_index target newHash (some lines))) ∧
    (∀ q, alookup (read_index (merge_index target newHash (some lines))) q =
      if q = target then newHash else alookup (read_index lines) q) ∧
    (newHash = none → (∀ q ∈ entryPaths lines, q ≠ target) →
      merge_index target newHash (some lines) = lines) := by
  have hnh : ∀ nh, newHash = some nh → hashCharsOK nh = true := by
    intro nh hn
    rw [hn] at hok
    simpa [Option.all] using hok
  have hmerge : merge_index target newHash (some lines) =
      mergeIndexLoop target newHash lines false := rfl
  have hparsed : parsedEntries (merge_index target newHash (some lines)) =
      mergeParsed target newHash (parsedEntries lines) := by
    rw [hmerge]
    exact mergeIndexLoop_parsed target newHash hnh lines hwf hsorted
  have hpaths : entryPaths (merge_index target newHash (some lines)) =
      (mergeParsed target newHash (parsedEntries lines)).map Prod.fst := by
    rw [entryPaths, hparsed]
  have hsorted2 : List.Pairwise (fun a b : String => a < b)
      (entryPaths (merge_index target newHash (some lines))) := by
    rw [hpaths]
    exact mergeParsed_sorted target newHash (parsedEntries lines) hsorted
  refine ⟨hsorted2, ?hlook, ?hnoop⟩
  case hlook =>
    intro q
    have hnd1 : (entryPaths lines).Nodup :=
      hsorted.imp (fun hab => ne_of_lt hab)
    have hnd2 : (entryPaths (merge_index target newHash (some lines))).Nodup :=
      hsorted2.imp (fun hab => ne_of_lt hab)
    rw [read_index_eq_parsed lines hnd1,
      read_index_eq_parsed _ hnd2, hparsed]
    exact mergeParsed_lookup target newHash (parsedEntries lines) hsorted q
  case hnoop =>
    intro hnone hnt
    rw [hmerge, hnone]
    exact mergeIndexLoop_no_target target none lines false hwf hnt (Or.inr rfl)

/-- Witness for C5: a concrete sorted two-record index, inserting a new
record between the two existing ones. -/
theorem merge_index_zipper_correct_witness :
    List.Pairwise (fun a b : String => a < b)
      (entryPaths (merge_index "ab.txt" (some "beef") (some ["a.txt 1a2b", "b.txt 3c4d"]))) ∧
    (∀ q, alookup (read_index (merge_index "ab.txt" (some "beef") (some ["a.txt 1a2b", "b.txt 3c4d"]))) q =
      if q = "ab.txt" then some "beef" else alookup (read_index ["a.txt 1a2b", "b.txt 3c4d"]) q) ∧
    (some "beef" = none → (∀ q ∈ entryPaths ["a.txt 1a2b", "b.txt 3c4d"], q ≠ "ab.txt") →
      merge_index "ab.txt" (some "beef") (some ["a.txt 1a2b", "b.txt 3c4d"]) = ["a.txt 1a2b", "b.txt 3c4d"]) :=
  merge_index_zipper_correct ["a.txt 1a2b", "b.txt 3c4d"] "ab.txt" (some "beef")
    (by decide)
    (by
      have hentry : entryPaths ["a.txt 1a2b", "b.txt 3c4d"] = ["a.txt", "b.txt"] := by
        decide
      rw [hentry]
      have h1 : ("a.txt" : String) < "b.txt" := by
        rw [String.lt_iff_toList_lt]
        decide
      refine List.pairwise_cons.mpr ⟨?hh, List.pairwise_singleton _ _⟩
      intro b hb
      have hb2 := List.mem_singleton.mp hb
      subst hb2
      exact h1)
    (by decide)

/-! ## Index atomicity (`index.py:index_lock_file` around `merge_index`)

A small trace model of the filesystem operations the lock-file protocol
performs on the index path and the lock path.  A mutation either runs its
full trace (acquire, stream the merged records into `index.lock`, one
`os.replace` onto `index`), or stops after an arbitrary number of writes
and runs the `except` branch of `index_lock_file` (delete `index.lock`,
re-raise). -/

/-- A filesystem operation of the index-mutation protocol. -/
inductive IndexFsOp where
  | createLock
  | writeLockLine (line : String)
  | replaceLockToIndex
  | unlinkLock
deriving DecidableEq, Repr

/-- Contents of the index path and the lock path (`none` = absent), as a
concurrent reader would observe them. -/
structure IndexFs where
  index : Option (List String)
  lock : Option (List String)
deriving DecidableEq, Repr

/-- Effect of one protocol operation:
`open(lock, 'x')` creates an empty lock file, `write` appends a line to
it, `os.replace(lock, index)` atomically moves it onto the index path,
`unlink` removes it. -/
def applyIndexFsOp (fs : IndexFs) (op : IndexFsOp) : IndexFs :=
  match op with
  | .createLock => { fs with lock := some [] }
  | .writeLockLine line => { fs with lock := some ((fs.lock.getD []) ++ [line]) }
  | .replaceLockToIndex => { index := fs.lock, lock := none }
  | .unlinkLock => { fs with lock := none }

def runIndexFsOps (fs : IndexFs) (ops : List IndexFsOp) : IndexFs :=
  ops.foldl applyIndexFsOp fs

/-- The complete trace of a successful `merge_index` call under
`index_lock_file`. -/
def mergeIndexTrace (target : String) (newHash : Option String)
    (file : Option (List String)) : List IndexFsOp :=
  .createLock :: ((merge_index target newHash file).map IndexFsOp.writeLockLine
    ++ [.replaceLockToIndex])

/-- The trace of a `merge_index` call that raises after `k` of its lock
file writes: the context manager closes and deletes the lock file and
re-raises the error. -/
def mergeIndexFailTrace (target : String) (newHash : Option String)
    (file : Option (List String)) (k : Nat) : List IndexFsOp :=
  .createLock ::
    (((merge_index target newHash file).take k).map IndexFsOp.writeLockLine
      ++ [.unlinkLock])

theorem runIndexFsOps_nil (fs : IndexFs) : runIndexFsOps fs [] = fs := rfl

theorem runIndexFsOps_cons (fs : IndexFs) (op : IndexFsOp) (ops : List IndexFsOp) :
    runIndexFsOps fs (op :: ops) = runIndexFsOps (applyIndexFsOp fs op) ops := rfl

theorem runIndexFsOps_append (fs : IndexFs) (l₁ l₂ : List IndexFsOp) :
    runIndexFsOps fs (l₁ ++ l₂) = runIndexFsOps (runIndexFsOps fs l₁) l₂ := by
  rw [runIndexFsOps, runIndexFsOps, runIndexFsOps, List.foldl_append]

theorem index_preserved_of_no_replace :
    ∀ (ops : List IndexFsOp) (fs : IndexFs),
      (∀ op ∈ ops, op ≠ IndexFsOp.replaceLockToIndex) →
      (runIndexFsOps fs ops).index = fs.index
  | [], fs, _ => rfl
  | op :: ops, fs, hno => by
    rw [runIndexFsOps_cons,
      index_preserved_of_no_replace ops _ (fun o ho => hno o (by simp [ho]))]
    rcases op with _ | line | _ | _
    · rfl
    · rfl
    · exact absurd rfl (hno .replaceLockToIndex (by simp))
    · rfl

theorem run_writes_lock :
    ∀ (lines : List String) (fs : IndexFs) (l : List String),
      fs.lock = some l →
      runIndexFsOps fs (lines.map IndexFsOp.writeLockLine) =
        { index := fs.index, lock := some (l ++ lines) }
  | [], fs, l, hl => by
    rw [List.map_nil, runIndexFsOps_nil, List.append_nil, ← hl]
  | line :: lines, fs, l, hl => by
    rw [List.map_cons, runIndexFsOps_cons,
      run_writes_lock lines (applyIndexFsOp fs (.writeLockLine line)) (l ++ [line])
        (by simp [applyIndexFsOp, hl])]
    simp [applyIndexFsOp, hl]

theorem no_replace_in_writes (lines : List String) :
    ∀ op ∈ lines.map IndexFsOp.writeLockLine, op ≠ IndexFsOp.replaceLockToIndex := by
  intro op hop
  rcases List.mem_map.mp hop with ⟨line, _, rfl⟩
  exact fun habs => nomatch habs

/-- Claim C6 (index atomicity).  Every index mutation under the lock-file
protocol either runs to completion — installing exactly the new merged
contents at the index path by the single `os.replace` rename of the whole
trace — or stops after any number of its lock file writes, in which case
the `except` branch leaves the index path byte-identical to its prior
contents and deletes `index.lock`.  At every intermediate point of either
trace the index path holds its original contents, never a truncated or
interleaved file. -/
theorem merge_index_atomicity (fs0 : IndexFs) (target : String)
    (newHash : Option String) (file : Option (List String))
    (hlock : fs0.lock = none) :
    (∀ n < (mergeIndexTrace target newHash file).length,
      (runIndexFsOps fs0 ((mergeIndexTrace target newHash file).take n)).index
        = fs0.index) ∧
    (runIndexFsOps fs0 (mergeIndexTrace target newHash file)).index
      = some (merge_index target newHash file) ∧
    (runIndexFsOps fs0 (mergeIndexTrace target newHash file)).lock = none ∧
    (mergeIndexTrace target newHash file).count IndexFsOp.replaceLockToIndex = 1 ∧
    (∀ k n, (runIndexFsOps fs0
        ((mergeIndexFailTrace target newHash file k).take n)).index = fs0.index) ∧
    (∀ k, (runIndexFsOps fs0 (mergeIndexFailTrace target newHash file k)).lock
      = none) := by
  refine ⟨?hpre, ?hfin, ?hfinlock, ?hcount, ?hfail, ?hfaillock⟩
  case hpre =>
    intro n hn
    rw [mergeIndexTrace] at hn
    rcases n with _ | m
    · rw [List.take_zero, runIndexFsOps_nil]
    · rw [mergeIndexTrace, List.take_cons, runIndexFsOps_cons]
      have hm : m ≤ ((merge_index target newHash file).map IndexFsOp.writeLockLine).length := by
        simp only [List.length_cons, List.length_append, List.length_map,
          List.length_nil] at hn ⊢
        omega
      simp only [Nat.add_sub_cancel]
      rw [List.take_append_of_le_length hm]
      have hnr : ∀ op ∈ ((merge_index target newHash file).map IndexFsOp.writeLockLine).take m,
          op ≠ IndexFsOp.replaceLockToIndex := by
        intro op hop
        exact no_replace_in_writes (merge_index target newHash file) op
          (List.mem_of_mem_take hop)
      rw [index_preserved_of_no_replace _ _ hnr]
      rfl
      omega
  case hfin =>
    rw [mergeIndexTrace, runIndexFsOps_cons, runIndexFsOps_append]
    have hcl : (applyIndexFsOp fs0 .createLock).lock = some [] := rfl
    rw [run_writes_lock (merge_index target newHash file) _ [] hcl]
    rfl
  case hfinlock =>
    rw [mergeIndexTrace, runIndexFsOps_cons, runIndexFsOps_append]
    have hcl : (applyIndexFsOp fs0 .createLock).lock = some [] := rfl
    rw [run_writes_lock (merge_index target newHash file) _ [] hcl]
    rfl
  case hcount =>
    rw [mergeIndexTrace, List.count_cons, List.count_append]
    have h0 : ((merge_index target newHash file).map IndexFsOp.writeLockLine).count
        IndexFsOp.replaceLockToIndex = 0 :=
      List.count_eq_zero.mpr (fun habs =>
        no_replace_in_writes (merge_index target newHash file) _ habs rfl)
    rw [h0]
    rfl
  case hfail =>
    intro k n
    have hnr : ∀ op ∈ (mergeIndexFailTrace target newHash file k).take n,
        op ≠ IndexFsOp.replaceLockToIndex := by
      intro op hop
      have hop2 := List.mem_of_mem_take hop
      rw [mergeIndexFailTrace] at hop2
      rcases List.mem_cons.mp hop2 with rfl | hop2
      · exact fun habs => nomatch habs
      · rcases List.mem_append.mp hop2 with hop3 | hop3
        · exact no_replace_in_writes _ op
            (by
              rcases List.mem_map.mp hop3 with ⟨line, hline, rfl⟩
              exact List.mem_map.mpr ⟨line, List.mem_of_mem_take hline, rfl⟩)
        · have := List.mem_singleton.mp hop3
          subst this
          exact fun habs => nomatch habs
    exact index_preserved_of_no_replace _ fs0 hnr
  case hfaillock =>
    intro k
    rw [mergeIndexFailTrace, runIndexFsOps_cons, runIndexFsOps_append]
    rfl

/-- Witness for C6: a one-record index receiving a second record. -/
theorem merge_index_atomicity_witness :
    (∀ n < (mergeIndexTrace "b.txt" (some "beef") (some ["a.txt 1a2b"])).length,
      (runIndexFsOps ⟨some ["a.txt 1a2b"], none⟩
        ((mergeIndexTrace "b.txt" (some "beef") (some ["a.txt 1a2b"])).take n)).index
        = (⟨some ["a.txt 1a2b"], none⟩ : IndexFs).index) ∧
    (runIndexFsOps ⟨some ["a.txt 1a2b"], none⟩
      (mergeIndexTrace "b.txt" (some "beef") (some ["a.txt 1a2b"]))).index
      = some (merge_index "b.txt" (some "beef") (some ["a.txt 1a2b"])) ∧
    (runIndexFsOps ⟨some ["a.txt 1a2b"], none⟩
      (mergeIndexTrace "b.txt" (some "beef") (some ["a.txt 1a2b"]))).lock = none ∧
    (mergeIndexTrace "b.txt" (some "beef") (some ["a.txt 1a2b"])).count
      IndexFsOp.replaceLockToIndex = 1 ∧
    (∀ k n, (runIndexFsOps ⟨some ["a.txt 1a2b"], none⟩
        ((mergeIndexFailTrace "b.txt" (some "beef") (some ["a.txt 1a2b"]) k).take n)).index
        = (⟨some ["a.txt 1a2b"], none⟩ : IndexFs).index) ∧
    (∀ k, (runIndexFsOps ⟨some ["a.txt 1a2b"], none⟩
      (mergeIndexFailTrace "b.txt" (some "beef") (some ["a.txt 1a2b"]) k)).lock
      = none) :=
  merge_index_atomicity ⟨some ["a.txt 1a2b"], none⟩ "b.txt" (some "beef")
    (some ["a.txt 1a2b"]) rfl

/-! ## Tree-from-index (`index.py:build_tree_from_index`)

The index-to-tree conversion interprets each index path as a chain of
components in a trie whose leaves are file hashes and whose interior
nodes are directories; `_build_tree_recursive` then hashes the trie
bottom-up, saving every constructed tree.  The content hash function of
the object store is an opaque parameter. -/

/-- `Path(path_str).parts` for a repo-relative posix path: split on the
separator, dropping empty components. -/
def splitPath (s : String) : List String :=
  ((s.data.splitOn '/').map String.mk).filter (fun c => c != "")

/-- Rebuild a canonical repo-relative posix path from its components
(the inverse of `splitPath` on the normalized paths `normalize_path`
produces). -/
def joinParts : List String → String
  | [] => ""
  | [p] => p
  | p :: q :: rest => p ++ "/" ++ joinParts (q :: rest)

/-- One path component list is a proper prefix of another. -/
def properPartsPre (a b : List String) : Prop :=
  a.length < b.length ∧ b.take a.length = a

instance properPartsPre.decidable (a b : List String) :
    Decidable (properPartsPre a b) := by
  rw [properPartsPre]
  infer_instance

/-- A node of the trie `build_tree_from_index` constructs: a Python
`str` value (file hash) or a nested `dict` (directory). -/
inductive TrieNode where
  | leaf (h : String)
  | dir (entries : List (String × TrieNode))

/-- The per-path insertion of `build_tree_from_index`: walk
`parts[:-1]`, creating missing directories, failing on a string where a
directory is required, and finally assign `current[parts[-1]] =
file_hash` (an unchecked dictionary write). -/
def trieInsert (entries : List (String × TrieNode)) (parts : List String)
    (fileHash : String) : Except String (List (String × TrieNode)) :=
  match parts with
  | [] => .error "empty path"
  | [last] => .ok (aset entries last (.leaf fileHash))
  | part :: parts2 =>
      match alookup entries part with
      | none =>
          match trieInsert [] parts2 fileHash with
          | .error e => .error e
          | .ok sub => .ok (aset entries part (.dir sub))
      | some (.leaf _) => .error "Conflict detected"
      | some (.dir sub) =>
          match trieInsert sub parts2 fileHash with
          | .error e => .error e
          | .ok sub2 => .ok (aset entries part (.dir sub2))

/-- Phase 1 of `build_tree_from_index`: fold every index record into the
trie. -/
def buildTrie : List (String × String) → List (String × TrieNode) →
    Except String (List (String × TrieNode))
  | [], root => .ok root
  | (pathStr, fileHash) :: rest, root =>
      match trieInsert root (splitPath pathStr) fileHash with
      | .error e => .error e
      | .ok root2 => buildTrie rest root2

/-- `_build_tree_recursive`, with the trees it saves to the object store
made explicit: returns the saved trees (in save order) and the records
of the current directory. -/
def buildEntries (hashObject : Tree → Hash) :
    List (String × TrieNode) → List Tree × List (String × TreeRecord)
  | [] => ([], [])
  | (name, .leaf h) :: rest =>
      let r := buildEntries hashObject rest
      (r.1, (name, TreeRecord.mk .blob h name) :: r.2)
  | (name, .dir sub) :: rest =>
      let rsub := buildEntries hashObject sub
      let subTree := Tree.mk rsub.2
      let r := buildEntries hashObject rest
      (rsub.1 ++ [subTree] ++ r.1,
        (name, TreeRecord.mk .tree (hashObject subTree) name) :: r.2)

/-- `build_tree_from_index`: build the trie, then hash it bottom-up;
returns the saved trees and the root tree hash. -/
def build_tree_from_index (hashObject : Tree → Hash)
    (index : List (String × String)) : Except String (List Tree × Hash) :=
  match buildTrie index [] with
  | .error e => .error e
  | .ok root =>
      let r := buildEntries hashObject root
      let rootTree := Tree.mk r.2
      .ok (r.1 ++ [rootTree], hashObject rootTree)

/-- The component paths of all leaves of a trie level, each prefixed by
the names leading to it. -/
def leafPaths : List (String × TrieNode) → List (List String)
  | [] => []
  | (n, .leaf _) :: rest => [n] :: leafPaths rest
  | (n, .dir sub) :: rest => (leafPaths sub).map (fun q => n :: q) ++ leafPaths rest

/-- Well-formedness of a trie level: distinct names at every level
(Python dictionaries cannot hold a key twice). -/
def entriesWF : List (String × TrieNode) → Prop
  | [] => True
  | (n, .leaf _) :: rest => amem rest n = false ∧ entriesWF rest
  | (n, .dir sub) :: rest => amem rest n = false ∧ entriesWF sub ∧ entriesWF rest

/-- The claim's collision condition on an index: some path's components
are a proper prefix of another path's components — a file where a
directory is required or a directory where a file is required. -/
def pathCollision (keys : List String) : Prop :=
  ∃ k1 ∈ keys, ∃ k2 ∈ keys, properPartsPre (splitPath k1) (splitPath k2)

instance pathCollision.decidable (keys : List String) :
    Decidable (pathCollision keys) := by
  rw [pathCollision]
  infer_instance

theorem leafPaths_nil : leafPaths [] = [] := by simp [leafPaths]

theorem leafPaths_cons_leaf (n h : String) (rest : List (String × TrieNode)) :
    leafPaths ((n, .leaf h) :: rest) = [n] :: leafPaths rest := by
  simp [leafPaths]

theorem leafPaths_cons_dir (n : String) (sub rest : List (String × TrieNode)) :
    leafPaths ((n, .dir sub) :: rest) =
      (leafPaths sub).map (fun q => n :: q) ++ leafPaths rest := by
  simp [leafPaths]

theorem entriesWF_nil : entriesWF [] := by simp [entriesWF]

theorem entriesWF_cons_leaf {n h : String} {rest : List (String × TrieNode)} :
    entriesWF ((n, .leaf h) :: rest) ↔ amem rest n = false ∧ entriesWF rest := by
  simp [entriesWF]

theorem entriesWF_cons_dir {n : String} {sub rest : List (String × TrieNode)} :
    entriesWF ((n, .dir sub) :: rest) ↔
      amem rest n = false ∧ entriesWF sub ∧ entriesWF rest := by
  simp [entriesWF]

theorem mem_leafPaths_ne_nil :
    ∀ (entries : List (String × TrieNode)) (q : List String),
      q ∈ leafPaths entries → q ≠ []
  | [], q, hq => by
    rw [leafPaths_nil] at hq
    exact absurd hq (List.not_mem_nil q)
  | (n, .leaf h) :: rest, q, hq => by
    rw [leafPaths_cons_leaf] at hq
    rcases List.mem_cons.mp hq with rfl | hq
    · exact fun habs => nomatch habs
    · exact mem_leafPaths_ne_nil rest q hq
  | (n, .dir sub) :: rest, q, hq => by
    rw [leafPaths_cons_dir] at hq
    rcases List.mem_append.mp hq with hq | hq
    · rcases List.mem_map.mp hq with ⟨q2, _, rfl⟩
      exact fun habs => nomatch habs
    · exact mem_leafPaths_ne_nil rest q hq

theorem alookup_none_of_amem_false {α : Type} {l : List (String × α)} {k : String}
    (h : amem l k = false) : alookup l k = none := by
  refine alookup_eq_none l k ?hne
  intro pr hpr habs
  rw [amem] at h
  have : l.any (fun p => p.1 == k) = true :=
    List.any_eq_true.mpr ⟨pr, hpr, by simp [habs]⟩
  rw [h] at this
  exact nomatch this

theorem not_mem_leafPaths_head {entries : List (String × TrieNode)} {n : String}
    (h : amem entries n = false) :
    ∀ q, ∀ tl, q ∈ leafPaths entries → q = n :: tl → False := by
  induction entries with
  | nil =>
    intro q tl hq _
    rw [leafPaths_nil] at hq
    exact absurd hq (List.not_mem_nil q)
  | cons e rest ih =>
    intro q tl hq hq2
    have hne : ¬(e.1 = n) := by
      intro habs
      rw [amem] at h
      have : (e :: rest).any (fun p => p.1 == n) = true :=
        List.any_eq_true.mpr ⟨e, by simp, by simp [habs]⟩
      rw [h] at this
      exact nomatch this
    have hrest : amem rest n = false := by
      rw [amem] at h ⊢
      rcases hr : rest.any (fun p => p.1 == n) with _ | _
      · rfl
      · exfalso
        have : (e :: rest).any (fun p => p.1 == n) = true := by
          rw [List.any_cons, hr]
          simp
        rw [h] at this
        exact nomatch this
    rcases e with ⟨m, node⟩
    rcases node with h2 | sub
    · rw [leafPaths_cons_leaf] at hq
      rcases List.mem_cons.mp hq with rfl | hq
      · injection hq2 with h1 h2
        exact hne h1
      · exact ih hrest q tl hq hq2
    · rw [leafPaths_cons_dir] at hq
      rcases List.mem_append.mp hq with hq | hq
      · rcases List.mem_map.mp hq with ⟨q2, _, rfl⟩
        injection hq2 with h1 _
        exact hne h1
      · exact ih hrest q tl hq hq2

theorem mem_leafPaths_single :
    ∀ (entries : List (String × TrieNode)), entriesWF entries → ∀ n : String,
      ([n] ∈ leafPaths entries ↔ ∃ hh, alookup entries n = some (.leaf hh))
  | [], _, n => by
    rw [leafPaths_nil]
    simp [alookup_nil]
  | (m, .leaf h) :: rest, hwf, n => by
    rcases entriesWF_cons_leaf.mp hwf with ⟨hmem, hwfr⟩
    rw [leafPaths_cons_leaf, alookup_cons]
    constructor
    · intro hq
      rcases List.mem_cons.mp hq with hq | hq
      · have : m = n := by injection hq.symm
        rw [if_pos this]
        exact ⟨h, rfl⟩
      · by_cases hmn : m = n
        · exfalso
          subst hmn
          exact not_mem_leafPaths_head hmem [m] [] hq rfl
        · rw [if_neg hmn]
          exact (mem_leafPaths_single rest hwfr n).mp hq
    · intro ⟨hh, hl⟩
      by_cases hmn : m = n
      · rw [if_pos hmn] at hl
        injection hl with hl
        subst hmn
        exact List.mem_cons.mpr (Or.inl rfl)
      · rw [if_neg hmn] at hl
        exact List.mem_cons.mpr (Or.inr ((mem_leafPaths_single rest hwfr n).mpr ⟨hh, hl⟩))
  | (m, .dir sub) :: rest, hwf, n => by
    rcases entriesWF_cons_dir.mp hwf with ⟨hmem, hwfs, hwfr⟩
    rw [leafPaths_cons_dir, alookup_cons]
    constructor
    · intro hq
      rcases List.mem_append.mp hq with hq | hq
      · rcases List.mem_map.mp hq with ⟨q2, hq2, habs⟩
        injection habs with h1 h2
        exact absurd h2 (mem_leafPaths_ne_nil sub q2 hq2)
      · by_cases hmn : m = n
        · exfalso
          subst hmn
          exact not_mem_leafPaths_head hmem [m] [] hq rfl
        · rw [if_neg hmn]
          exact (mem_leafPaths_single rest hwfr n).mp hq
    · intro ⟨hh, hl⟩
      by_cases hmn : m = n
      · rw [if_pos hmn] at hl
        exact absurd hl (fun habs => nomatch habs)
      · rw [if_neg hmn] at hl
        exact List.mem_append.mpr
          (Or.inr ((mem_leafPaths_single rest hwfr n).mpr ⟨hh, hl⟩))

theorem mem_leafPaths_cons :
    ∀ (entries : List (String × TrieNode)), entriesWF entries →
      ∀ (n : String) (q : List String), q ≠ [] →
      ((n :: q) ∈ leafPaths entries ↔
        ∃ sub, alookup entries n = some (.dir sub) ∧ q ∈ leafPaths sub)
  | [], _, n, q, _ => by
    rw [leafPaths_nil]
    simp [alookup_nil]
  | (m, .leaf h) :: rest, hwf, n, q, hq0 => by
    rcases entriesWF_cons_leaf.mp hwf with ⟨hmem, hwfr⟩
    rw [leafPaths_cons_leaf, alookup_cons]
    constructor
    · intro hq
      rcases List.mem_cons.mp hq with hq | hq
      · injection hq with h1 h2
        exact absurd h2 hq0
      · by_cases hmn : m = n
        · exfalso
          subst hmn
          exact not_mem_leafPaths_head hmem (m :: q) q hq rfl
        · rw [if_neg hmn]
          exact (mem_leafPaths_cons rest hwfr n q hq0).mp hq
    · intro ⟨sub, hl, hmem2⟩
      by_cases hmn : m = n
      · rw [if_pos hmn] at hl
        exact absurd hl (fun habs => nomatch habs)
      · rw [if_neg hmn] at hl
        exact List.mem_cons.mpr
          (Or.inr ((mem_leafPaths_cons rest hwfr n q hq0).mpr ⟨sub, hl, hmem2⟩))
  | (m, .dir sub0) :: rest, hwf, n, q, hq0 => by
    rcases entriesWF_cons_dir.mp hwf with ⟨hmem, hwfs, hwfr⟩
    rw [leafPaths_cons_dir, alookup_cons]
    constructor
    · intro hq
      rcases List.mem_append.mp hq with hq | hq
      · rcases List.mem_map.mp hq with ⟨q2, hq2, habs⟩
        injection habs with h1 h2
        subst h1
        subst h2
        rw [if_pos rfl]
        exact ⟨sub0, rfl, hq2⟩
      · by_cases hmn : m = n
        · exfalso
          subst hmn
          exact not_mem_leafPaths_head hmem (m :: q) q hq rfl
        · rw [if_neg hmn]
          exact (mem_leafPaths_cons rest hwfr n q hq0).mp hq
    · intro ⟨sub, hl, hmem2⟩
      by_cases hmn : m = n
      · rw [if_pos hmn] at hl
        injection hl with hl
        injection hl with hl
        subst hmn
        subst hl
        exact List.mem_append.mpr (Or.inl (List.mem_map.mpr ⟨q, hmem2, rfl⟩))
      · rw [if_neg hmn] at hl
        exact List.mem_append.mpr
          (Or.inr ((mem_leafPaths_cons rest hwfr n q hq0).mpr ⟨sub, hl, hmem2⟩))

/-- The leaf paths contributed by one named trie node. -/
def nodeLeafPaths (k : String) : TrieNode → List (List String)
  | .leaf _ => [[k]]
  | .dir sub => (leafPaths sub).map (fun q => k :: q)

theorem nodeLeafPaths_head {k : String} {v : TrieNode} {q : List String}
    (hq : q ∈ nodeLeafPaths k v) : ∃ tl, q = k :: tl := by
  rcases v with h | sub
  · rw [nodeLeafPaths] at hq
    have := List.mem_singleton.mp hq
    exact ⟨[], this⟩
  · rw [nodeLeafPaths] at hq
    rcases List.mem_map.mp hq with ⟨q2, _, rfl⟩
    exact ⟨q2, rfl⟩

theorem leafPaths_cons_node (m : String) (node : TrieNode)
    (rest : List (String × TrieNode)) :
    leafPaths ((m, node) :: rest) = nodeLeafPaths m node ++ leafPaths rest := by
  rcases node with h | sub
  · rw [leafPaths_cons_leaf, nodeLeafPaths]
    rfl
  · rw [leafPaths_cons_dir, nodeLeafPaths]

theorem leafPaths_append :
    ∀ l₁ l₂ : List (String × TrieNode),
      leafPaths (l₁ ++ l₂) = leafPaths l₁ ++ leafPaths l₂
  | [], l₂ => by rw [List.nil_append, leafPaths_nil, List.nil_append]
  | (m, node) :: rest, l₂ => by
    rw [List.cons_append, leafPaths_cons_node, leafPaths_cons_node,
      leafPaths_append rest l₂, List.append_assoc]

theorem amem_cons {α : Type} (m : String) (v : α) (rest : List (String × α))
    (k : String) : amem ((m, v) :: rest) k = ((m == k) || amem rest k) := by
  rw [amem, List.any_cons, amem]

theorem entriesWF_cons_node {m : String} {node : TrieNode}
    {rest : List (String × TrieNode)} (hwf : entriesWF ((m, node) :: rest)) :
    amem rest m = false ∧ entriesWF rest := by
  rcases node with h | sub
  · exact ⟨(entriesWF_cons_leaf.mp hwf).1, (entriesWF_cons_leaf.mp hwf).2⟩
  · exact ⟨(entriesWF_cons_dir.mp hwf).1, (entriesWF_cons_dir.mp hwf).2.2⟩

theorem entriesWF_lookup_dir :
    ∀ (entries : List (String × TrieNode)) (n : String) (sub : List (String × TrieNode)),
      entriesWF entries → alookup entries n = some (.dir sub) → entriesWF sub
  | [], n, sub, _, hl => by
    rw [alookup_nil] at hl
    exact absurd hl (fun habs => nomatch habs)
  | (m, node) :: rest, n, sub, hwf, hl => by
    rw [alookup_cons] at hl
    by_cases hmn : (m, node).1 = n
    · rw [if_pos hmn] at hl
      injection hl with hl
      rcases node with h | sub0
      · exact absurd hl (fun habs => nomatch habs)
      · injection hl with hl
        subst hl
        exact (entriesWF_cons_dir.mp hwf).2.1
    · rw [if_neg hmn] at hl
      exact entriesWF_lookup_dir rest n sub (entriesWF_cons_node hwf).2 hl

theorem map_aset_id {v : TrieNode} :
    ∀ (l : List (String × TrieNode)) (k : String), amem l k = false →
      l.map (fun p => if p.1 == k then (k, v) else p) = l
  | [], k, _ => rfl
  | (m, node) :: rest, k, hmem => by
    rw [amem_cons] at hmem
    have hm : ¬(m = k) := by
      intro habs
      rw [habs] at hmem
      simp at hmem
    have hrest : amem rest k = false := by
      rcases hr : amem rest k with _ | _
      · rfl
      · rw [hr] at hmem
        simp at hmem
    rw [List.map_cons, map_aset_id rest k hrest]
    simp [hm]

theorem amem_map_aset {α : Type} (v2 : α) (l : List (String × α)) (k n : String) :
    amem (l.map (fun p => if p.1 == k then (k, v2) else p)) n = amem l n := by
  rw [amem, amem, List.any_map]
  congr 1
  funext p
  by_cases hp : p.1 = k
  · simp [hp]
  · simp [hp]

theorem amem_aset {α : Type} (v2 : α) :
    ∀ (l : List (String × α)) (k n : String),
      amem (aset l k v2) n = (amem l n || (k == n))
  | l, k, n => by
    by_cases hmem : amem l k = true
    · rw [aset, if_pos (by rw [← amem]; exact hmem), amem_map_aset]
      by_cases hkn : k = n
      · subst hkn
        rw [hmem]
        simp
      · simp [hkn]
    · have hmemf : amem l k = false := by
        rcases hx : amem l k with _ | _
        · rfl
        · exact absurd hx hmem
      rw [aset, if_neg (by rw [← amem]; rw [hmemf]; exact fun habs => nomatch habs),
        amem, List.any_append, ← amem]
      simp

theorem aset_cons_of_eq {v : TrieNode} {m : String} {node : TrieNode}
    {rest : List (String × TrieNode)} (hwf : entriesWF ((m, node) :: rest)) :
    aset ((m, node) :: rest) m v = (m, v) :: rest := by
  have hmem : amem rest m = false := (entriesWF_cons_node hwf).1
  rw [aset, if_pos (List.any_eq_true.mpr ⟨(m, node), by simp, by simp⟩),
    List.map_cons, map_aset_id rest m hmem]
  congr 1
  simp

theorem aset_cons_of_ne {v : TrieNode} {m : String} {node : TrieNode}
    {rest : List (String × TrieNode)} (k : String) (hne : ¬(m = k))
    (hmem : amem ((m, node) :: rest) k = true) :
    aset ((m, node) :: rest) k v = (m, node) :: aset rest k v := by
  have hrest : amem rest k = true := by
    rw [amem_cons] at hmem
    rcases hr : amem rest k with _ | _
    · rw [hr] at hmem
      simp [hne] at hmem
    · rfl
  rw [aset, if_pos (by rw [← amem]; exact hmem), List.map_cons,
    show aset rest k v = rest.map (fun p => if p.1 == k then (k, v) else p) from by
      rw [aset, if_pos (by rw [← amem]; exact hrest)]]
  congr 1
  simp [hne]

theorem mem_leafPaths_aset :
    ∀ (entries : List (String × TrieNode)), entriesWF entries →
      ∀ (k : String) (v : TrieNode) (q : List String),
      (q ∈ leafPaths (aset entries k v) ↔
        (q ∈ nodeLeafPaths k v ∨ (q ∈ leafPaths entries ∧ ∀ tl, q ≠ k :: tl)))
  | [], _, k, v, q => by
    rw [show aset ([] : List (String × TrieNode)) k v = [(k, v)] from rfl,
      leafPaths_cons_node, leafPaths_nil, List.append_nil]
    constructor
    · intro hq
      exact Or.inl hq
    · intro hq
      rcases hq with hq | ⟨hq, _⟩
      · exact hq
      · exact absurd hq (List.not_mem_nil q)
  | (m, node) :: rest, hwf, k, v, q => by
    have hwfr := (entriesWF_cons_node hwf).2
    have hmr := (entriesWF_cons_node hwf).1
    by_cases hmk : m = k
    · subst hmk
      rw [aset_cons_of_eq hwf, leafPaths_cons_node, leafPaths_cons_node]
      constructor
      · intro hq
        rcases List.mem_append.mp hq with hq | hq
        · exact Or.inl hq
        · refine Or.inr ⟨List.mem_append.mpr (Or.inr hq), ?hns⟩
          intro tl habs
          exact not_mem_leafPaths_head hmr q tl hq habs
      · intro hq
        rcases hq with hq | ⟨hq, hns⟩
        · exact List.mem_append.mpr (Or.inl hq)
        · rcases List.mem_append.mp hq with hq | hq
          · rcases nodeLeafPaths_head hq with ⟨tl, rfl⟩
            exact absurd rfl (hns tl)
          · exact List.mem_append.mpr (Or.inr hq)
    · by_cases hmem : amem ((m, node) :: rest) k = true
      · rw [aset_cons_of_ne k hmk hmem, leafPaths_cons_node, leafPaths_cons_node]
        have ih := mem_leafPaths_aset rest hwfr k v q
        constructor
        · intro hq
          rcases List.mem_append.mp hq with hq | hq
          · refine Or.inr ⟨List.mem_append.mpr (Or.inl hq), ?hns2⟩
            intro tl habs
            rcases nodeLeafPaths_head hq with ⟨tl2, rfl⟩
            injection habs with h1 _
            exact hmk h1
          · rcases ih.mp hq with hq | ⟨hq, hns⟩
            · exact Or.inl hq
            · exact Or.inr ⟨List.mem_append.mpr (Or.inr hq), hns⟩
        · intro hq
          rcases hq with hq | ⟨hq, hns⟩
          · exact List.mem_append.mpr (Or.inr (ih.mpr (Or.inl hq)))
          · rcases List.mem_append.mp hq with hq | hq
            · exact List.mem_append.mpr (Or.inl hq)
            · exact List.mem_append.mpr (Or.inr (ih.mpr (Or.inr ⟨hq, hns⟩)))
      · have hmemf : amem ((m, node) :: rest) k = false := by
          rcases hx : amem ((m, node) :: rest) k with _ | _
          · rfl
          · exact absurd hx hmem
        rw [aset_append _ k v hmemf, leafPaths_append,
          show leafPaths [(k, v)] = nodeLeafPaths k v from by
            rw [leafPaths_cons_node, leafPaths_nil, List.append_nil]]
        constructor
        · intro hq
          rcases List.mem_append.mp hq with hq | hq
          · refine Or.inr ⟨hq, ?hns3⟩
            intro tl habs
            exact not_mem_leafPaths_head hmemf q tl hq habs
          · exact Or.inl hq
        · intro hq
          rcases hq with hq | ⟨hq, _⟩
          · exact List.mem_append.mpr (Or.inr hq)
          · exact List.mem_append.mpr (Or.inl hq)

theorem entriesWF_aset :
    ∀ (entries : List (String × TrieNode)), entriesWF entries →
      ∀ (k : String) (v : TrieNode),
      (match v with
        | .leaf _ => True
        | .dir sub => entriesWF sub) →
      entriesWF (aset entries k v)
  | [], _, k, v, hv => by
    rw [show aset ([] : List (String × TrieNode)) k v = [(k, v)] from rfl]
    rcases v with h | sub
    · exact entriesWF_cons_leaf.mpr ⟨rfl, entriesWF_nil⟩
    · exact entriesWF_cons_dir.mpr ⟨rfl, hv, entriesWF_nil⟩
  | (m, node) :: rest, hwf, k, v, hv => by
    have hwfr := (entriesWF_cons_node hwf).2
    have hmr := (entriesWF_cons_node hwf).1
    by_cases hmk : m = k
    · subst hmk
      rw [aset_cons_of_eq hwf]
      rcases v with h | sub
      · exact entriesWF_cons_leaf.mpr ⟨hmr, hwfr⟩
      · exact entriesWF_cons_dir.mpr ⟨hmr, hv, hwfr⟩
    · by_cases hmem : amem ((m, node) :: rest) k = true
      · rw [aset_cons_of_ne k hmk hmem]
        have hwfr2 := entriesWF_aset rest hwfr k v hv
        have hamem : amem (aset rest k v) m = false := by
          rw [amem_aset, hmr]
          simp
          exact fun habs => hmk habs.symm
        rcases node with h | sub
        · exact entriesWF_cons_leaf.mpr ⟨hamem, hwfr2⟩
        · exact entriesWF_cons_dir.mpr
            ⟨hamem, (entriesWF_cons_dir.mp hwf).2.1, hwfr2⟩
      · have hmemf : amem ((m, node) :: rest) k = false := by
          rcases hx : amem ((m, node) :: rest) k with _ | _
          · rfl
          · exact absurd hx hmem
        rw [aset_append _ k v hmemf]
        have hrestf : amem rest k = false := by
          rw [amem_cons] at hmemf
          rcases hy : amem rest k with _ | _
          · rfl
          · rw [hy] at hmemf
            simp at hmemf
        have hsub : entriesWF (rest ++ [(k, v)]) := by
          have h2 := entriesWF_aset rest hwfr k v hv
          rw [aset_append rest k v hrestf] at h2
          exact h2
        have hamem : amem (rest ++ [(k, v)]) m = false := by
          rw [amem, List.any_append, ← amem, hmr]
          simp
          exact fun habs => hmk habs.symm
        rcases node with h | sub
        · rw [List.cons_append]
          exact entriesWF_cons_leaf.mpr ⟨hamem, hsub⟩
        · rw [List.cons_append]
          exact entriesWF_cons_dir.mpr
            ⟨hamem, (entriesWF_cons_dir.mp hwf).2.1, hsub⟩

theorem properPartsPre_nil_iff (y : List String) :
    properPartsPre [] y ↔ y ≠ [] := by
  rw [properPartsPre]
  constructor
  · intro ⟨h1, _⟩
    intro habs
    rw [habs] at h1
    exact absurd h1 (by simp)
  · intro hy
    refine ⟨?h1, by simp⟩
    rcases y with _ | ⟨c, cs⟩
    · exact absurd rfl hy
    · simp

theorem properPartsPre_cons_iff (a b : String) (x y : List String) :
    properPartsPre (a :: x) (b :: y) ↔ (a = b ∧ properPartsPre x y) := by
  rw [properPartsPre, properPartsPre]
  constructor
  · intro ⟨h1, h2⟩
    rw [List.length_cons, List.length_cons] at h1
    rw [List.length_cons, List.take_cons (by omega), Nat.add_sub_cancel] at h2
    injection h2 with h3 h4
    exact ⟨h3.symm, by omega, h4⟩
  · intro ⟨h0, h1, h2⟩
    subst h0
    refine ⟨by simp; omega, ?h3⟩
    rw [List.length_cons, List.take_cons (by omega), Nat.add_sub_cancel, h2]

theorem properPartsPre_head {c : String} {x y : List String}
    (h : properPartsPre (c :: x) y) : ∃ tl, y = c :: tl := by
  rcases y with _ | ⟨b, tl⟩
  · rcases h with ⟨h1, _⟩
    simp at h1
  · rcases (properPartsPre_cons_iff c b x tl).mp h with ⟨rfl, _⟩
    exact ⟨tl, rfl⟩

theorem properPartsPre_single_iff (q : List String) (n : String) :
    properPartsPre q [n] ↔ q = [] := by
  constructor
  · intro ⟨h1, h2⟩
    rw [List.length_singleton] at h1
    have : q.length = 0 := by omega
    exact List.length_eq_zero.mp this
  · intro h
    subst h
    exact (properPartsPre_nil_iff [n]).mpr (by simp)

theorem not_properPartsPre_nil (x : List String) : ¬properPartsPre x [] := by
  intro ⟨h1, _⟩
  simp at h1

theorem trieInsert_single (entries : List (String × TrieNode)) (last fh : String) :
    trieInsert entries [last] fh = .ok (aset entries last (.leaf fh)) := by
  simp [trieInsert]

theorem trieInsert_cons (entries : List (String × TrieNode))
    (part p2 : String) (rest2 : List String) (fh : String) :
    trieInsert entries (part :: p2 :: rest2) fh =
      (match alookup entries part with
      | none =>
          match trieInsert [] (p2 :: rest2) fh with
          | .error e => .error e
          | .ok sub => .ok (aset entries part (.dir sub))
      | some (.leaf _) => .error "Conflict detected"
      | some (.dir sub) =>
          match trieInsert sub (p2 :: rest2) fh with
          | .error e => .error e
          | .ok sub2 => .ok (aset entries part (.dir sub2))) := by
  simp [trieInsert]

theorem trieInsert_cons_none_ok {entries : List (String × TrieNode)}
    {part p2 : String} {rest2 : List String} {fh : String}
    {sub : List (String × TrieNode)}
    (hl : alookup entries part = none)
    (hsub : trieInsert [] (p2 :: rest2) fh = .ok sub) :
    trieInsert entries (part :: p2 :: rest2) fh =
      .ok (aset entries part (.dir sub)) := by
  rw [trieInsert_cons, hl, hsub]

theorem trieInsert_cons_none_err {entries : List (String × TrieNode)}
    {part p2 : String} {rest2 : List String} {fh : String} {e : String}
    (hl : alookup entries part = none)
    (hsub : trieInsert [] (p2 :: rest2) fh = .error e) :
    trieInsert entries (part :: p2 :: rest2) fh = .error e := by
  rw [trieInsert_cons, hl, hsub]

theorem trieInsert_cons_leaf {entries : List (String × TrieNode)}
    {part p2 : String} {rest2 : List String} {fh : String} {h0 : String}
    (hl : alookup entries part = some (.leaf h0)) :
    trieInsert entries (part :: p2 :: rest2) fh = .error "Conflict detected" := by
  rw [trieInsert_cons, hl]

theorem trieInsert_cons_dir_ok {entries : List (String × TrieNode)}
    {part p2 : String} {rest2 : List String} {fh : String}
    {sub sub2 : List (String × TrieNode)}
    (hl : alookup entries part = some (.dir sub))
    (hsub : trieInsert sub (p2 :: rest2) fh = .ok sub2) :
    trieInsert entries (part :: p2 :: rest2) fh =
      .ok (aset entries part (.dir sub2)) := by
  rw [trieInsert_cons, hl]
  show (match trieInsert sub (p2 :: rest2) fh with
    | .error e => Except.error e
    | .ok sub2 => Except.ok (aset entries part (TrieNode.dir sub2))) = _
  rw [hsub]

theorem trieInsert_cons_dir_err {entries : List (String × TrieNode)}
    {part p2 : String} {rest2 : List String} {fh : String} {e : String}
    {sub : List (String × TrieNode)}
    (hl : alookup entries part = some (.dir sub))
    (hsub : trieInsert sub (p2 :: rest2) fh = .error e) :
    trieInsert entries (part :: p2 :: rest2) fh = .error e := by
  rw [trieInsert_cons, hl]
  show (match trieInsert sub (p2 :: rest2) fh with
    | .error e => Except.error e
    | .ok sub2 => Except.ok (aset entries part (TrieNode.dir sub2))) = _
  rw [hsub]

theorem trieInsert_error_iff (fh : String) :
    ∀ (parts : List String) (entries : List (String × TrieNode)),
      entriesWF entries → parts ≠ [] →
      ((∃ e, trieInsert entries parts fh = .error e) ↔
        ∃ q ∈ leafPaths entries, properPartsPre q parts)
  | [], _, _, hne => absurd rfl hne
  | [last], entries, hwf, _ => by
    rw [trieInsert_single]
    constructor
    · intro ⟨e, habs⟩
      exact absurd habs (fun h => nomatch h)
    · intro ⟨q, hq, hpre⟩
      rw [properPartsPre_single_iff] at hpre
      exact absurd hpre (mem_leafPaths_ne_nil entries q hq)
  | part :: p2 :: rest2, entries, hwf, _ => by
    rcases hl : alookup entries part with _ | node
    · constructor
      · intro ⟨e, habs⟩
        rcases hsub : trieInsert [] (p2 :: rest2) fh with e2 | sub
        · exfalso
          have hiff := trieInsert_error_iff fh (p2 :: rest2) [] entriesWF_nil
            (by exact fun h => nomatch h)
          rcases hiff.mp ⟨e2, hsub⟩ with ⟨q, hq, _⟩
          rw [leafPaths_nil] at hq
          exact absurd hq (List.not_mem_nil q)
        · rw [trieInsert_cons_none_ok hl hsub] at habs
          exact absurd habs (fun h => nomatch h)
      · intro ⟨q, hq, hpre⟩
        exfalso
        have hqne := mem_leafPaths_ne_nil entries q hq
        rcases q with _ | ⟨c, q2⟩
        · exact hqne rfl
        · rcases (properPartsPre_cons_iff c part q2 (p2 :: rest2)).mp hpre with ⟨rfl, hpre2⟩
          rcases q2 with _ | ⟨d, q3⟩
          · rcases (mem_leafPaths_single entries hwf c).mp hq with ⟨hh, hl2⟩
            rw [hl] at hl2
            exact nomatch hl2
          · rcases (mem_leafPaths_cons entries hwf c (d :: q3)
                (fun h => nomatch h)).mp hq with ⟨sub, hl2, _⟩
            rw [hl] at hl2
            exact nomatch hl2
    · rcases node with h0 | sub
      · constructor
        · intro _
          refine ⟨[part], ?hm, ?hp⟩
          · exact (mem_leafPaths_single entries hwf part).mpr ⟨h0, hl⟩
          · rw [properPartsPre_cons_iff]
            exact ⟨rfl, (properPartsPre_nil_iff (p2 :: rest2)).mpr (fun h => nomatch h)⟩
        · intro _
          exact ⟨"Conflict detected", trieInsert_cons_leaf hl⟩
      · have hwfs := entriesWF_lookup_dir entries part sub hwf hl
        have hiff := trieInsert_error_iff fh (p2 :: rest2) sub hwfs
          (by exact fun h => nomatch h)
        constructor
        · intro ⟨e, habs⟩
          rcases hsub : trieInsert sub (p2 :: rest2) fh with e2 | sub2
          · rcases hiff.mp ⟨e2, hsub⟩ with ⟨q2, hq2, hpre2⟩
            refine ⟨part :: q2, ?hm2, ?hp2⟩
            · exact (mem_leafPaths_cons entries hwf part q2
                (mem_leafPaths_ne_nil sub q2 hq2)).mpr ⟨sub, hl, hq2⟩
            · rw [properPartsPre_cons_iff]
              exact ⟨rfl, hpre2⟩
          · rw [trieInsert_cons_dir_ok hl hsub] at habs
            exact absurd habs (fun h => nomatch h)
        · intro ⟨q, hq, hpre⟩
          rcases q with _ | ⟨c, q2⟩
          · exact absurd rfl (mem_leafPaths_ne_nil entries [] hq)
          · rcases (properPartsPre_cons_iff c part q2 (p2 :: rest2)).mp hpre with ⟨rfl, hpre2⟩
            rcases q2 with _ | ⟨d, q3⟩
            · rcases (mem_leafPaths_single entries hwf c).mp hq with ⟨hh, hl2⟩
              rw [hl] at hl2
              injection hl2 with hl2
              exact nomatch hl2
            · rcases (mem_leafPaths_cons entries hwf c (d :: q3)
                  (fun h => nomatch h)).mp hq with ⟨sub3, hl2, hq3⟩
              rw [hl] at hl2
              injection hl2 with hl2
              injection hl2 with hl2
              subst hl2
              rcases hsub : trieInsert sub (p2 :: rest2) fh with e2 | sub2
              · exact ⟨e2, trieInsert_cons_dir_err hl hsub⟩
              · exfalso
                have hex : ∃ e, trieInsert sub (p2 :: rest2) fh = .error e :=
                  hiff.mpr ⟨d :: q3, hq3, hpre2⟩
                rcases hex with ⟨e3, habs⟩
                rw [hsub] at habs
                exact nomatch habs

theorem trieInsert_ok (fh : String) :
    ∀ (parts : List String) (entries new : List (String × TrieNode)),
      entriesWF entries → parts ≠ [] →
      trieInsert entries parts fh = .ok new →
      (¬∃ q ∈ leafPaths entries, properPartsPre parts q) →
      (entriesWF new ∧
        ∀ q, (q ∈ leafPaths new ↔ (q = parts ∨ q ∈ leafPaths entries)))
  | [], _, _, _, hne, _, _ => absurd rfl hne
  | [last], entries, new, hwf, _, hok, hnot => by
    rw [trieInsert_single] at hok
    injection hok with hok
    subst hok
    refine ⟨entriesWF_aset entries hwf last (.leaf fh) trivial, ?hmem⟩
    intro q
    rw [mem_leafPaths_aset entries hwf last (.leaf fh) q]
    constructor
    · intro hq
      rcases hq with hq | ⟨hq, _⟩
      · rw [nodeLeafPaths] at hq
        exact Or.inl (List.mem_singleton.mp hq)
      · exact Or.inr hq
    · intro hq
      rcases hq with hq | hq
      · subst hq
        exact Or.inl (by rw [nodeLeafPaths]; exact List.mem_singleton.mpr rfl)
      · by_cases hstart : ∃ tl, q = last :: tl
        · rcases hstart with ⟨tl, rfl⟩
          rcases tl with _ | ⟨d, tl2⟩
          · exact Or.inl (by rw [nodeLeafPaths]; exact List.mem_singleton.mpr rfl)
          · exfalso
            exact hnot ⟨last :: d :: tl2, hq,
              by
                rw [properPartsPre_cons_iff]
                exact ⟨rfl, (properPartsPre_nil_iff (d :: tl2)).mpr (fun h => nomatch h)⟩⟩
        · exact Or.inr ⟨hq, fun tl habs => hstart ⟨tl, habs⟩⟩
  | part :: p2 :: rest2, entries, new, hwf, _, hok, hnot => by
    rcases hl : alookup entries part with _ | node
    · rcases hsub : trieInsert [] (p2 :: rest2) fh with e2 | sub
      · rw [trieInsert_cons_none_err hl hsub] at hok
        exact absurd hok (fun h => nomatch h)
      · rw [trieInsert_cons_none_ok hl hsub] at hok
        injection hok with hok
        subst hok
        have hih := trieInsert_ok fh (p2 :: rest2) [] sub entriesWF_nil
          (fun h => nomatch h) hsub
          (by
            intro ⟨q, hq, _⟩
            rw [leafPaths_nil] at hq
            exact absurd hq (List.not_mem_nil q))
        refine ⟨entriesWF_aset entries hwf part (.dir sub) hih.1, ?hmem2⟩
        intro q
        rw [mem_leafPaths_aset entries hwf part (.dir sub) q]
        constructor
        · intro hq
          rcases hq with hq | ⟨hq, _⟩
          · rw [nodeLeafPaths] at hq
            rcases List.mem_map.mp hq with ⟨q2, hq2, rfl⟩
            rcases (hih.2 q2).mp hq2 with rfl | hq3
            · exact Or.inl rfl
            · rw [leafPaths_nil] at hq3
              exact absurd hq3 (List.not_mem_nil q2)
          · exact Or.inr hq
        · intro hq
          rcases hq with hq | hq
          · subst hq
            refine Or.inl ?hn
            rw [nodeLeafPaths]
            exact List.mem_map.mpr ⟨p2 :: rest2, (hih.2 (p2 :: rest2)).mpr (Or.inl rfl), rfl⟩
          · refine Or.inr ⟨hq, ?hns⟩
            intro tl habs
            subst habs
            rcases tl with _ | ⟨d, tl2⟩
            · rcases (mem_leafPaths_single entries hwf part).mp hq with ⟨hh, hl2⟩
              rw [hl] at hl2
              exact nomatch hl2
            · rcases (mem_leafPaths_cons entries hwf part (d :: tl2)
                  (fun h => nomatch h)).mp hq with ⟨sub3, hl2, _⟩
              rw [hl] at hl2
              exact nomatch hl2
    · rcases node with h0 | sub
      · rw [trieInsert_cons_leaf hl] at hok
        exact absurd hok (fun h => nomatch h)
      · have hwfs := entriesWF_lookup_dir entries part sub hwf hl
        rcases hsub : trieInsert sub (p2 :: rest2) fh with e2 | sub2
        · rw [trieInsert_cons_dir_err hl hsub] at hok
          exact absurd hok (fun h => nomatch h)
        · rw [trieInsert_cons_dir_ok hl hsub] at hok
          injection hok with hok
          subst hok
          have hih := trieInsert_ok fh (p2 :: rest2) sub sub2 hwfs
            (fun h => nomatch h) hsub
            (by
              intro ⟨q2, hq2, hpre2⟩
              refine hnot ⟨part :: q2, ?hmm, ?hpp⟩
              · exact (mem_leafPaths_cons entries hwf part q2
                  (mem_leafPaths_ne_nil sub q2 hq2)).mpr ⟨sub, hl, hq2⟩
              · rw [properPartsPre_cons_iff]
                exact ⟨rfl, hpre2⟩)
          refine ⟨entriesWF_aset entries hwf part (.dir sub2) hih.1, ?hmem3⟩
          intro q
          rw [mem_leafPaths_aset entries hwf part (.dir sub2) q]
          constructor
          · intro hq
            rcases hq with hq | ⟨hq, _⟩
            · rw [nodeLeafPaths] at hq
              rcases List.mem_map.mp hq with ⟨q2, hq2, rfl⟩
              rcases (hih.2 q2).mp hq2 with rfl | hq3
              · exact Or.inl rfl
              · exact Or.inr ((mem_leafPaths_cons entries hwf part q2
                  (mem_leafPaths_ne_nil sub q2 hq3)).mpr ⟨sub, hl, hq3⟩)
            · exact Or.inr hq
          · intro hq
            rcases hq with hq | hq
            · subst hq
              refine Or.inl ?hn2
              rw [nodeLeafPaths]
              exact List.mem_map.mpr ⟨p2 :: rest2, (hih.2 (p2 :: rest2)).mpr (Or.inl rfl), rfl⟩
            · by_cases hstart : ∃ tl, q = part :: tl
              · rcases hstart with ⟨tl, rfl⟩
                rcases tl with _ | ⟨d, tl2⟩
                · exfalso
                  rcases (mem_leafPaths_single entries hwf part).mp hq with ⟨hh, hl2⟩
                  rw [hl] at hl2
                  injection hl2 with hl2
                  exact nomatch hl2
                · rcases (mem_leafPaths_cons entries hwf part (d :: tl2)
                      (fun h => nomatch h)).mp hq with ⟨sub3, hl2, hq3⟩
                  rw [hl] at hl2
                  injection hl2 with hl2
                  injection hl2 with hl2
                  subst hl2
                  refine Or.inl ?hn3
                  rw [nodeLeafPaths]
                  exact List.mem_map.mpr ⟨d :: tl2, (hih.2 (d :: tl2)).mpr (Or.inr hq3), rfl⟩
              · exact Or.inr ⟨hq, fun tl habs => hstart ⟨tl, habs⟩⟩

/-! ### Running the whole index through the trie -/

theorem buildTrie_nil (root : List (String × TrieNode)) :
    buildTrie [] root = .ok root := rfl

theorem buildTrie_cons (k h : String) (rest : List (String × String))
    (root : List (String × TrieNode)) :
    buildTrie ((k, h) :: rest) root =
      (match trieInsert root (splitPath k) h with
      | .error e => .error e
      | .ok root2 => buildTrie rest root2) := by
  simp [buildTrie]

theorem buildTrie_cons_ok {k h : String} {rest : List (String × String)}
    {root root2 : List (String × TrieNode)}
    (hi : trieInsert root (splitPath k) h = .ok root2) :
    buildTrie ((k, h) :: rest) root = buildTrie rest root2 := by
  rw [buildTrie_cons, hi]

theorem buildTrie_cons_err {k h : String} {rest : List (String × String)}
    {root : List (String × TrieNode)} {e : String}
    (hi : trieInsert root (splitPath k) h = .error e) :
    buildTrie ((k, h) :: rest) root = .error e := by
  rw [buildTrie_cons, hi]

theorem buildTrie_ok :
    ∀ (items : List (String × String)) (root : List (String × TrieNode)),
      entriesWF root →
      (∀ k ∈ items.map Prod.fst, splitPath k ≠ []) →
      (∀ k ∈ items.map Prod.fst, ∀ q ∈ leafPaths root,
          ¬ properPartsPre q (splitPath k) ∧ ¬ properPartsPre (splitPath k) q) →
      (∀ k1 ∈ items.map Prod.fst, ∀ k2 ∈ items.map Prod.fst,
          ¬ properPartsPre (splitPath k1) (splitPath k2)) →
      ∃ root2, buildTrie items root = .ok root2 ∧ entriesWF root2 ∧
        (∀ q, q ∈ leafPaths root2 ↔
          ((∃ k ∈ items.map Prod.fst, q = splitPath k) ∨ q ∈ leafPaths root))
  | [], root, hwf, _, _, _ => by
    refine ⟨root, buildTrie_nil root, hwf, ?hiff⟩
    intro q
    simp
  | (k, h) :: rest, root, hwf, hne, hcross, hpair => by
    have hkmem : k ∈ ((k, h) :: rest).map Prod.fst := by
      simp
    have hrmem : ∀ k2 ∈ rest.map Prod.fst, k2 ∈ ((k, h) :: rest).map Prod.fst := by
      intro k2 hk2
      simp only [List.map_cons, List.mem_cons]
      exact Or.inr hk2
    have hkne := hne k hkmem
    rcases hi : trieInsert root (splitPath k) h with e | new
    · exfalso
      rcases (trieInsert_error_iff h (splitPath k) root hwf hkne).mp ⟨e, hi⟩
        with ⟨q, hq, hpre⟩
      exact (hcross k hkmem q hq).1 hpre
    · have hok := trieInsert_ok h (splitPath k) root new hwf hkne hi
        (fun ⟨q, hq, hpre⟩ => (hcross k hkmem q hq).2 hpre)
      obtain ⟨hwf2, hmem⟩ := hok
      obtain ⟨root2, hrun, hwf3, hmem2⟩ := buildTrie_ok rest new hwf2
        (fun k2 hk2 => hne k2 (hrmem k2 hk2))
        (by
          intro k2 hk2 q hq
          rcases (hmem q).mp hq with rfl | hqo
          · exact ⟨hpair k (hkmem) k2 (hrmem k2 hk2),
              hpair k2 (hrmem k2 hk2) k hkmem⟩
          · exact hcross k2 (hrmem k2 hk2) q hqo)
        (fun k1 hk1 k2 hk2 => hpair k1 (hrmem k1 hk1) k2 (hrmem k2 hk2))
      refine ⟨root2, ?hrun2, hwf3, ?hiff2⟩
      · rw [buildTrie_cons_ok hi]
        exact hrun
      · intro q
        rw [hmem2 q]
        constructor
        · intro hq
          rcases hq with ⟨k2, hk2, rfl⟩ | hq
          · exact Or.inl ⟨k2, hrmem k2 hk2, rfl⟩
          · rcases (hmem q).mp hq with rfl | hqo
            · exact Or.inl ⟨k, hkmem, rfl⟩
            · exact Or.inr hqo
        · intro hq
          rcases hq with ⟨k2, hk2, rfl⟩ | hq
          · rw [List.map_cons, List.mem_cons] at hk2
            rcases hk2 with rfl | hk2r
            · exact Or.inr ((hmem (splitPath k2)).mpr (Or.inl rfl))
            · exact Or.inl ⟨k2, hk2r, rfl⟩
          · exact Or.inr ((hmem q).mpr (Or.inr hq))

theorem buildTrie_err :
    ∀ (items : List (String × String)) (root : List (String × TrieNode)),
      entriesWF root →
      (∀ k ∈ items.map Prod.fst, splitPath k ≠ []) →
      (∀ k ∈ items.map Prod.fst, ∀ q ∈ leafPaths root,
          ¬ properPartsPre (splitPath k) q) →
      List.Pairwise
        (fun a b => ¬ properPartsPre (splitPath b.1) (splitPath a.1)) items →
      ((∃ k ∈ items.map Prod.fst, ∃ q ∈ leafPaths root,
          properPartsPre q (splitPath k)) ∨
       (∃ k1 ∈ items.map Prod.fst, ∃ k2 ∈ items.map Prod.fst,
          properPartsPre (splitPath k1) (splitPath k2))) →
      ∃ e, buildTrie items root = .error e
  | [], _, _, _, _, _, hcol => by
    rcases hcol with ⟨k, hk, _⟩ | ⟨k, hk, _⟩ <;>
      · rw [List.map_nil] at hk
        exact absurd hk (List.not_mem_nil k)
  | (k, h) :: rest, root, hwf, hne, hnoext, hpw, hcol => by
    have hkmem : k ∈ ((k, h) :: rest).map Prod.fst := by
      simp
    have hrmem : ∀ k2 ∈ rest.map Prod.fst, k2 ∈ ((k, h) :: rest).map Prod.fst := by
      intro k2 hk2
      simp only [List.map_cons, List.mem_cons]
      exact Or.inr hk2
    have hkne := hne k hkmem
    rcases List.pairwise_cons.mp hpw with ⟨hhead, hpwr⟩
    have hheadk : ∀ k2 ∈ rest.map Prod.fst,
        ¬ properPartsPre (splitPath k2) (splitPath k) := by
      intro k2 hk2
      rcases List.mem_map.mp hk2 with ⟨b, hb, rfl⟩
      exact hhead b hb
    rcases hi : trieInsert root (splitPath k) h with e | new
    · exact ⟨e, buildTrie_cons_err hi⟩
    · have hnoq : ¬∃ q ∈ leafPaths root, properPartsPre q (splitPath k) := by
        intro hq
        rcases (trieInsert_error_iff h (splitPath k) root hwf hkne).mpr hq
          with ⟨e, habs⟩
        rw [hi] at habs
        exact nomatch habs
      have hok := trieInsert_ok h (splitPath k) root new hwf hkne hi
        (fun ⟨q, hq, hpre⟩ => hnoext k hkmem q hq hpre)
      obtain ⟨hwf2, hmem⟩ := hok
      have hrest := buildTrie_err rest new hwf2
        (fun k2 hk2 => hne k2 (hrmem k2 hk2))
        (by
          intro k2 hk2 q hq hpre
          rcases (hmem q).mp hq with rfl | hqo
          · exact hheadk k2 hk2 hpre
          · exact hnoext k2 (hrmem k2 hk2) q hqo hpre)
        hpwr
        (by
          rcases hcol with ⟨k0, hk0, q, hq, hpre⟩ | ⟨k1, hk1, k2, hk2, hpre⟩
          · rw [List.map_cons, List.mem_cons] at hk0
            rcases hk0 with rfl | hk0r
            · exact absurd ⟨q, hq, hpre⟩ hnoq
            · exact Or.inl ⟨k0, hk0r, q, (hmem q).mpr (Or.inr hq), hpre⟩
          · rw [List.map_cons, List.mem_cons] at hk1 hk2
            rcases hk1 with rfl | hk1r
            · rcases hk2 with rfl | hk2r
              · exact absurd hpre.1 (lt_irrefl _)
              · exact Or.inl ⟨k2, hk2r, splitPath k1,
                  (hmem (splitPath k1)).mpr (Or.inl rfl), hpre⟩
            · rcases hk2 with rfl | hk2r
              · exact absurd hpre (hheadk k1 hk1r)
              · exact Or.inr ⟨k1, hk1r, k2, hk2r, hpre⟩)
      rcases hrest with ⟨e, herr⟩
      refine ⟨e, ?hfin⟩
      rw [buildTrie_cons_ok hi]
      exact herr

/-! ### Canonical paths and alphabetical order -/

theorem joinParts_cons (p q : String) (rest : List String) :
    joinParts (p :: q :: rest) = p ++ "/" ++ joinParts (q :: rest) := by
  simp [joinParts]

theorem joinParts_append :
    ∀ (a : List String) (d : List String), a ≠ [] → d ≠ [] →
      joinParts (a ++ d) = joinParts a ++ "/" ++ joinParts d
  | [], _, ha, _ => absurd rfl ha
  | [x], d, _, hd => by
    rcases d with _ | ⟨z, d2⟩
    · exact absurd rfl hd
    · rw [List.singleton_append, joinParts_cons]
      simp [joinParts]
  | x :: y :: t2, d, _, hd => by
    have ih := joinParts_append (y :: t2) d (fun h => nomatch h) hd
    rw [List.cons_append] at ih
    rw [List.cons_append, List.cons_append, joinParts_cons, ih, joinParts_cons]
    simp only [String.append_assoc]

theorem lex_lt_append_cons (l : List Char) (c : Char) (m : List Char) :
    List.Lex (· < ·) l (l ++ c :: m) := by
  induction l with
  | nil => exact List.Lex.nil
  | cons a t ih => exact List.Lex.cons ih

theorem string_lt_append_ne (s t : String) (ht : t.data ≠ []) : s < s ++ t := by
  rw [String.lt_iff_toList_lt]
  rcases hd : t.data with _ | ⟨c, m⟩
  · exact absurd hd ht
  · have h1 : (s ++ t).toList = s.toList ++ c :: m := by
      show (s ++ t).data = s.data ++ c :: m
      rw [String.data_append, hd]
    rw [h1]
    exact lex_lt_append_cons s.toList c m

theorem joinParts_lt_of_properPre (a b : List String) (ha : a ≠ [])
    (h : properPartsPre a b) : joinParts a < joinParts b := by
  obtain ⟨hlen, htake⟩ := h
  have hb : b = a ++ b.drop a.length := by
    conv_lhs => rw [← List.take_append_drop a.length b]
    rw [htake]
  have hd : b.drop a.length ≠ [] := by
    intro habs
    have h2 : (b.drop a.length).length = b.length - a.length := List.length_drop _ _
    rw [habs] at h2
    simp only [List.length_nil] at h2
    omega
  rw [hb, joinParts_append a _ ha hd, String.append_assoc]
  apply string_lt_append_ne
  rw [String.data_append]
  intro habs
  have : ("/" : String).data = [] := (List.append_eq_nil.mp habs).1
  exact nomatch this

/-! ### The main tree-from-index theorem -/

theorem build_tree_resolved_ok (hashObject : Tree → Hash)
    {index : List (String × String)} {root2 : List (String × TrieNode)}
    (hb : buildTrie index [] = .ok root2) :
    build_tree_from_index hashObject index =
      .ok ((buildEntries hashObject root2).1
            ++ [Tree.mk (buildEntries hashObject root2).2],
          hashObject (Tree.mk (buildEntries hashObject root2).2)) := by
  rw [build_tree_from_index, hb]

theorem build_tree_resolved_err (hashObject : Tree → Hash)
    {index : List (String × String)} {e : String}
    (hb : buildTrie index [] = .error e) :
    build_tree_from_index hashObject index = .error e := by
  rw [build_tree_from_index, hb]

/-- Claim C9 (index-to-tree collision).  For every index mapping whose
keys are canonical nonempty repo-relative paths listed in sorted order
(the shape `read_index` produces for an index maintained by
`merge_index`), `build_tree_from_index` fails with the conflict error
exactly when some path's components are a proper prefix of another
path's components — a file where a directory is required or a directory
where a file is required — and in the absence of such collisions it
succeeds, building the trie of all index paths, saving every constructed
tree (the root tree last) and returning the root tree's hash. -/
theorem build_tree_from_index_collision (hashObject : Tree → Hash)
    (index : List (String × String))
    (hne : ∀ k ∈ index.map Prod.fst, splitPath k ≠ [])
    (hcanon : ∀ k ∈ index.map Prod.fst, joinParts (splitPath k) = k)
    (hsorted : List.Pairwise (fun a b => a < b) (index.map Prod.fst)) :
    ((∃ e, build_tree_from_index hashObject index = .error e) ↔
        pathCollision (index.map Prod.fst)) ∧
    (¬ pathCollision (index.map Prod.fst) →
      ∃ root2,
        buildTrie index [] = .ok root2 ∧
        (∀ q, q ∈ leafPaths root2 ↔ ∃ k ∈ index.map Prod.fst, q = splitPath k) ∧
        build_tree_from_index hashObject index =
          .ok ((buildEntries hashObject root2).1
                ++ [Tree.mk (buildEntries hashObject root2).2],
              hashObject (Tree.mk (buildEntries hashObject root2).2))) := by
  have hpw : List.Pairwise
      (fun a b : String × String =>
        ¬ properPartsPre (splitPath b.1) (splitPath a.1)) index := by
    have h1 : List.Pairwise (fun a b : String × String => a.1 < b.1) index :=
      List.pairwise_map.mp hsorted
    refine h1.imp_of_mem ?f
    intro a b ha hb hlt hpre
    have hma : a.1 ∈ index.map Prod.fst := List.mem_map.mpr ⟨a, ha, rfl⟩
    have hmb : b.1 ∈ index.map Prod.fst := List.mem_map.mpr ⟨b, hb, rfl⟩
    have hlt2 : b.1 < a.1 := by
      have h2 := joinParts_lt_of_properPre (splitPath b.1) (splitPath a.1)
        (hne b.1 hmb) hpre
      rwa [hcanon b.1 hmb, hcanon a.1 hma] at h2
    exact absurd hlt (lt_asymm hlt2)
  have hsucc : ¬ pathCollision (index.map Prod.fst) →
      ∃ root2,
        buildTrie index [] = .ok root2 ∧
        (∀ q, q ∈ leafPaths root2 ↔ ∃ k ∈ index.map Prod.fst, q = splitPath k) ∧
        build_tree_from_index hashObject index =
          .ok ((buildEntries hashObject root2).1
                ++ [Tree.mk (buildEntries hashObject root2).2],
              hashObject (Tree.mk (buildEntries hashObject root2).2)) := by
    intro hnc
    obtain ⟨root2, hrun, _, hmem⟩ := buildTrie_ok index [] entriesWF_nil hne
      (by
        intro k _ q hq
        rw [leafPaths_nil] at hq
        exact absurd hq (List.not_mem_nil q))
      (by
        intro k1 h1 k2 h2 hpre
        exact hnc ⟨k1, h1, k2, h2, hpre⟩)
    refine ⟨root2, hrun, ?hm, build_tree_resolved_ok hashObject hrun⟩
    intro q
    rw [hmem q, leafPaths_nil]
    simp
  refine ⟨⟨?dir1, ?dir2⟩, hsucc⟩
  · intro ⟨e, herr⟩
    by_contra hnc
    obtain ⟨root2, hrun, _, hb⟩ := hsucc hnc
    rw [hb] at herr
    exact nomatch herr
  · intro hcol
    obtain ⟨k1, h1, k2, h2, hpre⟩ := hcol
    obtain ⟨e, herr⟩ := buildTrie_err index [] entriesWF_nil hne
      (by
        intro k _ q hq
        rw [leafPaths_nil] at hq
        exact absurd hq (List.not_mem_nil q))
      hpw
      (Or.inr ⟨k1, h1, k2, h2, hpre⟩)
    exact ⟨e, build_tree_resolved_err hashObject herr⟩

/-- Witness for C9 at a concrete colliding index: `a` maps to a file
hash while `a/b` needs `a` to be a directory, so the build fails. -/
theorem build_tree_from_index_collision_witness :
    pathCollision ["a", "a/b"] ∧
    (∃ e, build_tree_from_index (fun _ => "feed")
      [("a", "1111"), ("a/b", "2222")] = .error e) := by
  have hs : List.Pairwise (fun a b : String => a < b) ["a", "a/b"] := by
    refine List.pairwise_cons.mpr ⟨?h1, ?h2⟩
    · intro b hb
      rw [List.mem_singleton] at hb
      subst hb
      rw [String.lt_iff_toList_lt]
      decide
    · exact List.pairwise_singleton _ _
  have h := build_tree_from_index_collision (fun _ => "feed")
    [("a", "1111"), ("a/b", "2222")] (by decide) (by decide) hs
  exact ⟨by decide, h.1.mpr (by decide)⟩

/-! ## Merge base (`merge.py:merge_base`)

`merge_base` walks the first-parent ancestors of both commits in
interleaved steps with a shared visited set, returning the first commit
observed in the set, and `None` when both histories end without an
intersection.  The store is modelled by its first-parent function
`next : Hash → Option Hash` (`load_commit` failure and an empty parent
list both end a branch, exactly as in the `except` clause), and the
unbounded `while` loop by a fuel parameter large enough for the finite
histories the claim quantifies over. -/

/-- One interleaved round of `merge_base`: process cursor 1, then
cursor 2, against the shared visited set; `some (some c)` is an early
`return c`, `some none` the fall-through `return None`, and `none`
means the fuel ran out before the loop exited. -/
def mergeBaseLoop (next : Hash → Option Hash) :
    Nat → List Hash → Option Hash → Option Hash → Option (Option Hash)
  | 0, _, _, _ => none
  | fuel+1, visited, curr1, curr2 =>
      match curr1, curr2 with
      | none, none => some none
      | none, some c2 =>
          if c2 ∈ visited then some (some c2)
          else mergeBaseLoop next fuel (c2 :: visited) none (next c2)
      | some c1, none =>
          if c1 ∈ visited then some (some c1)
          else mergeBaseLoop next fuel (c1 :: visited) (next c1) none
      | some c1, some c2 =>
          if c1 ∈ visited then some (some c1)
          else if c2 ∈ c1 :: visited then some (some c2)
          else mergeBaseLoop next fuel (c2 :: c1 :: visited) (next c1) (next c2)

/-- `merge_base(commit_hash1, commit_hash2)`. -/
def merge_base (next : Hash → Option Hash) (fuel : Nat) (a b : Hash) :
    Option (Option Hash) :=
  mergeBaseLoop next fuel [] (some a) (some b)

/-- The first-parent chain: `chainFrom next a i` is the `i`-th
first-parent ancestor of `a` (`a` itself at 0), `none` once the history
has ended. -/
def chainFrom (next : Hash → Option Hash) (a : Hash) : Nat → Option Hash
  | 0 => some a
  | n+1 =>
      match chainFrom next a n with
      | none => none
      | some c => next c

/-- The two first-parent chains pass through a common commit at
offsets `i` and `j`. -/
def meetsAt (next : Hash → Option Hash) (a b : Hash) (i j : Nat) : Prop :=
  ∃ c, chainFrom next a i = some c ∧ chainFrom next b j = some c

/-- The first-parent chain of `a` never revisits a commit (true of any
well-formed commit graph). -/
def acyclicFrom (next : Hash → Option Hash) (a : Hash) : Prop :=
  ∀ i j c, chainFrom next a i = some c → chainFrom next a j = some c → i = j

/-- The visited set after `k` interleaved rounds: exactly the chain
entries of both sides below `k`. -/
def visitedSpec (next : Hash → Option Hash) (a b : Hash) (k : Nat)
    (visited : List Hash) : Prop :=
  ∀ c : Hash, c ∈ visited ↔
    ((∃ i, i < k ∧ chainFrom next a i = some c) ∨
     (∃ j, j < k ∧ chainFrom next b j = some c))

theorem chainFrom_zero (next : Hash → Option Hash) (a : Hash) :
    chainFrom next a 0 = some a := rfl

theorem chainFrom_succ_some {next : Hash → Option Hash} {a c : Hash} {n : Nat}
    (h : chainFrom next a n = some c) :
    chainFrom next a (n+1) = next c := by
  simp [chainFrom, h]

theorem chainFrom_succ_none {next : Hash → Option Hash} {a : Hash} {n : Nat}
    (h : chainFrom next a n = none) :
    chainFrom next a (n+1) = none := by
  simp [chainFrom, h]

theorem chainFrom_none_add {next : Hash → Option Hash} {a : Hash} {n : Nat}
    (h : chainFrom next a n = none) :
    ∀ d, chainFrom next a (n + d) = none
  | 0 => h
  | d+1 => by
    rw [Nat.add_succ]
    exact chainFrom_succ_none (chainFrom_none_add h d)

theorem chainFrom_none_le {next : Hash → Option Hash} {a : Hash} {n m : Nat}
    (h : chainFrom next a n = none) (hle : n ≤ m) :
    chainFrom next a m = none := by
  obtain ⟨d, rfl⟩ := Nat.exists_eq_add_of_le hle
  exact chainFrom_none_add h d

theorem chainFrom_lt_of_some {next : Hash → Option Hash} {a c : Hash}
    {i n : Nat} (hn : chainFrom next a n = none)
    (hi : chainFrom next a i = some c) : i < n := by
  by_contra hge
  rw [chainFrom_none_le hn (by omega)] at hi
  exact nomatch hi

theorem chainFrom_add (next : Hash → Option Hash) (a : Hash) (i : Nat) :
    ∀ d, chainFrom next a (i + d) =
      (match chainFrom next a i with
      | none => none
      | some c => chainFrom next c d)
  | 0 => by
    rcases h : chainFrom next a i with _ | c
    · simpa using h
    · simpa using h
  | d+1 => by
    have ih := chainFrom_add next a i d
    rcases h : chainFrom next a i with _ | c
    · rw [h] at ih
      rw [Nat.add_succ]
      exact chainFrom_succ_none ih
    · rw [h] at ih
      have ih2 : chainFrom next a (i + d) = chainFrom next c d := ih
      rw [Nat.add_succ]
      show chainFrom next a ((i + d) + 1) = chainFrom next c (d + 1)
      rcases h2 : chainFrom next c d with _ | e
      · rw [h2] at ih2
        rw [chainFrom_succ_none ih2, chainFrom_succ_none h2]
      · rw [h2] at ih2
        rw [chainFrom_succ_some ih2, chainFrom_succ_some h2]

theorem meetsAt_swap {next : Hash → Option Hash} {a b : Hash} {i j : Nat} :
    meetsAt next a b i j ↔ meetsAt next b a j i := by
  constructor <;> (rintro ⟨c, h1, h2⟩; exact ⟨c, h2, h1⟩)

theorem acyclicFrom_of_nodup (next : Hash → Option Hash) (a : Hash) (N : Nat)
    (hN : chainFrom next a N = none)
    (hnd : ((List.range N).map (fun i => chainFrom next a i)).Nodup) :
    acyclicFrom next a := by
  intro i j c h1 h2
  have hi : i < N := chainFrom_lt_of_some hN h1
  have hj : j < N := chainFrom_lt_of_some hN h2
  have hlen : ((List.range N).map (fun i => chainFrom next a i)).length = N := by
    simp
  have hgi : ((List.range N).map (fun i => chainFrom next a i)).get
      ⟨i, by omega⟩ = chainFrom next a i := by
    simp
  have hgj : ((List.range N).map (fun i => chainFrom next a i)).get
      ⟨j, by omega⟩ = chainFrom next a j := by
    simp
  have heq : ((List.range N).map (fun i => chainFrom next a i)).get ⟨i, by omega⟩
      = ((List.range N).map (fun i => chainFrom next a i)).get ⟨j, by omega⟩ := by
    rw [hgi, hgj, h1, h2]
  have := (List.Nodup.get_inj_iff hnd).mp heq
  simpa using this

theorem mergeBaseLoop_none_none (next : Hash → Option Hash) (fuel : Nat)
    (visited : List Hash) :
    mergeBaseLoop next (fuel+1) visited none none = some none := rfl

theorem mergeBaseLoop_trig1 {next : Hash → Option Hash} {fuel : Nat}
    {visited : List Hash} {c1 : Hash} (curr2 : Option Hash)
    (hc1 : c1 ∈ visited) :
    mergeBaseLoop next (fuel+1) visited (some c1) curr2 = some (some c1) := by
  cases curr2 <;> simp [mergeBaseLoop, hc1]

theorem mergeBaseLoop_trig2_none {next : Hash → Option Hash} {fuel : Nat}
    {visited : List Hash} {c2 : Hash} (hc2 : c2 ∈ visited) :
    mergeBaseLoop next (fuel+1) visited none (some c2) = some (some c2) := by
  simp [mergeBaseLoop, hc2]

theorem mergeBaseLoop_trig2_some {next : Hash → Option Hash} {fuel : Nat}
    {visited : List Hash} {c1 c2 : Hash} (hc1 : c1 ∉ visited)
    (hc2 : c2 ∈ c1 :: visited) :
    mergeBaseLoop next (fuel+1) visited (some c1) (some c2) = some (some c2) := by
  simp [mergeBaseLoop, hc1, hc2]

theorem mergeBaseLoop_step_none_some {next : Hash → Option Hash} {fuel : Nat}
    {visited : List Hash} {c2 : Hash} (hc2 : c2 ∉ visited) :
    mergeBaseLoop next (fuel+1) visited none (some c2)
      = mergeBaseLoop next fuel (c2 :: visited) none (next c2) := by
  simp [mergeBaseLoop, hc2]

theorem mergeBaseLoop_step_some_none {next : Hash → Option Hash} {fuel : Nat}
    {visited : List Hash} {c1 : Hash} (hc1 : c1 ∉ visited) :
    mergeBaseLoop next (fuel+1) visited (some c1) none
      = mergeBaseLoop next fuel (c1 :: visited) (next c1) none := by
  simp [mergeBaseLoop, hc1]

theorem mergeBaseLoop_step_some_some {next : Hash → Option Hash} {fuel : Nat}
    {visited : List Hash} {c1 c2 : Hash} (hc1 : c1 ∉ visited)
    (hc2 : c2 ∉ c1 :: visited) :
    mergeBaseLoop next (fuel+1) visited (some c1) (some c2)
      = mergeBaseLoop next fuel (c2 :: c1 :: visited) (next c1) (next c2) := by
  simp [mergeBaseLoop, hc1, hc2]

theorem mergeBaseLoop_step (next : Hash → Option Hash) (a b : Hash)
    (hA : acyclicFrom next a) (hB : acyclicFrom next b)
    (fuel k : Nat) (visited : List Hash)
    (hv : visitedSpec next a b k visited)
    (h1 : ∀ j, j < k → ¬ meetsAt next a b k j)
    (h2 : ∀ i, i ≤ k → ¬ meetsAt next a b i k)
    (hcont : chainFrom next a k ≠ none ∨ chainFrom next b k ≠ none) :
    ∃ visited2, visitedSpec next a b (k+1) visited2 ∧
      mergeBaseLoop next (fuel+1) visited (chainFrom next a k) (chainFrom next b k)
        = mergeBaseLoop next fuel visited2
            (chainFrom next a (k+1)) (chainFrom next b (k+1)) := by
  rcases hA1 : chainFrom next a k with _ | c1 <;>
    rcases hB1 : chainFrom next b k with _ | c2
  · rw [hA1, hB1] at hcont
    rcases hcont with hcont | hcont <;> exact absurd rfl hcont
  · have hc2 : c2 ∉ visited := by
      intro hmem
      rcases (hv c2).mp hmem with ⟨i, hik, hai⟩ | ⟨j, hjk, hbj⟩
      · exact h2 i (by omega) ⟨c2, hai, hB1⟩
      · exact absurd (hB j k c2 hbj hB1) (by omega)
    refine ⟨c2 :: visited, ?hv2, ?heq⟩
    · intro c
      rw [List.mem_cons, hv c]
      constructor
      · intro hc
        rcases hc with rfl | ⟨i, hik, hai⟩ | ⟨j, hjk, hbj⟩
        · exact Or.inr ⟨k, by omega, hB1⟩
        · exact Or.inl ⟨i, by omega, hai⟩
        · exact Or.inr ⟨j, by omega, hbj⟩
      · intro hc
        rcases hc with ⟨i, hik, hai⟩ | ⟨j, hjk, hbj⟩
        · rcases Nat.lt_succ_iff_lt_or_eq.mp hik with hik | rfl
          · exact Or.inr (Or.inl ⟨i, hik, hai⟩)
          · rw [hA1] at hai
            exact nomatch hai
        · rcases Nat.lt_succ_iff_lt_or_eq.mp hjk with hjk | rfl
          · exact Or.inr (Or.inr ⟨j, hjk, hbj⟩)
          · rw [hB1] at hbj
            injection hbj with hbj
            exact Or.inl hbj.symm
    · rw [chainFrom_succ_none hA1, chainFrom_succ_some hB1]
      exact mergeBaseLoop_step_none_some hc2
  · have hc1 : c1 ∉ visited := by
      intro hmem
      rcases (hv c1).mp hmem with ⟨i, hik, hai⟩ | ⟨j, hjk, hbj⟩
      · exact absurd (hA i k c1 hai hA1) (by omega)
      · exact h1 j hjk ⟨c1, hA1, hbj⟩
    refine ⟨c1 :: visited, ?hv3, ?heq2⟩
    · intro c
      rw [List.mem_cons, hv c]
      constructor
      · intro hc
        rcases hc with rfl | ⟨i, hik, hai⟩ | ⟨j, hjk, hbj⟩
        · exact Or.inl ⟨k, by omega, hA1⟩
        · exact Or.inl ⟨i, by omega, hai⟩
        · exact Or.inr ⟨j, by omega, hbj⟩
      · intro hc
        rcases hc with ⟨i, hik, hai⟩ | ⟨j, hjk, hbj⟩
        · rcases Nat.lt_succ_iff_lt_or_eq.mp hik with hik | rfl
          · exact Or.inr (Or.inl ⟨i, hik, hai⟩)
          · rw [hA1] at hai
            injection hai with hai
            exact Or.inl hai.symm
        · rcases Nat.lt_succ_iff_lt_or_eq.mp hjk with hjk | rfl
          · exact Or.inr (Or.inr ⟨j, hjk, hbj⟩)
          · rw [hB1] at hbj
            exact nomatch hbj
    · rw [chainFrom_succ_some hA1, chainFrom_succ_none hB1]
      exact mergeBaseLoop_step_some_none hc1
  · have hc1 : c1 ∉ visited := by
      intro hmem
      rcases (hv c1).mp hmem with ⟨i, hik, hai⟩ | ⟨j, hjk, hbj⟩
      · exact absurd (hA i k c1 hai hA1) (by omega)
      · exact h1 j hjk ⟨c1, hA1, hbj⟩
    have hc2 : c2 ∉ c1 :: visited := by
      intro hmem
      rcases List.mem_cons.mp hmem with rfl | hmem2
      · exact h2 k (by omega) ⟨c2, hA1, hB1⟩
      · rcases (hv c2).mp hmem2 with ⟨i, hik, hai⟩ | ⟨j, hjk, hbj⟩
        · exact h2 i (by omega) ⟨c2, hai, hB1⟩
        · exact absurd (hB j k c2 hbj hB1) (by omega)
    refine ⟨c2 :: c1 :: visited, ?hv4, ?heq3⟩
    · intro c
      rw [List.mem_cons, List.mem_cons, hv c]
      constructor
      · intro hc
        rcases hc with rfl | rfl | ⟨i, hik, hai⟩ | ⟨j, hjk, hbj⟩
        · exact Or.inr ⟨k, by omega, hB1⟩
        · exact Or.inl ⟨k, by omega, hA1⟩
        · exact Or.inl ⟨i, by omega, hai⟩
        · exact Or.inr ⟨j, by omega, hbj⟩
      · intro hc
        rcases hc with ⟨i, hik, hai⟩ | ⟨j, hjk, hbj⟩
        · rcases Nat.lt_succ_iff_lt_or_eq.mp hik with hik | rfl
          · exact Or.inr (Or.inr (Or.inl ⟨i, hik, hai⟩))
          · rw [hA1] at hai
            injection hai with hai
            exact Or.inr (Or.inl hai.symm)
        · rcases Nat.lt_succ_iff_lt_or_eq.mp hjk with hjk | rfl
          · exact Or.inr (Or.inr (Or.inr ⟨j, hjk, hbj⟩))
          · rw [hB1] at hbj
            injection hbj with hbj
            exact Or.inl hbj.symm
    · rw [chainFrom_succ_some hA1, chainFrom_succ_some hB1]
      exact mergeBaseLoop_step_some_some hc1 hc2

theorem mergeBaseLoop_climb (next : Hash → Option Hash) (a b : Hash)
    (hA : acyclicFrom next a) (hB : acyclicFrom next b) :
    ∀ (d fuel k : Nat) (visited : List Hash),
      visitedSpec next a b k visited →
      (∀ k2, k ≤ k2 → k2 < k + d → ∀ j, j < k2 → ¬ meetsAt next a b k2 j) →
      (∀ k2, k ≤ k2 → k2 < k + d → ∀ i, i ≤ k2 → ¬ meetsAt next a b i k2) →
      (∀ k2, k ≤ k2 → k2 < k + d →
          chainFrom next a k2 ≠ none ∨ chainFrom next b k2 ≠ none) →
      ∃ visited2, visitedSpec next a b (k + d) visited2 ∧
        mergeBaseLoop next (fuel + d) visited
            (chainFrom next a k) (chainFrom next b k)
          = mergeBaseLoop next fuel visited2
              (chainFrom next a (k + d)) (chainFrom next b (k + d))
  | 0, fuel, k, visited, hv, _, _, _ => ⟨visited, hv, rfl⟩
  | d+1, fuel, k, visited, hv, h1, h2, hc => by
    obtain ⟨v2, hv2, heq⟩ := mergeBaseLoop_step next a b hA hB (fuel + d) k visited
      hv (h1 k le_rfl (by omega)) (h2 k le_rfl (by omega)) (hc k le_rfl (by omega))
    obtain ⟨v3, hv3, heq2⟩ := mergeBaseLoop_climb next a b hA hB d fuel (k+1) v2 hv2
      (fun k2 hk hk2 => h1 k2 (by omega) (by omega))
      (fun k2 hk hk2 => h2 k2 (by omega) (by omega))
      (fun k2 hk hk2 => hc k2 (by omega) (by omega))
    have hidx : k + 1 + d = k + (d + 1) := by omega
    rw [hidx] at hv3 heq2
    refine ⟨v3, hv3, ?heqf⟩
    rw [show fuel + (d + 1) = (fuel + d) + 1 from rfl, heq, heq2]

theorem visitedSpec_zero (next : Hash → Option Hash) (a b : Hash) :
    visitedSpec next a b 0 [] := by
  intro c
  constructor
  · intro h
    exact absurd h (List.not_mem_nil c)
  · rintro (⟨i, hi, _⟩ | ⟨j, hj, _⟩) <;> omega

theorem nat_least {P : Nat → Prop} (h : ∃ n, P n) :
    ∃ n, P n ∧ ∀ m, m < n → ¬ P m := by
  classical
  exact ⟨Nat.find h, Nat.find_spec h, fun m hm hPm => Nat.find_min h hm hPm⟩

theorem exists_min_meet (next : Hash → Option Hash) (a b : Hash)
    (hB : acyclicFrom next b)
    (h : ∃ i j, meetsAt next a b i j) :
    ∃ i0 j0 c0, chainFrom next a i0 = some c0 ∧ chainFrom next b j0 = some c0 ∧
      (∀ i j, meetsAt next a b i j → i0 ≤ i) ∧
      (∀ i j, meetsAt next a b i j → j0 ≤ j) := by
  obtain ⟨i0, hi0, hi0min⟩ := nat_least h
  have h2 : ∃ j, ∃ i, meetsAt next a b i j := by
    obtain ⟨i, j, hm⟩ := h
    exact ⟨j, i, hm⟩
  obtain ⟨j0, hj0, hj0min⟩ := nat_least h2
  obtain ⟨j1, c, hai0, hbj1⟩ := hi0
  obtain ⟨i2, c2, hai2, hbj0⟩ := hj0
  have hmini : ∀ i j, meetsAt next a b i j → i0 ≤ i := by
    intro i j hm
    by_contra hlt
    exact hi0min i (by omega) ⟨j, hm⟩
  have hminj : ∀ i j, meetsAt next a b i j → j0 ≤ j := by
    intro i j hm
    by_contra hlt
    exact hj0min j (by omega) ⟨i, hm⟩
  have hi0le : i0 ≤ i2 := hmini i2 j0 ⟨c2, hai2, hbj0⟩
  have hj0le : j0 ≤ j1 := hminj i0 j1 ⟨c, hai0, hbj1⟩
  obtain ⟨d, rfl⟩ := Nat.exists_eq_add_of_le hi0le
  have hadd := chainFrom_add next a i0 d
  rw [hai0] at hadd
  have hadd2 : chainFrom next a (i0 + d) = chainFrom next c d := hadd
  rw [hai2] at hadd2
  have haddb := chainFrom_add next b j1 d
  rw [hbj1] at haddb
  have haddb2 : chainFrom next b (j1 + d) = chainFrom next c d := haddb
  have hbd : chainFrom next b (j1 + d) = some c2 := by
    rw [haddb2, ← hadd2]
  have hjeq : j1 + d = j0 := hB (j1 + d) j0 c2 hbd hbj0
  have hd0 : d = 0 := by omega
  subst hd0
  have hj1eq : j1 = j0 := by omega
  rw [hj1eq] at hbj1
  exact ⟨i0, j0, c, hai0, hbj1, hmini, hminj⟩

theorem mergeBase_of_min_meet (next : Hash → Option Hash) (a b : Hash)
    (hA : acyclicFrom next a) (hB : acyclicFrom next b)
    (i0 j0 : Nat) (c0 : Hash)
    (ha0 : chainFrom next a i0 = some c0)
    (hb0 : chainFrom next b j0 = some c0)
    (hmini : ∀ i j, meetsAt next a b i j → i0 ≤ i)
    (hminj : ∀ i j, meetsAt next a b i j → j0 ≤ j)
    (fuel : Nat) (hfi : i0 + 1 ≤ fuel) (hfj : j0 + 1 ≤ fuel) :
    merge_base next fuel a b = some (some c0) := by
  rcases Nat.lt_or_ge j0 i0 with hcase | hcase
  · obtain ⟨v2, hv2, heq⟩ := mergeBaseLoop_climb next a b hA hB i0 (fuel - i0) 0 []
      (visitedSpec_zero next a b)
      (fun k2 _ hk2 j hj hm => absurd (hmini k2 j hm) (by omega))
      (fun k2 _ hk2 i hi hm => absurd (hmini i k2 hm) (by omega))
      (fun k2 _ hk2 => Or.inl (fun hn => by
        rw [chainFrom_none_le hn (by omega)] at ha0
        exact nomatch ha0))
    have hfa : fuel - i0 + i0 = fuel := by omega
    have h0d : (0 : Nat) + i0 = i0 := by omega
    rw [hfa, h0d] at heq
    rw [h0d] at hv2
    show mergeBaseLoop next fuel [] (chainFrom next a 0) (chainFrom next b 0)
      = some (some c0)
    rw [heq, ha0]
    have hmem : c0 ∈ v2 := (hv2 c0).mpr (Or.inr ⟨j0, by omega, hb0⟩)
    obtain ⟨f2, hf2⟩ : ∃ f2, fuel - i0 = f2 + 1 := ⟨fuel - i0 - 1, by omega⟩
    rw [hf2]
    exact mergeBaseLoop_trig1 _ hmem
  · obtain ⟨v2, hv2, heq⟩ := mergeBaseLoop_climb next a b hA hB j0 (fuel - j0) 0 []
      (visitedSpec_zero next a b)
      (fun k2 _ hk2 j hj hm => absurd (hminj k2 j hm) (by omega))
      (fun k2 _ hk2 i hi hm => absurd (hminj i k2 hm) (by omega))
      (fun k2 _ hk2 => Or.inr (fun hn => by
        rw [chainFrom_none_le hn (by omega)] at hb0
        exact nomatch hb0))
    have hfa : fuel - j0 + j0 = fuel := by omega
    have h0d : (0 : Nat) + j0 = j0 := by omega
    rw [hfa, h0d] at heq
    rw [h0d] at hv2
    show mergeBaseLoop next fuel [] (chainFrom next a 0) (chainFrom next b 0)
      = some (some c0)
    rw [heq, hb0]
    obtain ⟨f2, hf2⟩ : ∃ f2, fuel - j0 = f2 + 1 := ⟨fuel - j0 - 1, by omega⟩
    rw [hf2]
    rcases haj : chainFrom next a j0 with _ | c1
    · have hi0lt : i0 < j0 := by
        rcases Nat.lt_or_ge i0 j0 with h | h
        · exact h
        · have heq0 : i0 = j0 := by omega
          rw [heq0] at ha0
          rw [ha0] at haj
          exact nomatch haj
      have hmem : c0 ∈ v2 := (hv2 c0).mpr (Or.inl ⟨i0, by omega, ha0⟩)
      exact mergeBaseLoop_trig2_none hmem
    · have hc1 : c1 ∉ v2 := by
        intro hmem
        rcases (hv2 c1).mp hmem with ⟨i, hik, hai⟩ | ⟨j, hjk, hbj⟩
        · exact absurd (hA i j0 c1 hai haj) (by omega)
        · exact absurd (hminj j0 j ⟨c1, haj, hbj⟩) (by omega)
      have hc2 : c0 ∈ c1 :: v2 := by
        rcases Nat.lt_or_ge i0 j0 with hlt | hge
        · exact List.mem_cons.mpr
            (Or.inr ((hv2 c0).mpr (Or.inl ⟨i0, by omega, ha0⟩)))
        · have heq0 : i0 = j0 := by omega
          rw [heq0] at ha0
          rw [ha0] at haj
          injection haj with haj
          rw [haj]
          exact List.mem_cons_self _ _
      exact mergeBaseLoop_trig2_some hc1 hc2

theorem mergeBase_of_no_meet (next : Hash → Option Hash) (a b : Hash)
    (hA : acyclicFrom next a) (hB : acyclicFrom next b)
    (hnm : ∀ i j, ¬ meetsAt next a b i j)
    (n : Nat) (hEndA : chainFrom next a n = none)
    (hEndB : chainFrom next b n = none)
    (fuel : Nat) (hfuel : n + 1 ≤ fuel) :
    merge_base next fuel a b = some none := by
  have hex : ∃ k, chainFrom next a k = none ∧ chainFrom next b k = none :=
    ⟨n, hEndA, hEndB⟩
  obtain ⟨d, ⟨hda, hdb⟩, hdmin⟩ := nat_least hex
  have hdn : d ≤ n := by
    by_contra hgt
    exact hdmin n (by omega) ⟨hEndA, hEndB⟩
  obtain ⟨v2, hv2, heq⟩ := mergeBaseLoop_climb next a b hA hB d (fuel - d) 0 []
    (visitedSpec_zero next a b)
    (fun k2 _ _ j hj hm => hnm k2 j hm)
    (fun k2 _ _ i hi hm => hnm i k2 hm)
    (fun k2 _ hk2 => by
      by_cases hca : chainFrom next a k2 = none
      · refine Or.inr (fun hcb => ?hq)
        exact hdmin k2 (by omega) ⟨hca, hcb⟩
      · exact Or.inl hca)
  have hfa : fuel - d + d = fuel := by omega
  have h0d : (0 : Nat) + d = d := by omega
  rw [hfa, h0d] at heq
  show mergeBaseLoop next fuel [] (chainFrom next a 0) (chainFrom next b 0)
    = some none
  rw [heq, hda, hdb]
  obtain ⟨f2, hf2⟩ : ∃ f2, fuel - d = f2 + 1 := ⟨fuel - d - 1, by omega⟩
  rw [hf2]
  exact mergeBaseLoop_none_none next f2 v2

/-- Claim C7 (merge-base consistency).  For commits `a`, `b` of a store
of well-formed commits — both first-parent chains acyclic and ending
within `n` steps — `merge_base` is symmetric, and when one of the two
commits is a first-parent ancestor of the other, `merge_base` returns
that ancestor. -/
theorem merge_base_consistent (next : Hash → Option Hash) (a b : Hash)
    (hA : acyclicFrom next a) (hB : acyclicFrom next b)
    (n fuel : Nat)
    (hEndA : chainFrom next a n = none) (hEndB : chainFrom next b n = none)
    (hfuel : n + 1 ≤ fuel) :
    merge_base next fuel a b = merge_base next fuel b a ∧
    (∀ i, chainFrom next a i = some b →
        merge_base next fuel a b = some (some b)) ∧
    (∀ j, chainFrom next b j = some a →
        merge_base next fuel a b = some (some a)) := by
  by_cases hmeet : ∃ i j, meetsAt next a b i j
  · obtain ⟨i0, j0, c0, ha0, hb0, hmini, hminj⟩ :=
      exists_min_meet next a b hB hmeet
    have hi0n : i0 < n := chainFrom_lt_of_some hEndA ha0
    have hj0n : j0 < n := chainFrom_lt_of_some hEndB hb0
    have hab := mergeBase_of_min_meet next a b hA hB i0 j0 c0 ha0 hb0
      hmini hminj fuel (by omega) (by omega)
    have hba := mergeBase_of_min_meet next b a hB hA j0 i0 c0 hb0 ha0
      (fun i j hm => hminj j i (meetsAt_swap.mpr hm))
      (fun i j hm => hmini j i (meetsAt_swap.mpr hm))
      fuel (by omega) (by omega)
    refine ⟨by rw [hab, hba], ?anc1, ?anc2⟩
    · intro i hai
      have hm : meetsAt next a b i 0 := ⟨b, hai, chainFrom_zero next b⟩
      have hj00 : j0 = 0 := by
        have := hminj i 0 hm
        omega
      rw [hj00, chainFrom_zero] at hb0
      injection hb0 with hb0
      rw [hab, hb0]
    · intro j hbj
      have hm : meetsAt next a b 0 j := ⟨a, chainFrom_zero next a, hbj⟩
      have hi00 : i0 = 0 := by
        have := hmini 0 j hm
        omega
      rw [hi00, chainFrom_zero] at ha0
      injection ha0 with ha0
      rw [hab, ha0]
  · have hnm : ∀ i j, ¬ meetsAt next a b i j := by
      intro i j hm
      exact hmeet ⟨i, j, hm⟩
    have hab := mergeBase_of_no_meet next a b hA hB hnm n hEndA hEndB fuel hfuel
    have hba := mergeBase_of_no_meet next b a hB hA
      (fun i j hm => hnm j i (meetsAt_swap.mpr hm)) n hEndB hEndA fuel hfuel
    refine ⟨by rw [hab, hba], ?anc3, ?anc4⟩
    · intro i hai
      exact absurd ⟨b, hai, chainFrom_zero next b⟩ (hnm i 0)
    · intro j hbj
      exact absurd ⟨a, chainFrom_zero next a, hbj⟩ (hnm 0 j)

/-- Witness for C7: a two-commit store where `a` is the first parent
of `b`; `merge_base` is symmetric and returns the ancestor `a`. -/
theorem merge_base_consistent_witness :
    merge_base (fun h => if h = "b" then some "a" else none) 3 "b" "a"
      = merge_base (fun h => if h = "b" then some "a" else none) 3 "a" "b" ∧
    merge_base (fun h => if h = "b" then some "a" else none) 3 "b" "a"
      = some (some "a") := by
  have h := merge_base_consistent (fun h => if h = "b" then some "a" else none)
    "b" "a"
    (acyclicFrom_of_nodup _ _ 2 (by decide) (by decide))
    (acyclicFrom_of_nodup _ _ 2 (by decide) (by decide))
    2 3 (by decide) (by decide) (by omega)
  exact ⟨h.1, h.2.1 1 (by decide)⟩

/-! ## Checkout (`checkout.py`, `ref.py:write_ref`)

The working directory is a finite tree of files and directories; file
nodes carry their content hash (`hash_file` of a file in a
content-addressed store is the stored hash).  `Repository.checkout`,
`Repository.head_commit` and `Repository.diff` are not part of the
sources; following the spec, the current head commit, the diff
computation and the commit loading are opaque parameters, while
`checkout`, the three validators, `apply_checkout`, `create_tree`,
`delete_tree` and `write_ref` are translated from `checkout.py` and
`ref.py`.  Exceptions other than `CheckoutError` (IO errors, missing
objects, the recursion/fuel limit) are `Err.otherError`. -/

inductive Err where
  | checkoutError (msg : String)
  | otherError (msg : String)
deriving DecidableEq

def Err.isOther : Err → Prop
  | .checkoutError _ => False
  | .otherError _ => True

inductive FsNode where
  | file (h : Hash)
  | dir (entries : List (String × FsNode))

/-- Resolve a path in the working tree (`Path` navigation). -/
def fsGet : FsNode → List String → Option FsNode
  | node, [] => some node
  | .file _, _ :: _ => none
  | .dir entries, name :: rest =>
      match alookup entries name with
      | none => none
      | some child => fsGet child rest

/-- `path.exists()`. -/
def fsExists (fs : FsNode) (p : List String) : Bool :=
  (fsGet fs p).isSome

/-- `hash_file(path)`: the content hash of the file at `path`; an IO
error on a missing path or a directory. -/
def hashFileAt (fs : FsNode) (p : List String) : Except Err Hash :=
  match fsGet fs p with
  | some (.file h) => .ok h
  | some (.dir _) => .error (.otherError "hash_file: is a directory")
  | none => .error (.otherError "hash_file: no such file")

/-- `path.unlink()`. -/
def fsUnlink : FsNode → List String → Except Err FsNode
  | _, [] => .error (.otherError "unlink: invalid path")
  | .file _, _ :: _ => .error (.otherError "unlink: not a directory")
  | .dir entries, [name] =>
      match alookup entries name with
      | some (.file _) => .ok (.dir (adel entries name))
      | some (.dir _) => .error (.otherError "unlink: is a directory")
      | none => .error (.otherError "unlink: no such file")
  | .dir entries, name :: p2 :: rest =>
      match alookup entries name with
      | none => .error (.otherError "unlink: no such file")
      | some child =>
          match fsUnlink child (p2 :: rest) with
          | .error e => .error e
          | .ok child2 => .ok (.dir (aset entries name child2))

/-- `path.mkdir(exist_ok=True)` (no `parents`). -/
def fsMkdir : FsNode → List String → Except Err FsNode
  | .file _, _ => .error (.otherError "mkdir: not a directory")
  | .dir entries, [] => .ok (.dir entries)
  | .dir entries, [name] =>
      match alookup entries name with
      | none => .ok (.dir (aset entries name (.dir [])))
      | some (.dir _) => .ok (.dir entries)
      | some (.file _) => .error (.otherError "mkdir: file exists")
  | .dir entries, name :: p2 :: rest =>
      match alookup entries name with
      | none => .error (.otherError "mkdir: no such directory")
      | some child =>
          match fsMkdir child (p2 :: rest) with
          | .error e => .error e
          | .ok child2 => .ok (.dir (aset entries name child2))

/-- `path.parent.mkdir(parents=True, exist_ok=True)` followed by
`path.open("wb")` and a full write of content with hash `h`. -/
def fsWriteFile : FsNode → List String → Hash → Except Err FsNode
  | _, [], _ => .error (.otherError "write: invalid path")
  | .file _, _ :: _, _ => .error (.otherError "write: not a directory")
  | .dir entries, [name], h =>
      match alookup entries name with
      | some (.dir _) => .error (.otherError "write: is a directory")
      | _ => .ok (.dir (aset entries name (.file h)))
  | .dir entries, name :: p2 :: rest, h =>
      match alookup entries name with
      | none =>
          match fsWriteFile (.dir []) (p2 :: rest) h with
          | .error e => .error e
          | .ok child2 => .ok (.dir (aset entries name child2))
      | some child =>
          match fsWriteFile child (p2 :: rest) h with
          | .error e => .error e
          | .ok child2 => .ok (.dir (aset entries name child2))

/-- Remove the subtree at a path that is known to exist. -/
def fsRemoveEntry : FsNode → List String → FsNode
  | node, [] => node
  | .file h, _ :: _ => .file h
  | .dir entries, [name] => .dir (adel entries name)
  | .dir entries, name :: p2 :: rest =>
      match alookup entries name with
      | none => .dir entries
      | some child => .dir (aset entries name (fsRemoveEntry child (p2 :: rest)))

/-- `delete_tree(path)`: return silently when the path does not exist,
fail on a file (`iterdir` of a non-directory), remove the whole
subtree otherwise. -/
def delete_tree (fs : FsNode) (p : List String) : Except Err FsNode :=
  match fsGet fs p with
  | none => .ok fs
  | some (.file _) => .error (.otherError "delete_tree: not a directory")
  | some (.dir _) => .ok (fsRemoveEntry fs p)

/-- The diff node kinds of `diff.py`. -/
inductive DiffKind where
  | added
  | removed
  | modified
  | movedFrom
  | movedTo
deriving DecidableEq

/-- A diff node: kind, record type, record name, record hash, the
`new_record` hash of a `ModifiedDiff`, and child diffs. -/
inductive DiffT where
  | mk (kind : DiffKind) (rtype : TreeRecordType) (rname : String)
      (rhash : Hash) (newHash : Option Hash) (children : List DiffT)

/-- `validate_new_tree`'s loop over `tree.records` (fuel bounds the
tree depth; the fall-through is success). -/
def validateNewTreeGo (loadT : Hash → Option Tree) (fs : FsNode) :
    Nat → List (String × TreeRecord) → List String → Except Err Unit
  | 0, _, _ => .error (.otherError "recursion limit")
  | _+1, [], _ => .ok ()
  | fuel+1, (name, record) :: rest, path =>
      match record.type with
      | .tree =>
          match loadT record.hash with
          | none => .error (.otherError "load_tree failed")
          | some tree =>
              match validateNewTreeGo loadT fs fuel tree.records (path ++ [name]) with
              | .error e => .error e
              | .ok _ => validateNewTreeGo loadT fs fuel rest path
      | .blob =>
          if fsExists fs (path ++ [name]) then
            match hashFileAt fs (path ++ [name]) with
            | .error e => .error e
            | .ok h =>
                if h ≠ record.hash then
                  .error (.checkoutError "untracked file would be overwritten")
                else validateNewTreeGo loadT fs fuel rest path
          else validateNewTreeGo loadT fs fuel rest path

/-- `validate_new_tree(repo, tree_hash, path)`. -/
def validate_new_tree (loadT : Hash → Option Tree) (fs : FsNode) (fuel : Nat)
    (treeHash : Hash) (path : List String) : Except Err Unit :=
  match loadT treeHash with
  | none => .error (.otherError "load_tree failed")
  | some tree => validateNewTreeGo loadT fs fuel tree.records path

/-- `validate_removed_tree`'s loop over `tree.records`. -/
def validateRemovedTreeGo (loadT : Hash → Option Tree) (fs : FsNode) :
    Nat → List (String × TreeRecord) → List String → Except Err Unit
  | 0, _, _ => .error (.otherError "recursion limit")
  | _+1, [], _ => .ok ()
  | fuel+1, (name, record) :: rest, path =>
      match record.type with
      | .tree =>
          match ((if fsExists fs (path ++ [name]) = false then .ok () else
              match loadT record.hash with
              | none => .error (.otherError "load_tree failed")
              | some tree =>
                  validateRemovedTreeGo loadT fs fuel tree.records (path ++ [name])) :
              Except Err Unit) with
          | .error e => .error e
          | .ok _ => validateRemovedTreeGo loadT fs fuel rest path
      | .blob =>
          if fsExists fs (path ++ [name]) then
            match hashFileAt fs (path ++ [name]) with
            | .error e => .error e
            | .ok h =>
                if h ≠ record.hash then
                  .error (.checkoutError "local changes would be overwritten")
                else validateRemovedTreeGo loadT fs fuel rest path
          else validateRemovedTreeGo loadT fs fuel rest path

/-- `validate_removed_tree(repo, tree_hash, path)`: return silently
when the path does not exist. -/
def validate_removed_tree (loadT : Hash → Option Tree) (fs : FsNode) (fuel : Nat)
    (treeHash : Hash) (path : List String) : Except Err Unit :=
  if fsExists fs path = false then .ok ()
  else
    match loadT treeHash with
    | none => .error (.otherError "load_tree failed")
    | some tree => validateRemovedTreeGo loadT fs fuel tree.records path

/-- `validate_clean(repo, diffs, current_path)`. -/
def validate_clean (loadT : Hash → Option Tree) (fs : FsNode) :
    Nat → List DiffT → List String → Except Err Unit
  | 0, _, _ => .error (.otherError "recursion limit")
  | _+1, [], _ => .ok ()
  | fuel+1, .mk kind rtype _rname rhash _newHash children :: rest, path =>
      match rtype with
      | .tree =>
          match ((match kind with
              | .added | .movedFrom => validate_new_tree loadT fs fuel rhash (path ++ [_rname])
              | .removed | .movedTo => validate_removed_tree loadT fs fuel rhash (path ++ [_rname])
              | .modified => validate_clean loadT fs fuel children (path ++ [_rname])) :
              Except Err Unit) with
          | .error e => .error e
          | .ok _ => validate_clean loadT fs fuel rest path
      | .blob =>
          match ((match kind with
              | .modified | .removed | .movedTo =>
                  if fsExists fs (path ++ [_rname]) = false then
                    .error (.checkoutError "local changes would be overwritten")
                  else
                    match hashFileAt fs (path ++ [_rname]) with
                    | .error e => .error e
                    | .ok h =>
                        if h ≠ rhash then
                          .error (.checkoutError "local changes would be overwritten")
                        else .ok ()
              | _ => .ok ()) : Except Err Unit) with
          | .error e => .error e
          | .ok _ =>
              match kind with
              | .added | .movedFrom =>
                  if fsExists fs (path ++ [_rname]) then
                    match hashFileAt fs (path ++ [_rname]) with
                    | .error e => .error e
                    | .ok h =>
                        if h ≠ rhash then
                          .error (.checkoutError "untracked file would be overwritten")
                        else validate_clean loadT fs fuel rest path
                  else validate_clean loadT fs fuel rest path
              | _ => validate_clean loadT fs fuel rest path

/-- `create_tree`'s loop over `tree.records`; `blobOk` is the presence
of a blob in the object store (`open_content_for_reading`). -/
def createTreeGo (loadT : Hash → Option Tree) (blobOk : Hash → Bool) :
    Nat → List (String × TreeRecord) → List String → FsNode → Except Err FsNode
  | 0, _, _, _ => .error (.otherError "recursion limit")
  | _+1, [], _, fs => .ok fs
  | fuel+1, (name, record) :: rest, path, fs =>
      match record.type with
      | .tree =>
          match fsMkdir fs (path ++ [name]) with
          | .error e => .error e
          | .ok fs2 =>
              match loadT record.hash with
              | none => .error (.otherError "load_tree failed")
              | some tree =>
                  match createTreeGo loadT blobOk fuel tree.records (path ++ [name]) fs2 with
                  | .error e => .error e
                  | .ok fs3 => createTreeGo loadT blobOk fuel rest path fs3
      | .blob =>
          if blobOk record.hash then
            match fsWriteFile fs (path ++ [name]) record.hash with
            | .error e => .error e
            | .ok fs2 => createTreeGo loadT blobOk fuel rest path fs2
          else .error (.otherError "missing object")

/-- `create_tree(repo, tree_hash, path)`. -/
def create_tree (loadT : Hash → Option Tree) (blobOk : Hash → Bool) (fuel : Nat)
    (treeHash : Hash) (path : List String) (fs : FsNode) : Except Err FsNode :=
  match loadT treeHash with
  | none => .error (.otherError "load_tree failed")
  | some tree => createTreeGo loadT blobOk fuel tree.records path fs

/-- `apply_checkout(repo, diffs, current_path)`, with the partially
mutated working tree returned alongside a propagated error. -/
def apply_checkout (loadT : Hash → Option Tree) (blobOk : Hash → Bool) :
    Nat → List DiffT → List String → FsNode → Except Err Unit × FsNode
  | 0, _, _, fs => (.error (.otherError "recursion limit"), fs)
  | _+1, [], _, fs => (.ok (), fs)
  | fuel+1, .mk kind rtype _rname rhash _newHash children :: rest, path, fs =>
      match kind with
      | .removed =>
          match rtype with
          | .tree =>
              match delete_tree fs (path ++ [_rname]) with
              | .error e => (.error e, fs)
              | .ok fs2 => apply_checkout loadT blobOk fuel rest path fs2
          | .blob =>
              if fsExists fs (path ++ [_rname]) then
                match fsUnlink fs (path ++ [_rname]) with
                | .error e => (.error e, fs)
                | .ok fs2 => apply_checkout loadT blobOk fuel rest path fs2
              else apply_checkout loadT blobOk fuel rest path fs
      | .movedTo =>
          match rtype with
          | .tree =>
              match delete_tree fs (path ++ [_rname]) with
              | .error e => (.error e, fs)
              | .ok fs2 => apply_checkout loadT blobOk fuel rest path fs2
          | .blob =>
              if fsExists fs (path ++ [_rname]) then
                match fsUnlink fs (path ++ [_rname]) with
                | .error e => (.error e, fs)
                | .ok fs2 => apply_checkout loadT blobOk fuel rest path fs2
              else apply_checkout loadT blobOk fuel rest path fs
      | _ =>
          match rtype with
          | .tree =>
              match kind with
              | .added =>
                  match fsMkdir fs (path ++ [_rname]) with
                  | .error e => (.error e, fs)
                  | .ok fs2 =>
                      match create_tree loadT blobOk fuel rhash (path ++ [_rname]) fs2 with
                      | .error e => (.error e, fs2)
                      | .ok fs3 => apply_checkout loadT blobOk fuel rest path fs3
              | _ =>
                  match fsMkdir fs (path ++ [_rname]) with
                  | .error e => (.error e, fs)
                  | .ok fs2 =>
                      match apply_checkout loadT blobOk fuel children (path ++ [_rname]) fs2 with
                      | (.error e, fs3) => (.error e, fs3)
                      | (.ok _, fs3) => apply_checkout loadT blobOk fuel rest path fs3
          | .blob =>
              match ((match kind with
                  | .modified =>
                      match _newHash with
                      | none => .error (.otherError "new_record is None")
                      | some nh => .ok (some nh)
                  | .added => .ok (some rhash)
                  | .movedFrom => .ok (some rhash)
                  | _ => .ok (none : Option Hash)) :
                  Except Err (Option Hash)) with
              | .error e => (.error e, fs)
              | .ok none => apply_checkout loadT blobOk fuel rest path fs
              | .ok (some th) =>
                  if blobOk th then
                    match fsWriteFile fs (path ++ [_rname]) th with
                    | .error e => (.error e, fs)
                    | .ok fs2 => apply_checkout loadT blobOk fuel rest path fs2
                  else (.error (.otherError "missing object"), fs)

/-- `HashRef` / branch `SymRef` targets. -/
inductive RefV where
  | hashRef (h : Hash)
  | symRef (name : String)

/-- `write_ref`: a `HashRef` is written verbatim, a `SymRef` as
`ref: <name>`. -/
def refText : RefV → String
  | .hashRef h => h
  | .symRef name => "ref: " ++ name

/-- The repository state seen by `checkout`: the working tree and the
HEAD file contents. -/
structure ChkSt where
  fs : FsNode
  headFile : Option String

/-- `write_ref(repo.head_file(), ref)`. -/
def write_ref (st : ChkSt) (r : RefV) : ChkSt :=
  { st with headFile := some (refText r) }

/-- `checkout(repo, target_commit)`: the head commit, the diff
computation and commit-tree loading (`Repository` methods absent from
the sources) are opaque parameters. -/
def checkout (loadT : Hash → Option Tree) (blobOk : Hash → Bool)
    (headCommit : Option Hash) (computeDiff : Hash → RefV → List DiffT)
    (loadCommitTree : RefV → Option Hash) (fuel : Nat) (target : RefV)
    (st : ChkSt) : Except Err Unit × ChkSt :=
  match headCommit with
  | none =>
      match loadCommitTree target with
      | none => (.error (.otherError "load_commit failed"), st)
      | some treeHash =>
          match loadT treeHash with
          | none => (.error (.otherError "load_tree failed"), st)
          | some _ =>
              match validate_new_tree loadT st.fs fuel treeHash [] with
              | .error e => (.error e, st)
              | .ok _ =>
                  match create_tree loadT blobOk fuel treeHash [] st.fs with
                  | .error e => (.error e, st)
                  | .ok fs2 => (.ok (), write_ref { st with fs := fs2 } target)
  | some hc =>
      match validate_clean loadT st.fs fuel (computeDiff hc target) [] with
      | .error e => (.error e, st)
      | .ok _ =>
          match apply_checkout loadT blobOk fuel (computeDiff hc target) [] st.fs with
          | (.error e, fs2) => (.error e, { st with fs := fs2 })
          | (.ok _, fs2) => (.ok (), write_ref { st with fs := fs2 } target)

theorem fsUnlink_err : ∀ (fs : FsNode) (p : List String) (e : Err),
    fsUnlink fs p = .error e → e.isOther
  | fs, [], e => by
    intro h
    cases fs <;> (simp [fsUnlink] at h; subst h; trivial)
  | .file h0, q :: rest, e => by
    intro h
    simp [fsUnlink] at h
    subst h
    trivial
  | .dir entries, [name], e => by
    intro h
    simp only [fsUnlink] at h
    split at h
    · simp at h
    · simp at h
      subst h
      trivial
    · simp at h
      subst h
      trivial
  | .dir entries, name :: p2 :: rest, e => by
    intro h
    simp only [fsUnlink] at h
    split at h
    · simp at h
      subst h
      trivial
    · next child hl =>
      split at h
      · next e2 heq =>
        simp at h
        subst h
        exact fsUnlink_err child (p2 :: rest) e2 heq
      · simp at h

theorem fsMkdir_err : ∀ (fs : FsNode) (p : List String) (e : Err),
    fsMkdir fs p = .error e → e.isOther
  | .file h0, p, e => by
    intro h
    simp [fsMkdir] at h
    subst h
    trivial
  | .dir entries, [], e => by
    intro h
    simp [fsMkdir] at h
  | .dir entries, [name], e => by
    intro h
    simp only [fsMkdir] at h
    split at h
    · simp at h
    · simp at h
    · simp at h
      subst h
      trivial
  | .dir entries, name :: p2 :: rest, e => by
    intro h
    simp only [fsMkdir] at h
    split at h
    · simp at h
      subst h
      trivial
    · next child hl =>
      split at h
      · next e2 heq =>
        simp at h
        subst h
        exact fsMkdir_err child (p2 :: rest) e2 heq
      · simp at h

theorem fsWriteFile_err : ∀ (fs : FsNode) (p : List String) (h0 : Hash) (e : Err),
    fsWriteFile fs p h0 = .error e → e.isOther
  | fs, [], h0, e => by
    intro h
    cases fs <;> (simp [fsWriteFile] at h; subst h; trivial)
  | .file h1, q :: rest, h0, e => by
    intro h
    simp [fsWriteFile] at h
    subst h
    trivial
  | .dir entries, [name], h0, e => by
    intro h
    simp only [fsWriteFile] at h
    split at h
    · simp at h
      subst h
      trivial
    · simp at h
  | .dir entries, name :: p2 :: rest, h0, e => by
    intro h
    simp only [fsWriteFile] at h
    split at h
    · split at h
      · next e2 heq =>
        simp at h
        subst h
        exact fsWriteFile_err (.dir []) (p2 :: rest) h0 e2 heq
      · simp at h
    · next child hl =>
      split at h
      · next e2 heq =>
        simp at h
        subst h
        exact fsWriteFile_err child (p2 :: rest) h0 e2 heq
      · simp at h

theorem delete_tree_err (fs : FsNode) (p : List String) (e : Err)
    (h : delete_tree fs p = .error e) : e.isOther := by
  simp only [delete_tree] at h
  split at h
  · simp at h
  · simp at h
    subst h
    trivial
  · simp at h

theorem createTreeGo_err (loadT : Hash → Option Tree) (blobOk : Hash → Bool) :
    ∀ (fuel : Nat) (records : List (String × TreeRecord)) (path : List String)
      (fs : FsNode) (e : Err),
      createTreeGo loadT blobOk fuel records path fs = .error e → e.isOther
  | 0, _, _, _, e => by
    intro h
    simp [createTreeGo] at h
    subst h
    trivial
  | fuel+1, [], _, fs, e => by
    intro h
    simp [createTreeGo] at h
  | fuel+1, (name, record) :: rest, path, fs, e => by
    intro h
    simp only [createTreeGo] at h
    split at h
    · -- tree record
      split at h
      · next e2 heq =>
        simp at h
        subst h
        exact fsMkdir_err fs (path ++ [name]) e2 heq
      · next fs2 heq =>
        split at h
        · simp at h
          subst h
          trivial
        · next tree hload =>
          split at h
          · next e2 heq2 =>
            simp at h
            subst h
            exact createTreeGo_err loadT blobOk fuel tree.records (path ++ [name]) fs2 e2 heq2
          · next fs3 heq2 =>
            exact createTreeGo_err loadT blobOk fuel rest path fs3 e h
    · -- blob record
      split at h
      · split at h
        · next e2 heq =>
          simp at h
          subst h
          exact fsWriteFile_err fs (path ++ [name]) record.hash e2 heq
        · next fs2 heq =>
          exact createTreeGo_err loadT blobOk fuel rest path fs2 e h
      · simp at h
        subst h
        trivial

theorem create_tree_err (loadT : Hash → Option Tree) (blobOk : Hash → Bool)
    (fuel : Nat) (treeHash : Hash) (path : List String) (fs : FsNode) (e : Err)
    (h : create_tree loadT blobOk fuel treeHash path fs = .error e) : e.isOther := by
  simp only [create_tree] at h
  split at h
  · simp at h
    subst h
    trivial
  · next tree hload =>
    exact createTreeGo_err loadT blobOk fuel tree.records path fs e h

theorem apply_checkout_err (loadT : Hash → Option Tree) (blobOk : Hash → Bool) :
    ∀ (fuel : Nat) (diffs : List DiffT) (path : List String) (fs : FsNode)
      (e : Err) (fs2 : FsNode),
      apply_checkout loadT blobOk fuel diffs path fs = (.error e, fs2) → e.isOther
  | 0, _, _, fs, e, fs2 => by
    intro h
    simp [apply_checkout, Prod.mk.injEq] at h
    obtain ⟨rfl, rfl⟩ := h
    trivial
  | fuel+1, [], _, fs, e, fs2 => by
    intro h
    simp [apply_checkout, Prod.mk.injEq] at h
  | fuel+1, .mk kind rtype rname rhash newHash children :: rest, path, fs, e, fs2 => by
    intro h
    simp only [apply_checkout] at h
    split at h
    · -- removed
      split at h
      · -- tree
        split at h
        · next e2 heq =>
          simp [Prod.mk.injEq] at h
          obtain ⟨rfl, rfl⟩ := h
          exact delete_tree_err fs (path ++ [rname]) e2 heq
        · next fs3 heq =>
          exact apply_checkout_err loadT blobOk fuel rest path fs3 e fs2 h
      · -- blob
        split at h
        · split at h
          · next e2 heq =>
            simp [Prod.mk.injEq] at h
            obtain ⟨rfl, rfl⟩ := h
            exact fsUnlink_err fs (path ++ [rname]) e2 heq
          · next fs3 heq =>
            exact apply_checkout_err loadT blobOk fuel rest path fs3 e fs2 h
        · exact apply_checkout_err loadT blobOk fuel rest path fs e fs2 h
    · -- movedTo
      split at h
      · split at h
        · next e2 heq =>
          simp [Prod.mk.injEq] at h
          obtain ⟨rfl, rfl⟩ := h
          exact delete_tree_err fs (path ++ [rname]) e2 heq
        · next fs3 heq =>
          exact apply_checkout_err loadT blobOk fuel rest path fs3 e fs2 h
      · split at h
        · split at h
          · next e2 heq =>
            simp [Prod.mk.injEq] at h
            obtain ⟨rfl, rfl⟩ := h
            exact fsUnlink_err fs (path ++ [rname]) e2 heq
          · next fs3 heq =>
            exact apply_checkout_err loadT blobOk fuel rest path fs3 e fs2 h
        · exact apply_checkout_err loadT blobOk fuel rest path fs e fs2 h
    · -- added / modified / movedFrom
      split at h
      · -- tree
        split at h
        · -- added tree
          split at h
          · next e2 heq =>
            simp [Prod.mk.injEq] at h
            obtain ⟨rfl, rfl⟩ := h
            exact fsMkdir_err fs (path ++ [rname]) e2 heq
          · next fs3 heq =>
            split at h
            · next e2 heq2 =>
              simp [Prod.mk.injEq] at h
              obtain ⟨rfl, rfl⟩ := h
              exact create_tree_err loadT blobOk fuel rhash (path ++ [rname]) fs3 e2 heq2
            · next fs4 heq2 =>
              exact apply_checkout_err loadT blobOk fuel rest path fs4 e fs2 h
        · -- modified / movedFrom tree
          split at h
          · next e2 heq =>
            simp [Prod.mk.injEq] at h
            obtain ⟨rfl, rfl⟩ := h
            exact fsMkdir_err fs (path ++ [rname]) e2 heq
          · next fs3 heq =>
            split at h
            · next e2 fs4 heq2 =>
              simp [Prod.mk.injEq] at h
              obtain ⟨rfl, rfl⟩ := h
              exact apply_checkout_err loadT blobOk fuel children (path ++ [rname]) fs3 e2 fs4 heq2
            · next fs4 heq2 =>
              exact apply_checkout_err loadT blobOk fuel rest path fs4 e fs2 h
      · -- blob
        split at h
        · next e2 heq =>
          -- target-hash computation errored (new_record is None)
          simp [Prod.mk.injEq] at h
          obtain ⟨rfl, rfl⟩ := h
          split at heq
          · split at heq
            · simp at heq
              subst heq
              trivial
            · simp at heq
          · simp at heq
          · simp at heq
          · simp at heq
        · exact apply_checkout_err loadT blobOk fuel rest path fs e fs2 h
        · next th heq =>
          split at h
          · split at h
            · next e2 heq2 =>
              simp [Prod.mk.injEq] at h
              obtain ⟨rfl, rfl⟩ := h
              exact fsWriteFile_err fs (path ++ [rname]) th e2 heq2
            · next fs3 heq2 =>
              exact apply_checkout_err loadT blobOk fuel rest path fs3 e fs2 h
          · simp [Prod.mk.injEq] at h
            obtain ⟨rfl, rfl⟩ := h
            trivial

theorem checkout_some_eq (loadT : Hash → Option Tree) (blobOk : Hash → Bool)
    (hc : Hash) (computeDiff : Hash → RefV → List DiffT)
    (loadCommitTree : RefV → Option Hash) (fuel : Nat) (target : RefV)
    (st : ChkSt) :
    checkout loadT blobOk (some hc) computeDiff loadCommitTree fuel target st
      = (match validate_clean loadT st.fs fuel (computeDiff hc target) [] with
        | .error e => (.error e, st)
        | .ok _ =>
            match apply_checkout loadT blobOk fuel (computeDiff hc target) [] st.fs with
            | (.error e, fs2) => (.error e, { st with fs := fs2 })
            | (.ok _, fs2) => (.ok (), write_ref { st with fs := fs2 } target)) := rfl

theorem checkout_none_eq (loadT : Hash → Option Tree) (blobOk : Hash → Bool)
    (computeDiff : Hash → RefV → List DiffT)
    (loadCommitTree : RefV → Option Hash) (fuel : Nat) (target : RefV)
    (st : ChkSt) :
    checkout loadT blobOk none computeDiff loadCommitTree fuel target st
      = (match loadCommitTree target with
        | none => (.error (.otherError "load_commit failed"), st)
        | some treeHash =>
            match loadT treeHash with
            | none => (.error (.otherError "load_tree failed"), st)
            | some _ =>
                match validate_new_tree loadT st.fs fuel treeHash [] with
                | .error e => (.error e, st)
                | .ok _ =>
                    match create_tree loadT blobOk fuel treeHash [] st.fs with
                    | .error e => (.error e, st)
                    | .ok fs2 => (.ok (), write_ref { st with fs := fs2 } target)) := rfl

/-- Claim C2 (checkout safety).  For every repository state with an
existing HEAD commit and every target, if `checkout` fails with a
`CheckoutError` — which only the validation phase raises — then the
repository state, working tree included, is exactly what it was before
the call: validation runs before any filesystem change, and the apply
phase raises only non-`CheckoutError` errors. -/
theorem checkout_validation_safe (loadT : Hash → Option Tree)
    (blobOk : Hash → Bool) (headCommit : Option Hash)
    (computeDiff : Hash → RefV → List DiffT)
    (loadCommitTree : RefV → Option Hash) (fuel : Nat) (target : RefV)
    (st st2 : ChkSt) (hc : Hash) (m : String)
    (hhead : headCommit = some hc)
    (hrun : checkout loadT blobOk headCommit computeDiff loadCommitTree fuel target st
      = (.error (Err.checkoutError m), st2)) :
    st2 = st := by
  subst hhead
  rw [checkout_some_eq] at hrun
  split at hrun
  · next e heq =>
    simp [Prod.mk.injEq] at hrun
    exact hrun.2.symm
  · next heq =>
    split at hrun
    · next e fs3 heq2 =>
      simp [Prod.mk.injEq] at hrun
      obtain ⟨rfl, _⟩ := hrun
      have hother := apply_checkout_err loadT blobOk fuel
        (computeDiff hc target) [] st.fs (Err.checkoutError m) fs3 heq2
      exact hother.elim
    · next fs3 heq2 =>
      simp at hrun

/-- Witness for C2: a diff reporting a modified blob `a.txt` while the
working tree is empty makes validation fail and leaves the state
untouched. -/
theorem checkout_validation_safe_witness :
    (⟨FsNode.dir [], some "h"⟩ : ChkSt) = ⟨FsNode.dir [], some "h"⟩ :=
  checkout_validation_safe (fun _ => none) (fun _ => true) (some "HC")
    (fun _ _ => [DiffT.mk .modified .blob "a.txt" "1111" (some "2222") []])
    (fun _ => none) 3 (RefV.hashRef "TC")
    ⟨FsNode.dir [], some "h"⟩ ⟨FsNode.dir [], some "h"⟩ "HC"
    "local changes would be overwritten" rfl rfl

/-- Claim C8 (checkout HEAD update).  After every successful
`checkout(target)`, the HEAD file holds `write_ref`'s rendering of the
target: the symbolic `ref: <name>` form when the target was given as a
branch `SymRef` (attached), and the bare commit hash when it was a
`HashRef` (detached). -/
theorem checkout_head_update (loadT : Hash → Option Tree)
    (blobOk : Hash → Bool) (headCommit : Option Hash)
    (computeDiff : Hash → RefV → List DiffT)
    (loadCommitTree : RefV → Option Hash) (fuel : Nat) (target : RefV)
    (st st2 : ChkSt)
    (hrun : checkout loadT blobOk headCommit computeDiff loadCommitTree fuel target st
      = (.ok (), st2)) :
    st2.headFile = some (refText target) := by
  rcases headCommit with _ | hc
  · rw [checkout_none_eq] at hrun
    split at hrun
    · simp at hrun
    · split at hrun
      · simp at hrun
      · split at hrun
        · simp at hrun
        · split at hrun
          · simp at hrun
          · next fs2 heq =>
            simp [Prod.mk.injEq] at hrun
            rw [← hrun]
            rfl
  · rw [checkout_some_eq] at hrun
    split at hrun
    · simp at hrun
    · split at hrun
      · simp at hrun
      · next fs2 heq =>
        simp [Prod.mk.injEq] at hrun
        rw [← hrun]
        rfl

/-- Witness for C8: an empty diff checkout of the branch `SymRef`
`main` attaches HEAD to `ref: main`. -/
theorem checkout_head_update_witness :
    (⟨FsNode.dir [], some "ref: main"⟩ : ChkSt).headFile
      = some (refText (RefV.symRef "main")) :=
  checkout_head_update (fun _ => none) (fun _ => true) (some "HC")
    (fun _ _ => []) (fun _ => none) 3 (RefV.symRef "main")
    ⟨FsNode.dir [], some "x"⟩ ⟨FsNode.dir [], some "ref: main"⟩ rfl

/-- A blob diff node with the given kind and record hash sits at
relative component path `p` inside a diff forest (through tree diff
nodes of any kind). -/
inductive BlobDiffIn : List DiffT → List String → DiffKind → Hash → Prop where
  | here (kind : DiffKind) (rname : String) (rhash : Hash)
      (newHash : Option Hash) (children rest : List DiffT) :
      BlobDiffIn (DiffT.mk kind .blob rname rhash newHash children :: rest)
        [rname] kind rhash
  | inTree (tkind : DiffKind) (rname : String) (thash : Hash)
      (newHash : Option Hash) (children rest : List DiffT) (p : List String)
      (k : DiffKind) (h : Hash) :
      BlobDiffIn children p k h →
      BlobDiffIn (DiffT.mk tkind .tree rname thash newHash children :: rest)
        (rname :: p) k h
  | later (d : DiffT) (rest : List DiffT) (p : List String) (k : DiffKind)
      (h : Hash) :
      BlobDiffIn rest p k h →
      BlobDiffIn (d :: rest) p k h

/-- As `BlobDiffIn`, but every ancestor tree diff node is a `Modified`
tree — the only tree nodes `validate_clean` recurses into itself. -/
inductive CleanBlobDiffIn : List DiffT → List String → DiffKind → Hash → Prop where
  | here (kind : DiffKind) (rname : String) (rhash : Hash)
      (newHash : Option Hash) (children rest : List DiffT) :
      CleanBlobDiffIn (DiffT.mk kind .blob rname rhash newHash children :: rest)
        [rname] kind rhash
  | inTree (rname : String) (thash : Hash) (newHash : Option Hash)
      (children rest : List DiffT) (p : List String) (k : DiffKind) (h : Hash) :
      CleanBlobDiffIn children p k h →
      CleanBlobDiffIn
        (DiffT.mk .modified .tree rname thash newHash children :: rest)
        (rname :: p) k h
  | later (d : DiffT) (rest : List DiffT) (p : List String) (k : DiffKind)
      (h : Hash) :
      CleanBlobDiffIn rest p k h →
      CleanBlobDiffIn (d :: rest) p k h

/-- Counterexample to C10 as stated: a `Removed` tree diff for
directory `d` whose child is a `Removed` blob diff at `d/f`; the
working tree is empty, so the diff has a Removed blob node at a path
with no local file — yet validation succeeds, because
`validate_removed_tree` returns as soon as it sees that `d` does not
exist. -/
theorem validate_missing_file_cex :
    BlobDiffIn
      [DiffT.mk .removed .tree "d" "TH" none
        [DiffT.mk .removed .blob "f" "FH" none []]]
      ["d", "f"] .removed "FH" ∧
    fsGet (FsNode.dir []) ["d", "f"] = none ∧
    validate_clean
      (fun h => if h = "TH" then
          some (Tree.mk [("f", TreeRecord.mk .blob "FH" "f")]) else none)
      (FsNode.dir []) 5
      [DiffT.mk .removed .tree "d" "TH" none
        [DiffT.mk .removed .blob "f" "FH" none []]]
      [] = .ok () := by
  refine ⟨?der, rfl, rfl⟩
  exact BlobDiffIn.inTree .removed "d" "TH" none _ [] ["f"] .removed "FH"
    (BlobDiffIn.here .removed "f" "FH" none [] [])

/-- Claim C10 (amended: checkout validation requires tracked files to
exist).  If the diff contains a `Modified`, `Removed` or `MovedTo`
blob node at a path reachable through `Modified` tree ancestors only,
and no file exists at that path in the working tree, then
`validate_clean` does not succeed — even though nothing on disk would
be overwritten.  (The original claim, quantifying over blob nodes
under `Removed`/`MovedTo` tree ancestors as well, is refuted by
`validate_missing_file_cex`.) -/
theorem validate_missing_tracked_blob (loadT : Hash → Option Tree) (fs : FsNode)
    {diffs : List DiffT} {p : List String} {k : DiffKind} {h : Hash}
    (hder : CleanBlobDiffIn diffs p k h) :
    (k = .modified ∨ k = .removed ∨ k = .movedTo) →
    ∀ (fuel : Nat) (base : List String),
      fsGet fs (base ++ p) = none →
      validate_clean loadT fs fuel diffs base ≠ .ok () := by
  induction hder with
  | here kind rname rhash newHash children rest =>
    intro hk fuel base hmiss habs
    cases fuel with
    | zero => exact nomatch habs
    | succ fuel2 =>
      have hex : fsExists fs (base ++ [rname]) = false := by
        rw [fsExists, hmiss]
        rfl
      rcases hk with rfl | rfl | rfl <;> simp [validate_clean, hex] at habs
  | inTree rname thash newHash children rest p k h hsub ih =>
    intro hk fuel base hmiss habs
    cases fuel with
    | zero => exact nomatch habs
    | succ fuel2 =>
      have hmiss2 : fsGet fs ((base ++ [rname]) ++ p) = none := by
        rw [List.append_assoc]
        simpa using hmiss
      simp only [validate_clean] at habs
      split at habs
      · exact nomatch habs
      · next u heq =>
        exact ih hk fuel2 (base ++ [rname]) hmiss2 heq
  | later d rest p k h hsub ih =>
    intro hk fuel base hmiss habs
    cases fuel with
    | zero => exact nomatch habs
    | succ fuel2 =>
      rcases d with ⟨kind, rtype, rname, rhash, newHash, children⟩
      simp only [validate_clean] at habs
      repeat' split at habs
      all_goals
        first
          | exact ih hk fuel2 base hmiss habs
          | simp at habs

/-- Witness for the amended C10 at a concrete input: a `Removed` blob
diff for `a.txt` with no local file fails validation. -/
theorem validate_missing_tracked_blob_witness :
    validate_clean (fun _ => none) (FsNode.dir []) 3
      [DiffT.mk .removed .blob "a.txt" "1111" none []] [] ≠ .ok () :=
  validate_missing_tracked_blob (fun _ => none) (FsNode.dir [])
    (CleanBlobDiffIn.here .removed "a.txt" "1111" none [] [])
    (Or.inr (Or.inl rfl)) 3 [] rfl

/-! ## Three-way tree reconciliation (`merge.py:_merge_trees`)

`_merge_trees` pops (base, head, other, path) entries off a stack,
skips nodes whose head and other hashes agree, loads the three trees
(an absent hash is the empty tree), and walks the sorted union of the
names: a name all of whose present records are trees is pushed (the
recursion), any other name is classified by its three hashes.  The
stack order only affects the emission order of the actions, so the
model recurses where the source pushes. -/

/-- Byte-wise `str` comparison (`sorted`). -/
def charsLe : List Char → List Char → Bool
  | [], _ => true
  | _ :: _, [] => false
  | c :: cs, d :: ds => if c < d then true else if d < c then false else charsLe cs ds

def strLeb (a b : String) : Bool := charsLe a.data b.data

def insertSorted (a : String) : List String → List String
  | [] => [a]
  | b :: rest => if strLeb a b then a :: b :: rest else b :: insertSorted a rest

/-- `sorted(...)` by insertion. -/
def sortStrings : List String → List String
  | [] => []
  | a :: rest => insertSorted a (sortStrings rest)

/-- The set union of the names (each name once). -/
def dedupNames : List String → List String
  | [] => []
  | a :: rest => if a ∈ rest then dedupNames rest else a :: dedupNames rest

/-- `sorted(set(base) | set(head) | set(other))`. -/
def unionNames (bt ht ot : Tree) : List String :=
  sortStrings (dedupNames
    (bt.records.map Prod.fst ++ ht.records.map Prod.fst ++ ot.records.map Prod.fst))

/-- `load_tree(objects_dir, h) if h else Tree({})`. -/
def treeOf (loadT : Hash → Option Tree) : Option Hash → Option Tree
  | none => some (Tree.mk [])
  | some h => loadT h

/-- `record.hash if record else None` at a name. -/
def hashOf (t : Tree) (name : String) : Option Hash :=
  match alookup t.records name with
  | none => none
  | some r => some r.hash

/-- `record.type if record else None` at a name. -/
def typeOf (t : Tree) (name : String) : Option TreeRecordType :=
  match alookup t.records name with
  | none => none
  | some r => some r.type

/-- The push condition: every present record at the name is a tree. -/
def allTreeName (bt ht ot : Tree) (name : String) : Prop :=
  (typeOf bt name = some .tree ∨ typeOf bt name = none) ∧
  (typeOf ht name = some .tree ∨ typeOf ht name = none) ∧
  (typeOf ot name = some .tree ∨ typeOf ot name = none)

instance allTreeName.decidable (bt ht ot : Tree) (name : String) :
    Decidable (allTreeName bt ht ot name) := by
  rw [allTreeName]
  infer_instance

/-- A `MergeAction(type, path, path_str, blob_hash, h_base, h_head)`. -/
structure MergeAction where
  act : String
  path : List String
  blobHash : Option Hash
  hBase : Option Hash
  hHead : Option Hash
deriving DecidableEq

/-- The name loop of `_merge_trees` over one popped node, recursing
where the source pushes a child node on the stack. -/
def mergeGo (loadT : Hash → Option Tree) :
    Nat → List String → Tree → Tree → Tree → List String →
    Except Err (List MergeAction)
  | 0, _, _, _, _, _ => .error (.otherError "recursion limit")
  | _+1, [], _, _, _, _ => .ok []
  | fuel+1, name :: rest, bt, ht, ot, path =>
      let hb := hashOf bt name
      let hh := hashOf ht name
      let ho := hashOf ot name
      if allTreeName bt ht ot name then
        match ((if hb = hh ∧ hh = ho then .ok []
          else if hh = ho then .ok []
          else
            match treeOf loadT hb, treeOf loadT hh, treeOf loadT ho with
            | some bt2, some ht2, some ot2 =>
                mergeGo loadT fuel (unionNames bt2 ht2 ot2) bt2 ht2 ot2
                  (path ++ [name])
            | _, _, _ => .error (.otherError "load_tree failed")) :
            Except Err (List MergeAction)) with
        | .error e => .error e
        | .ok acts =>
            match mergeGo loadT fuel rest bt ht ot path with
            | .error e => .error e
            | .ok acts2 => .ok (acts ++ acts2)
      else
        let acts :=
          if hh = ho then []
          else if hh = hb ∧ ho ≠ hb then
            match ho with
            | none => [MergeAction.mk "DELETE" (path ++ [name]) none none none]
            | some oh =>
                [MergeAction.mk "UPDATE" (path ++ [name]) (some oh) none none]
          else if ho = hb ∧ hh ≠ hb then []
          else [MergeAction.mk "CONFLICT" (path ++ [name]) ho hb hh]
        match mergeGo loadT fuel rest bt ht ot path with
        | .error e => .error e
        | .ok acts2 => .ok (acts ++ acts2)

/-- Processing of one popped node: the two skip checks, the three
loads, then the name loop. -/
def mergeNode (loadT : Hash → Option Tree) (fuel : Nat)
    (b h o : Option Hash) (path : List String) :
    Except Err (List MergeAction) :=
  if b = h ∧ h = o then .ok []
  else if h = o then .ok []
  else
    match treeOf loadT b, treeOf loadT h, treeOf loadT o with
    | some bt, some ht, some ot =>
        mergeGo loadT fuel (unionNames bt ht ot) bt ht ot path
    | _, _, _ => .error (.otherError "load_tree failed")

/-- `_merge_trees(objects_dir, working_dir, base, head, other)`. -/
def merge_trees (loadT : Hash → Option Tree) (fuel : Nat)
    (b h o : Option Hash) : Except Err (List MergeAction) :=
  mergeNode loadT fuel b h o []

/-- The classification of the claim, per path, on the three hashes. -/
def classifyMerge (hb hh ho : Option Hash) (p : List String) :
    List MergeAction :=
  if hh = ho then []
  else if hh = hb ∧ ho ≠ hb then
    match ho with
    | none => [MergeAction.mk "DELETE" p none none none]
    | some oh => [MergeAction.mk "UPDATE" p (some oh) none none]
  else if ho = hb ∧ hh ≠ hb then []
  else [MergeAction.mk "CONFLICT" p ho hb hh]

/-- The actions a run emitted at one path. -/
def actionsAt (acts : List MergeAction) (p : List String) : List MergeAction :=
  acts.filter (fun a => a.path = p)

/-- The traversal starting at the node `(b, h, o)` reaches the
descendant node at the relative path with the given three subtree
hashes: each visited node passes the `h_hash == o_hash` skip check,
its three trees load, and each step descends through a name all of
whose present records are trees. -/
inductive RunsRel (loadT : Hash → Option Tree) :
    Option Hash → Option Hash → Option Hash → List String →
    Option Hash → Option Hash → Option Hash → Prop where
  | here (b h o : Option Hash) : ¬ h = o → RunsRel loadT b h o [] b h o
  | down (b h o : Option Hash) (name : String) (rest : List String)
      (b2 h2 o2 : Option Hash) (bt ht ot : Tree) :
      ¬ h = o →
      treeOf loadT b = some bt →
      treeOf loadT h = some ht →
      treeOf loadT o = some ot →
      allTreeName bt ht ot name →
      RunsRel loadT (hashOf bt name) (hashOf ht name) (hashOf ot name)
        rest b2 h2 o2 →
      RunsRel loadT b h o (name :: rest) b2 h2 o2

theorem mem_insertSorted (a x : String) :
    ∀ (l : List String), x ∈ insertSorted a l ↔ (x = a ∨ x ∈ l)
  | [] => by simp [insertSorted]
  | b :: rest => by
    simp only [insertSorted]
    split
    · simp
    · rw [List.mem_cons, mem_insertSorted a x rest, List.mem_cons]
      tauto

theorem nodup_insertSorted (a : String) :
    ∀ (l : List String), a ∉ l → l.Nodup → (insertSorted a l).Nodup
  | [], _, _ => List.nodup_singleton a
  | b :: rest, ha, hnd => by
    simp only [insertSorted]
    rcases List.nodup_cons.mp hnd with ⟨hb, hrest⟩
    split
    · exact List.nodup_cons.mpr ⟨ha, hnd⟩
    · refine List.nodup_cons.mpr ⟨?hm, ?hn⟩
      · rw [mem_insertSorted]
        rintro (rfl | hmem)
        · exact ha (List.mem_cons_self _ _)
        · exact hb hmem
      · exact nodup_insertSorted a rest (fun h => ha (List.mem_cons_of_mem b h)) hrest

theorem mem_sortStrings (x : String) :
    ∀ (l : List String), x ∈ sortStrings l ↔ x ∈ l
  | [] => Iff.rfl
  | a :: rest => by
    simp only [sortStrings]
    rw [mem_insertSorted, mem_sortStrings x rest, List.mem_cons]

theorem nodup_sortStrings :
    ∀ (l : List String), l.Nodup → (sortStrings l).Nodup
  | [], _ => List.nodup_nil
  | a :: rest, hnd => by
    rcases List.nodup_cons.mp hnd with ⟨ha, hrest⟩
    simp only [sortStrings]
    exact nodup_insertSorted a (sortStrings rest)
      (fun h => ha ((mem_sortStrings a rest).mp h))
      (nodup_sortStrings rest hrest)

theorem mem_dedupNames (x : String) :
    ∀ (l : List String), x ∈ dedupNames l ↔ x ∈ l
  | [] => Iff.rfl
  | a :: rest => by
    simp only [dedupNames]
    split
    · next hmem =>
      rw [mem_dedupNames x rest, List.mem_cons]
      constructor
      · exact Or.inr
      · rintro (rfl | hx)
        · exact hmem
        · exact hx
    · rw [List.mem_cons, List.mem_cons, mem_dedupNames x rest]

theorem nodup_dedupNames : ∀ (l : List String), (dedupNames l).Nodup
  | [] => List.nodup_nil
  | a :: rest => by
    simp only [dedupNames]
    split
    · exact nodup_dedupNames rest
    · next hmem =>
      refine List.nodup_cons.mpr ⟨?hm2, nodup_dedupNames rest⟩
      rw [mem_dedupNames]
      exact hmem

theorem mem_unionNames (bt ht ot : Tree) (name : String) :
    name ∈ unionNames bt ht ot ↔
      (name ∈ bt.records.map Prod.fst ∨ name ∈ ht.records.map Prod.fst ∨
        name ∈ ot.records.map Prod.fst) := by
  rw [unionNames, mem_sortStrings, mem_dedupNames, List.mem_append,
    List.mem_append]
  tauto

theorem nodup_unionNames (bt ht ot : Tree) : (unionNames bt ht ot).Nodup := by
  rw [unionNames]
  exact nodup_sortStrings _ (nodup_dedupNames _)

theorem hashOf_eq_none (t : Tree) (name : String)
    (h : name ∉ t.records.map Prod.fst) : hashOf t name = none := by
  rw [hashOf, alookup_eq_none]
  intro pr hpr hpr2
  exact h (List.mem_map.mpr ⟨pr, hpr, hpr2⟩)

theorem mem_classifyMerge_path (hb hh ho : Option Hash) (p : List String)
    (a : MergeAction) (ha : a ∈ classifyMerge hb hh ho p) : a.path = p := by
  rw [classifyMerge.eq_def] at ha
  split at ha
  · exact absurd ha (List.not_mem_nil a)
  · split at ha
    · split at ha <;>
        (rw [List.mem_singleton] at ha; subst ha; rfl)
    · split at ha
      · exact absurd ha (List.not_mem_nil a)
      · rw [List.mem_singleton] at ha
        subst ha
        rfl

theorem actionsAt_append (l1 l2 : List MergeAction) (p : List String) :
    actionsAt (l1 ++ l2) p = actionsAt l1 p ++ actionsAt l2 p := by
  rw [actionsAt, actionsAt, actionsAt, List.filter_append]

theorem actionsAt_classify_self (hb hh ho : Option Hash) (p : List String) :
    actionsAt (classifyMerge hb hh ho p) p = classifyMerge hb hh ho p := by
  rw [actionsAt, List.filter_eq_self]
  intro a ha
  rw [decide_eq_true_eq]
  exact mem_classifyMerge_path hb hh ho p a ha

theorem actionsAt_classify_other (hb hh ho : Option Hash) (p q : List String)
    (hne : p ≠ q) : actionsAt (classifyMerge hb hh ho p) q = [] := by
  rw [actionsAt, List.filter_eq_nil_iff]
  intro a ha
  rw [decide_eq_true_eq, mem_classifyMerge_path hb hh ho p a ha]
  exact hne

theorem actionsAt_eq_nil (acts : List MergeAction) (p : List String)
    (h : ∀ a ∈ acts, a.path ≠ p) : actionsAt acts p = [] := by
  rw [actionsAt, List.filter_eq_nil_iff]
  intro a ha
  rw [decide_eq_true_eq]
  exact h a ha

theorem mergeNode_eq (loadT : Hash → Option Tree) (fuel : Nat)
    (b h o : Option Hash) (p : List String) :
    mergeNode loadT fuel b h o p
      = ((if b = h ∧ h = o then .ok []
          else if h = o then .ok []
          else
            match treeOf loadT b, treeOf loadT h, treeOf loadT o with
            | some bt, some ht, some ot =>
                mergeGo loadT fuel (unionNames bt ht ot) bt ht ot p
            | _, _, _ => .error (.otherError "load_tree failed")) :
          Except Err (List MergeAction)) := rfl

theorem mergeGo_paths (loadT : Hash → Option Tree) :
    ∀ (fuel : Nat) (names : List String) (bt ht ot : Tree)
      (path : List String) (acts : List MergeAction),
      mergeGo loadT fuel names bt ht ot path = .ok acts →
      ∀ a ∈ acts, ∃ n ∈ names, ∃ q, a.path = path ++ n :: q
  | 0, names, bt, ht, ot, path, acts => by
    intro hrun
    exact absurd hrun (fun habs => nomatch habs)
  | fuel+1, [], bt, ht, ot, path, acts => by
    intro hrun a ha
    simp only [mergeGo] at hrun
    injection hrun with hrun
    subst hrun
    exact absurd ha (List.not_mem_nil a)
  | fuel+1, name :: rest, bt, ht, ot, path, acts => by
    intro hrun a ha
    simp only [mergeGo] at hrun
    split at hrun
    · -- all-tree: child node then rest
      split at hrun
      · exact nomatch hrun
      · next acts1 heq1 =>
        split at hrun
        · exact nomatch hrun
        · next acts2 heq2 =>
          injection hrun with hrun
          subst hrun
          rcases List.mem_append.mp ha with ha1 | ha2
          · -- from the child node
            rw [← mergeNode_eq loadT fuel (hashOf bt name) (hashOf ht name)
              (hashOf ot name) (path ++ [name])] at heq1
            rw [mergeNode_eq] at heq1
            split at heq1
            · injection heq1 with heq1
              subst heq1
              exact absurd ha1 (List.not_mem_nil a)
            · split at heq1
              · injection heq1 with heq1
                subst heq1
                exact absurd ha1 (List.not_mem_nil a)
              · split at heq1
                · next bt2 ht2 ot2 hb2 hh2 ho2 =>
                  obtain ⟨n2, _, q2, hq2⟩ := mergeGo_paths loadT fuel
                    (unionNames bt2 ht2 ot2) bt2 ht2 ot2 (path ++ [name])
                    acts1 heq1 a ha1
                  refine ⟨name, List.mem_cons_self _ _, n2 :: q2, ?hp⟩
                  rw [hq2, List.append_assoc]
                  rfl
                · exact nomatch heq1
          · obtain ⟨n2, hn2, q2, hq2⟩ := mergeGo_paths loadT fuel rest bt ht ot
              path acts2 heq2 a ha2
            exact ⟨n2, List.mem_cons_of_mem name hn2, q2, hq2⟩
    · -- blob classification then rest
      split at hrun
      · exact nomatch hrun
      · next acts2 heq2 =>
        injection hrun with hrun
        subst hrun
        rcases List.mem_append.mp ha with ha1 | ha2
        · refine ⟨name, List.mem_cons_self _ _, [], ?hp2⟩
          exact mem_classifyMerge_path _ _ _ _ a ha1
        · obtain ⟨n2, hn2, q2, hq2⟩ := mergeGo_paths loadT fuel rest bt ht ot
            path acts2 heq2 a ha2
          exact ⟨n2, List.mem_cons_of_mem name hn2, q2, hq2⟩

theorem runsRel_ne {loadT : Hash → Option Tree}
    {b h o : Option Hash} {relp : List String} {b2 h2 o2 : Option Hash}
    (hvis : RunsRel loadT b h o relp b2 h2 o2) : ¬ h = o := by
  cases hvis with
  | here _ _ _ hne => exact hne
  | down b3 h3 o3 name rest b4 h4 o4 bt ht ot hne hbt hht hot hall hsub =>
    exact hne

theorem append_cons_ne (path : List String) {n0 name : String}
    (q w : List String) (hne : n0 ≠ name) :
    path ++ n0 :: q ≠ path ++ name :: w := by
  intro h
  have h2 := List.append_cancel_left h
  injection h2 with h3 _
  exact hne h3

theorem mergeGo_actionsAt_notmem (loadT : Hash → Option Tree)
    (fuel : Nat) (names : List String) (bt ht ot : Tree)
    (path : List String) (acts : List MergeAction)
    (hrun : mergeGo loadT fuel names bt ht ot path = .ok acts)
    (name : String) (hname : name ∉ names) (w : List String) :
    actionsAt acts (path ++ name :: w) = [] := by
  apply actionsAt_eq_nil
  intro a ha hpath
  obtain ⟨n, hn, q, hq⟩ := mergeGo_paths loadT fuel names bt ht ot path acts
    hrun a ha
  rw [hq] at hpath
  have h2 := List.append_cancel_left hpath
  injection h2 with h3 _
  subst h3
  exact hname hn

theorem mergeNode_paths (loadT : Hash → Option Tree) (fuel : Nat)
    (b h o : Option Hash) (p : List String) (acts : List MergeAction)
    (hrun : mergeNode loadT fuel b h o p = .ok acts) :
    ∀ a ∈ acts, ∃ n q, a.path = p ++ n :: q := by
  intro a ha
  rw [mergeNode_eq] at hrun
  split at hrun
  · injection hrun with hrun
    subst hrun
    exact absurd ha (List.not_mem_nil a)
  · split at hrun
    · injection hrun with hrun
      subst hrun
      exact absurd ha (List.not_mem_nil a)
    · split at hrun
      · next bt ht ot hbt hht hot =>
        obtain ⟨n, _, q, hq⟩ := mergeGo_paths loadT fuel
          (unionNames bt ht ot) bt ht ot p acts hrun a ha
        exact ⟨n, q, hq⟩
      · exact nomatch hrun

theorem mergeNode_actionsAt_shallow (loadT : Hash → Option Tree) (fuel : Nat)
    (b h o : Option Hash) (p : List String) (acts : List MergeAction)
    (hrun : mergeNode loadT fuel b h o p = .ok acts)
    (target : List String) (htgt : ∀ n q, target ≠ p ++ n :: q) :
    actionsAt acts target = [] := by
  apply actionsAt_eq_nil
  intro a ha hpath
  obtain ⟨n, q, hq⟩ := mergeNode_paths loadT fuel b h o p acts hrun a ha
  rw [hq] at hpath
  exact htgt n q hpath.symm

theorem mergeGo_cons_blob_eq (loadT : Hash → Option Tree) (fuel : Nat)
    (name : String) (rest : List String) (bt ht ot : Tree)
    (path : List String) (hnall : ¬ allTreeName bt ht ot name) :
    mergeGo loadT (fuel+1) (name :: rest) bt ht ot path
      = (match mergeGo loadT fuel rest bt ht ot path with
        | .error e => .error e
        | .ok acts2 =>
            .ok (classifyMerge (hashOf bt name) (hashOf ht name)
              (hashOf ot name) (path ++ [name]) ++ acts2)) := by
  simp only [mergeGo]
  rw [if_neg hnall]
  rfl

theorem mergeGo_cons_tree_eq (loadT : Hash → Option Tree) (fuel : Nat)
    (name : String) (rest : List String) (bt ht ot : Tree)
    (path : List String) (hall : allTreeName bt ht ot name) :
    mergeGo loadT (fuel+1) (name :: rest) bt ht ot path
      = (match mergeNode loadT fuel (hashOf bt name) (hashOf ht name)
            (hashOf ot name) (path ++ [name]) with
        | .error e => .error e
        | .ok acts =>
            match mergeGo loadT fuel rest bt ht ot path with
            | .error e => .error e
            | .ok acts2 => .ok (acts ++ acts2)) := by
  simp only [mergeGo]
  rw [if_pos hall]
  rfl

theorem mergeGo_extract_blob (loadT : Hash → Option Tree) :
    ∀ (fuel : Nat) (names : List String) (bt ht ot : Tree)
      (path : List String) (acts : List MergeAction) (name : String),
      mergeGo loadT fuel names bt ht ot path = .ok acts →
      names.Nodup → name ∈ names →
      ¬ allTreeName bt ht ot name →
      actionsAt acts (path ++ [name]) =
        classifyMerge (hashOf bt name) (hashOf ht name) (hashOf ot name)
          (path ++ [name])
  | 0, names, bt, ht, ot, path, acts, name => by
    intro hrun
    exact absurd hrun (fun habs => nomatch habs)
  | fuel+1, [], bt, ht, ot, path, acts, name => by
    intro _ _ hmem _
    exact absurd hmem (List.not_mem_nil name)
  | fuel+1, n0 :: rest, bt, ht, ot, path, acts, name => by
    intro hrun hnd hmem hnall
    rcases List.nodup_cons.mp hnd with ⟨hn0, hndr⟩
    by_cases hall0 : allTreeName bt ht ot n0
    · have hne0 : n0 ≠ name := by
        rintro rfl
        exact hnall hall0
      have hmem2 : name ∈ rest := by
        rcases List.mem_cons.mp hmem with rfl | h2
        · exact absurd rfl hne0.symm
        · exact h2
      rw [mergeGo_cons_tree_eq loadT fuel n0 rest bt ht ot path hall0] at hrun
      split at hrun
      · exact nomatch hrun
      · next acts1 heq1 =>
        split at hrun
        · exact nomatch hrun
        · next acts2 heq2 =>
          injection hrun with hrun
          subst hrun
          rw [actionsAt_append]
          have hnil : actionsAt acts1 (path ++ [name]) = [] := by
            apply mergeNode_actionsAt_shallow loadT fuel _ _ _ _ acts1 heq1
            intro n q habs
            rw [List.append_assoc] at habs
            have h2 := List.append_cancel_left habs
            injection h2 with h3 h4
            exact nomatch h4
          rw [hnil,
            mergeGo_extract_blob loadT fuel rest bt ht ot path acts2 name
              heq2 hndr hmem2 hnall]
          simp
    · rw [mergeGo_cons_blob_eq loadT fuel n0 rest bt ht ot path hall0] at hrun
      split at hrun
      · exact nomatch hrun
      · next acts2 heq2 =>
        injection hrun with hrun
        subst hrun
        rw [actionsAt_append]
        by_cases heq0 : n0 = name
        · subst heq0
          have hnil2 : actionsAt acts2 (path ++ [n0]) = [] := by
            have := mergeGo_actionsAt_notmem loadT fuel rest bt ht ot path
              acts2 heq2 n0 hn0 []
            simpa using this
          rw [actionsAt_classify_self, hnil2]
          simp
        · have hnil3 : actionsAt
              (classifyMerge (hashOf bt n0) (hashOf ht n0) (hashOf ot n0)
                (path ++ [n0])) (path ++ [name]) = [] := by
            apply actionsAt_classify_other
            exact append_cons_ne path [] [] heq0
          have hmem2 : name ∈ rest := by
            rcases List.mem_cons.mp hmem with rfl | h2
            · exact absurd rfl (Ne.symm heq0)
            · exact h2
          rw [hnil3,
            mergeGo_extract_blob loadT fuel rest bt ht ot path acts2 name
              heq2 hndr hmem2 hnall]
          simp

theorem mergeGo_extract_tree (loadT : Hash → Option Tree) :
    ∀ (fuel : Nat) (names : List String) (bt ht ot : Tree)
      (path : List String) (acts : List MergeAction) (name : String),
      mergeGo loadT fuel names bt ht ot path = .ok acts →
      names.Nodup → name ∈ names →
      allTreeName bt ht ot name →
      ∃ fuel2 acts1,
        mergeNode loadT fuel2 (hashOf bt name) (hashOf ht name)
          (hashOf ot name) (path ++ [name]) = .ok acts1 ∧
        ∀ w, actionsAt acts (path ++ name :: w)
          = actionsAt acts1 (path ++ name :: w)
  | 0, names, bt, ht, ot, path, acts, name => by
    intro hrun
    exact absurd hrun (fun habs => nomatch habs)
  | fuel+1, [], bt, ht, ot, path, acts, name => by
    intro _ _ hmem _
    exact absurd hmem (List.not_mem_nil name)
  | fuel+1, n0 :: rest, bt, ht, ot, path, acts, name => by
    intro hrun hnd hmem hall
    rcases List.nodup_cons.mp hnd with ⟨hn0, hndr⟩
    by_cases hall0 : allTreeName bt ht ot n0
    · rw [mergeGo_cons_tree_eq loadT fuel n0 rest bt ht ot path hall0] at hrun
      split at hrun
      · exact nomatch hrun
      · next acts1 heq1 =>
        split at hrun
        · exact nomatch hrun
        · next acts2 heq2 =>
          injection hrun with hrun
          subst hrun
          by_cases heq0 : n0 = name
          · subst heq0
            refine ⟨fuel, acts1, heq1, ?hw⟩
            intro w
            rw [actionsAt_append,
              mergeGo_actionsAt_notmem loadT fuel rest bt ht ot path acts2
                heq2 n0 hn0 w]
            simp
          · have hmem2 : name ∈ rest := by
              rcases List.mem_cons.mp hmem with rfl | h2
              · exact absurd rfl (Ne.symm heq0)
              · exact h2
            obtain ⟨fuel2, actsc, hchild, hw⟩ := mergeGo_extract_tree loadT
              fuel rest bt ht ot path acts2 name heq2 hndr hmem2 hall
            refine ⟨fuel2, actsc, hchild, ?hw2⟩
            intro w
            rw [actionsAt_append]
            have hnil : actionsAt acts1 (path ++ name :: w) = [] := by
              apply mergeNode_actionsAt_shallow loadT fuel _ _ _ _ acts1 heq1
              intro n q habs
              rw [List.append_assoc] at habs
              have h2 := List.append_cancel_left habs
              injection h2 with h3 h4
              exact heq0 h3.symm
            rw [hnil, hw w]
            simp
    · have hne0 : n0 ≠ name := by
        rintro rfl
        exact hall0 hall
      have hmem2 : name ∈ rest := by
        rcases List.mem_cons.mp hmem with rfl | h2
        · exact absurd rfl (Ne.symm hne0)
        · exact h2
      rw [mergeGo_cons_blob_eq loadT fuel n0 rest bt ht ot path hall0] at hrun
      split at hrun
      · exact nomatch hrun
      · next acts2 heq2 =>
        injection hrun with hrun
        subst hrun
        obtain ⟨fuel2, actsc, hchild, hw⟩ := mergeGo_extract_tree loadT fuel
          rest bt ht ot path acts2 name heq2 hndr hmem2 hall
        refine ⟨fuel2, actsc, hchild, ?hw3⟩
        intro w
        rw [actionsAt_append]
        have hnil : actionsAt
            (classifyMerge (hashOf bt n0) (hashOf ht n0) (hashOf ot n0)
              (path ++ [n0])) (path ++ name :: w) = [] := by
          apply actionsAt_classify_other
          exact append_cons_ne path [] w hne0
        rw [hnil, hw w]
        simp

theorem mergeNode_classify (loadT : Hash → Option Tree)
    {bq hq oq : Option Hash} {relp : List String} {b2 h2 o2 : Option Hash}
    (hvis : RunsRel loadT bq hq oq relp b2 h2 o2) :
    ∀ (fuel : Nat) (path : List String) (acts : List MergeAction),
      mergeNode loadT fuel bq hq oq path = .ok acts →
      ∀ (name : String) (bt ht ot : Tree),
        treeOf loadT b2 = some bt → treeOf loadT h2 = some ht →
        treeOf loadT o2 = some ot →
        ¬ allTreeName bt ht ot name →
        actionsAt acts ((path ++ relp) ++ [name]) =
          classifyMerge (hashOf bt name) (hashOf ht name) (hashOf ot name)
            ((path ++ relp) ++ [name]) := by
  induction hvis with
  | here b h o hne =>
    intro fuel path acts hrun name bt ht ot hbt hht hot hnall
    rw [mergeNode_eq] at hrun
    rw [if_neg (fun hc => hne hc.2), if_neg hne, hbt, hht, hot] at hrun
    have hrun2 : mergeGo loadT fuel (unionNames bt ht ot) bt ht ot path
        = .ok acts := hrun
    by_cases hmem : name ∈ unionNames bt ht ot
    · have hmain := mergeGo_extract_blob loadT fuel (unionNames bt ht ot)
        bt ht ot path acts name hrun2 (nodup_unionNames bt ht ot) hmem hnall
      simpa using hmain
    · have hb0 : hashOf bt name = none := hashOf_eq_none bt name
        (fun h2 => hmem ((mem_unionNames bt ht ot name).mpr (Or.inl h2)))
      have hh0 : hashOf ht name = none := hashOf_eq_none ht name
        (fun h2 => hmem ((mem_unionNames bt ht ot name).mpr (Or.inr (Or.inl h2))))
      have ho0 : hashOf ot name = none := hashOf_eq_none ot name
        (fun h2 => hmem ((mem_unionNames bt ht ot name).mpr (Or.inr (Or.inr h2))))
      have hnil := mergeGo_actionsAt_notmem loadT fuel (unionNames bt ht ot)
        bt ht ot path acts hrun2 name hmem []
      rw [hb0, hh0, ho0]
      simp only [List.append_nil]
      rw [show path ++ [name] = path ++ name :: [] from rfl, hnil]
      simp [classifyMerge]
  | down b h o name0 rest2 b4 h4 o4 bt0 ht0 ot0 hne hbt0 hht0 hot0 hall0
      hsub ih =>
    intro fuel path acts hrun name bt ht ot hbt hht hot hnall
    rw [mergeNode_eq] at hrun
    rw [if_neg (fun hc => hne hc.2), if_neg hne, hbt0, hht0, hot0] at hrun
    have hrun2 : mergeGo loadT fuel (unionNames bt0 ht0 ot0) bt0 ht0 ot0 path
        = .ok acts := hrun
    have hne2 := runsRel_ne hsub
    have hmem : name0 ∈ unionNames bt0 ht0 ot0 := by
      by_contra hnm
      have hh0 : hashOf ht0 name0 = none := hashOf_eq_none ht0 name0
        (fun h2 => hnm ((mem_unionNames bt0 ht0 ot0 name0).mpr
          (Or.inr (Or.inl h2))))
      have ho0 : hashOf ot0 name0 = none := hashOf_eq_none ot0 name0
        (fun h2 => hnm ((mem_unionNames bt0 ht0 ot0 name0).mpr
          (Or.inr (Or.inr h2))))
      exact hne2 (by rw [hh0, ho0])
    obtain ⟨fuel2, acts1, hchild, hw⟩ := mergeGo_extract_tree loadT fuel
      (unionNames bt0 ht0 ot0) bt0 ht0 ot0 path acts name0 hrun2
      (nodup_unionNames bt0 ht0 ot0) hmem hall0
    have hih := ih fuel2 (path ++ [name0]) acts1 hchild name bt ht ot
      hbt hht hot hnall
    have hshape : (path ++ (name0 :: rest2)) ++ [name]
        = path ++ name0 :: (rest2 ++ [name]) := by simp
    have hshape2 : (((path ++ [name0]) ++ rest2)) ++ [name]
        = path ++ name0 :: (rest2 ++ [name]) := by simp
    rw [hshape, hw (rest2 ++ [name])]
    rw [hshape2] at hih
    exact hih

/-- Claim C1 (three-way tree reconciliation classification).  For every
triple of root tree hashes and every path the traversal reaches whose
entries are not all trees, `_merge_trees` emits exactly the claim's
classification of the three hashes at that path: nothing when head and
other agree; UPDATE to the other side's hash (DELETE when the other
side is absent) when head equals base and other differs; nothing (keep
head) when other equals base and head differs; and CONFLICT otherwise. -/
theorem merge_trees_classification (loadT : Hash → Option Tree) (fuel : Nat)
    (b h o : Option Hash) (acts : List MergeAction)
    (hrun : merge_trees loadT fuel b h o = .ok acts)
    (p : List String) (b2 h2 o2 : Option Hash)
    (hvis : RunsRel loadT b h o p b2 h2 o2)
    (name : String) (bt ht ot : Tree)
    (hbt : treeOf loadT b2 = some bt) (hht : treeOf loadT h2 = some ht)
    (hot : treeOf loadT o2 = some ot)
    (hnall : ¬ allTreeName bt ht ot name) :
    actionsAt acts (p ++ [name]) =
      classifyMerge (hashOf bt name) (hashOf ht name) (hashOf ot name)
        (p ++ [name]) := by
  have hmain := mergeNode_classify loadT hvis fuel [] acts hrun name bt ht ot
    hbt hht hot hnall
  simpa using hmain

/-- Witness for C1: base and head agree on blob `f` while other changed
it, so the emitted action at `f` is the claim's UPDATE. -/
theorem merge_trees_classification_witness :
    actionsAt [MergeAction.mk "UPDATE" ["f"] (some "F2") none none] ["f"]
      = classifyMerge (some "F1") (some "F1") (some "F2") ["f"] := by
  have h := merge_trees_classification
    (fun h => if h = "B1" then some (Tree.mk [("f", TreeRecord.mk .blob "F1" "f")])
      else if h = "H1" then some (Tree.mk [("f", TreeRecord.mk .blob "F1" "f")])
      else if h = "O1" then some (Tree.mk [("f", TreeRecord.mk .blob "F2" "f")])
      else none)
    3 (some "B1") (some "H1") (some "O1")
    [MergeAction.mk "UPDATE" ["f"] (some "F2") none none]
    rfl
    [] (some "B1") (some "H1") (some "O1")
    (RunsRel.here (some "B1") (some "H1") (some "O1") (by decide))
    "f" (Tree.mk [("f", TreeRecord.mk .blob "F1" "f")])
    (Tree.mk [("f", TreeRecord.mk .blob "F1" "f")])
    (Tree.mk [("f", TreeRecord.mk .blob "F2" "f")])
    rfl rfl rfl (by decide)
  simpa using h

/-! ## Tree diff (`diff.py:diff_trees`)

`diff_trees` builds a mutable graph of `Diff` objects with parent and
child references, two dicts `potentially_added` / `potentially_removed`
keyed by content hash, and cross links between the two halves of a
detected move.  The object graph is modelled as an arena: nodes live in
a list, a Python object reference is the node's index, and the
top-level sentinel diff is node 0.  `is`-identity comparisons become
index equality; a promotion or a move pairing allocates a fresh node
and patches references exactly as the source does, leaving the stale
object in the arena (still referenced by the dicts, as in Python). -/

/-- One `Diff` object: its class (kind), `record`, the `new_record` of
a `ModifiedDiff`, `parent`, `children`, and the `moved_to` /
`moved_from` cross link. -/
structure DNode where
  kind : DiffKind
  record : TreeRecord
  newRec : Option TreeRecord
  parent : Option Nat
  children : List Nat
  partner : Option Nat
deriving DecidableEq

instance : Inhabited DNode :=
  ⟨⟨.added, TreeRecord.mk .blob "" "", none, none, [], none⟩⟩

/-- The machine state: the arena (node 0 is `top_level_diff`) and the
two pending-move dicts mapping a content hash to a node index. -/
structure DState where
  nodes : List DNode
  potA : List (Hash × Nat)
  potR : List (Hash × Nat)
deriving DecidableEq

def dnGet (st : DState) (i : Nat) : DNode := st.nodes.getD i default

def setNode (st : DState) (i : Nat) (f : DNode → DNode) : DState :=
  { st with nodes := st.nodes.set i (f (dnGet st i)) }

def alloc (st : DState) (n : DNode) : DState × Nat :=
  ({ st with nodes := st.nodes ++ [n] }, st.nodes.length)

def appendChild (st : DState) (p i : Nat) : DState :=
  setNode st p (fun n => { n with children := n.children ++ [i] })

/-- The `for child in parent.children: if child is curr` replacement
loop. -/
def replaceChild (st : DState) (p old new : Nat) : DState :=
  setNode st p (fun n =>
    { n with children := n.children.map (fun c => if c = old then new else c) })

def setParent (st : DState) (i : Nat) (p : Option Nat) : DState :=
  setNode st i (fun n => { n with parent := p })

def setPartner (st : DState) (i : Nat) (p : Option Nat) : DState :=
  setNode st i (fun n => { n with partner := p })

def setChildren (st : DState) (i : Nat) (cs : List Nat) : DState :=
  setNode st i (fun n => { n with children := cs })

/-- `_expand_diff`: allocate an Added/Removed child per record,
register it in the pending dict, append it, and recurse into loadable
subtrees (a load failure silently stops the branch, as does the fuel). -/
def expandGo (load1 load2 : Hash → Option Tree) (isAdded : Bool) :
    Nat → Nat → List (String × TreeRecord) → DState → DState
  | 0, _, _, st => st
  | _+1, _, [], st => st
  | fuel+1, diffIdx, (_, record) :: rest, st =>
      let pr := alloc st ⟨(if isAdded then .added else .removed), record, none,
        some diffIdx, [], none⟩
      let st2 := if isAdded then
          { pr.1 with potA := aset pr.1.potA record.hash pr.2 }
        else
          { pr.1 with potR := aset pr.1.potR record.hash pr.2 }
      let st3 := appendChild st2 diffIdx pr.2
      let st4 :=
        if record.type = .tree then
          match (if isAdded then load2 record.hash else load1 record.hash) with
          | none => st3
          | some sub => expandGo load1 load2 isAdded fuel pr.2 sub.records st3
        else st3
      expandGo load1 load2 isAdded fuel diffIdx rest st4

/-- The `while curr and curr.parent` walk of
`_promote_parents_to_modified`: convert an Added/Removed ancestor to a
fresh Modified node, patching its parent's child list and its
children's parent references. -/
def promoteGo : Nat → DState → Option Nat → DState
  | 0, st, _ => st
  | _+1, st, none => st
  | fuel+1, st, some c =>
      let n := dnGet st c
      match n.parent with
      | none => st
      | some p =>
          if n.kind = .added ∨ n.kind = .removed then
            let pr := alloc st ⟨.modified, n.record, none, n.parent, n.children, none⟩
            let st2 := replaceChild pr.1 p c pr.2
            let st3 := n.children.foldl
              (fun acc ch => setParent acc ch (some pr.2)) st2
            promoteGo fuel st3 n.parent
          else
            promoteGo fuel st n.parent

def promoteParents (st : DState) (start : Nat) : DState :=
  promoteGo (st.nodes.length + 1) st (dnGet st start).parent

/-- The `records1` loop of `diff_trees`: removals, move pairings
against `potentially_added`, and modifications (tree–tree
modifications push a child task). -/
def procRecords1 (load1 load2 : Hash → Option Tree) (fuelE : Nat)
    (records2 : List (String × TreeRecord)) :
    List (String × TreeRecord) → Nat → DState →
    List (Option Tree × Option Tree × Nat) →
    Except Err (DState × List (Option Tree × Option Tree × Nat))
  | [], _, st, pushes => .ok (st, pushes)
  | (name, record1) :: rest, pidx, st, pushes =>
      match alookup records2 name with
      | none =>
          match alookup st.potA record1.hash with
          | some addedIdx =>
              let st0 : DState := { st with potA := adel st.potA record1.hash }
              let prL := alloc st0 ⟨.movedTo, record1, none, some pidx, [], none⟩
              let added := dnGet prL.1 addedIdx
              let prM := alloc prL.1
                ⟨.movedFrom, added.record, none, added.parent, [], some prL.2⟩
              let st3 := setPartner prM.1 prL.2 (some prM.2)
              let st4 := match added.parent with
                | some ap => replaceChild st3 ap addedIdx prM.2
                | none => st3
              let st5 := promoteParents st4 prM.2
              let st6 := setChildren st5 prM.2 added.children
              let st7 := added.children.foldl
                (fun acc ch => setParent acc ch (some prM.2)) st6
              let st8 := appendChild st7 pidx prL.2
              procRecords1 load1 load2 fuelE records2 rest pidx st8 pushes
          | none =>
              let pr := alloc st ⟨.removed, record1, none, some pidx, [], none⟩
              let st2 : DState := { pr.1 with potR := aset pr.1.potR record1.hash pr.2 }
              let st3 :=
                if record1.type = .tree then
                  match load1 record1.hash with
                  | none => st2
                  | some sub => expandGo load1 load2 false fuelE pr.2 sub.records st2
                else st2
              let st4 := appendChild st3 pidx pr.2
              procRecords1 load1 load2 fuelE records2 rest pidx st4 pushes
      | some record2 =>
          if record1.hash = record2.hash then
            procRecords1 load1 load2 fuelE records2 rest pidx st pushes
          else if record1.type = .tree ∧ record2.type = .tree then
            let pr := alloc st ⟨.modified, record1, some record2, some pidx, [], none⟩
            match load1 record1.hash, load2 record2.hash with
            | some sub1, some sub2 =>
                let st2 := appendChild pr.1 pidx pr.2
                procRecords1 load1 load2 fuelE records2 rest pidx st2
                  (pushes ++ [(some sub1, some sub2, pr.2)])
            | _, _ => .error (.otherError "DiffError: error loading subtree")
          else
            let pr := alloc st ⟨.modified, record1, some record2, some pidx, [], none⟩
            let st2 := appendChild pr.1 pidx pr.2
            procRecords1 load1 load2 fuelE records2 rest pidx st2 pushes

/-- The `records2` loop of `diff_trees`: additions and move pairings
against `potentially_removed`; it never raises and never pushes. -/
def procRecords2 (load1 load2 : Hash → Option Tree) (fuelE : Nat)
    (records1 : List (String × TreeRecord)) :
    List (String × TreeRecord) → Nat → DState → DState
  | [], _, st => st
  | (name, record2) :: rest, pidx, st =>
      match alookup records1 name with
      | some _ => procRecords2 load1 load2 fuelE records1 rest pidx st
      | none =>
          match alookup st.potR record2.hash with
          | some removedIdx =>
              let st0 : DState := { st with potR := adel st.potR record2.hash }
              let prL := alloc st0 ⟨.movedFrom, record2, none, some pidx, [], none⟩
              let removed := dnGet prL.1 removedIdx
              let prM := alloc prL.1
                ⟨.movedTo, removed.record, none, removed.parent, [], some prL.2⟩
              let st3 := setPartner prM.1 prL.2 (some prM.2)
              let st4 := match removed.parent with
                | some rp => replaceChild st3 rp removedIdx prM.2
                | none => st3
              let st5 := promoteParents st4 prM.2
              let st6 := setChildren st5 prM.2 removed.children
              let st7 := removed.children.foldl
                (fun acc ch => setParent acc ch (some prM.2)) st6
              let st8 := appendChild st7 pidx prL.2
              procRecords2 load1 load2 fuelE records1 rest pidx st8
          | none =>
              let pr := alloc st ⟨.added, record2, none, some pidx, [], none⟩
              let st2 : DState := { pr.1 with potA := aset pr.1.potA record2.hash pr.2 }
              let st3 :=
                if record2.type = .tree then
                  match load2 record2.hash with
                  | none => st2
                  | some sub => expandGo load1 load2 true fuelE pr.2 sub.records st2
                else st2
              let st4 := appendChild st3 pidx pr.2
              procRecords2 load1 load2 fuelE records1 rest pidx st4

/-- One popped `(tree1, tree2, parent_diff)` stack entry. -/
def diffNode (load1 load2 : Hash → Option Tree) (fuelE : Nat)
    (t1 t2 : Option Tree) (pidx : Nat) (st : DState) :
    Except Err (DState × List (Option Tree × Option Tree × Nat)) :=
  let records1 := match t1 with | none => [] | some t => t.records
  let records2 := match t2 with | none => [] | some t => t.records
  match procRecords1 load1 load2 fuelE records2 records1 pidx st [] with
  | .error e => .error e
  | .ok (st1, pushes) =>
      .ok (procRecords2 load1 load2 fuelE records1 records2 pidx st1, pushes)

/-- The `while stack` loop (LIFO: entries pushed during a node are
processed first, in reverse push order). -/
def diffRun (load1 load2 : Hash → Option Tree) (fuelE : Nat) :
    Nat → List (Option Tree × Option Tree × Nat) → DState → Except Err DState
  | 0, _, _ => .error (.otherError "recursion limit")
  | _+1, [], st => .ok st
  | fuel+1, (t1, t2, pidx) :: stk, st =>
      match diffNode load1 load2 fuelE t1 t2 pidx st with
      | .error e => .error e
      | .ok (st1, pushes) =>
          diffRun load1 load2 fuelE fuel (pushes.reverse ++ stk) st1

/-- `diff_trees(tree1, tree2, load_tree1, load_tree2)`: the returned
forest is the sentinel's children in the final arena.  The sentinel's
kind never matters: promotion stops at it because its parent is
`None`. -/
def diff_trees (load1 load2 : Hash → Option Tree) (fuelE fuel : Nat)
    (t1 t2 : Option Tree) : Except Err DState :=
  diffRun load1 load2 fuelE fuel [(t1, t2, 0)]
    ⟨[⟨.modified, TreeRecord.mk .tree "" "", none, none, [], none⟩], [], []⟩

/-- The forest `diff_trees` returns (`top_level_diff.children`). -/
def rootForest (st : DState) : List Nat := (dnGet st 0).children

def addedAt (st : DState) (r : TreeRecord) : Prop :=
  ∃ i ∈ rootForest st, dnGet st i = ⟨.added, r, none, some 0, [], none⟩

def removedAt (st : DState) (r : TreeRecord) : Prop :=
  ∃ i ∈ rootForest st, dnGet st i = ⟨.removed, r, none, some 0, [], none⟩

def modifiedAt (st : DState) (r1 r2 : TreeRecord) : Prop :=
  ∃ i ∈ rootForest st, dnGet st i = ⟨.modified, r1, some r2, some 0, [], none⟩

def movedPairAt (st : DState) (r1 r2 : TreeRecord) : Prop :=
  ∃ i ∈ rootForest st, ∃ j ∈ rootForest st,
    dnGet st i = ⟨.movedTo, r1, none, some 0, [], some j⟩ ∧
    dnGet st j = ⟨.movedFrom, r2, none, some 0, [], some i⟩

instance addedAt.decidable (st : DState) (r : TreeRecord) :
    Decidable (addedAt st r) := by
  rw [addedAt]
  infer_instance

instance removedAt.decidable (st : DState) (r : TreeRecord) :
    Decidable (removedAt st r) := by
  rw [removedAt]
  infer_instance

instance modifiedAt.decidable (st : DState) (r1 r2 : TreeRecord) :
    Decidable (modifiedAt st r1 r2) := by
  rw [modifiedAt]
  infer_instance

instance movedPairAt.decidable (st : DState) (r1 r2 : TreeRecord) :
    Decidable (movedPairAt st r1 r2) := by
  rw [movedPairAt]
  infer_instance

/-- Counterexample to C4 as stated, in two parts.

Part 1 (a repeated content hash breaks duality): with
`t1 = {a ↦ H, b ↦ H}` and `t2 = {c ↦ H}`, the forward diff removes
`a` and pairs the move `b → c`, while the swapped diff pairs `c → a`
and adds `b`: the swapped forest is not the node-for-node dual (it has
no Added node for `a`, the dual of the forward Removed `a`).  The
pending-move dictionaries are keyed by content hash, so the repeated
hash `H` overwrites the earlier candidate.

Part 2 (a tree entry breaks duality even with all hashes unique):
with `t1 = {d ↦ tree D}` where the loadable subtree `D = {x ↦ H}` and
`t2 = {x ↦ H}` — every name and every hash unique per tree — the
forward diff expands the removed directory `d`, pairs the nested
removed `x` with the top-level `x`, and promotes `d` to a Modified
node, yielding `[Modified d [MovedTo x], MovedFrom x]`; the swapped
diff removes `x` first and only then expands the added directory `d`,
so nothing pairs, yielding `[Removed x, Added d [Added x]]`.  The
swapped forest has a root Removed `x` whose dual Added `x` is absent
from the forward forest. -/
theorem diff_trees_duality_cex :
    (∃ F B,
      diff_trees (fun _ => none) (fun _ => none) 2 3
        (some (Tree.mk [("a", TreeRecord.mk .blob "H" "a"),
          ("b", TreeRecord.mk .blob "H" "b")]))
        (some (Tree.mk [("c", TreeRecord.mk .blob "H" "c")])) = .ok F ∧
      diff_trees (fun _ => none) (fun _ => none) 2 3
        (some (Tree.mk [("c", TreeRecord.mk .blob "H" "c")]))
        (some (Tree.mk [("a", TreeRecord.mk .blob "H" "a"),
          ("b", TreeRecord.mk .blob "H" "b")])) = .ok B ∧
      removedAt F (TreeRecord.mk .blob "H" "a") ∧
      ¬ addedAt B (TreeRecord.mk .blob "H" "a") ∧
      movedPairAt B (TreeRecord.mk .blob "H" "c") (TreeRecord.mk .blob "H" "a") ∧
      addedAt B (TreeRecord.mk .blob "H" "b")) ∧
    (∃ F2 B2,
      diff_trees
        (fun h => if h = "D" then
          some (Tree.mk [("x", TreeRecord.mk .blob "H" "x")]) else none)
        (fun h => if h = "D" then
          some (Tree.mk [("x", TreeRecord.mk .blob "H" "x")]) else none) 2 2
        (some (Tree.mk [("d", TreeRecord.mk .tree "D" "d")]))
        (some (Tree.mk [("x", TreeRecord.mk .blob "H" "x")])) = .ok F2 ∧
      diff_trees
        (fun h => if h = "D" then
          some (Tree.mk [("x", TreeRecord.mk .blob "H" "x")]) else none)
        (fun h => if h = "D" then
          some (Tree.mk [("x", TreeRecord.mk .blob "H" "x")]) else none) 2 2
        (some (Tree.mk [("x", TreeRecord.mk .blob "H" "x")]))
        (some (Tree.mk [("d", TreeRecord.mk .tree "D" "d")])) = .ok B2 ∧
      removedAt B2 (TreeRecord.mk .blob "H" "x") ∧
      ¬ addedAt F2 (TreeRecord.mk .blob "H" "x")) := by
  constructor
  · refine ⟨⟨[⟨.modified, TreeRecord.mk .tree "" "", none, none, [1, 4, 3],
        none⟩,
      ⟨.removed, TreeRecord.mk .blob "H" "a", none, some 0, [], none⟩,
      ⟨.removed, TreeRecord.mk .blob "H" "b", none, some 0, [], none⟩,
      ⟨.movedFrom, TreeRecord.mk .blob "H" "c", none, some 0, [], some 4⟩,
      ⟨.movedTo, TreeRecord.mk .blob "H" "b", none, some 0, [], some 3⟩],
      [], []⟩,
      ⟨[⟨.modified, TreeRecord.mk .tree "" "", none, none, [3, 2, 4], none⟩,
      ⟨.removed, TreeRecord.mk .blob "H" "c", none, some 0, [], none⟩,
      ⟨.movedFrom, TreeRecord.mk .blob "H" "a", none, some 0, [], some 3⟩,
      ⟨.movedTo, TreeRecord.mk .blob "H" "c", none, some 0, [], some 2⟩,
      ⟨.added, TreeRecord.mk .blob "H" "b", none, some 0, [], none⟩],
      [("H", 4)], []⟩, ?hF, ?hB, ?hc1, ?hc2, ?hc3, ?hc4⟩
    case hF => rfl
    case hB => rfl
    case hc1 => decide
    case hc2 => decide
    case hc3 => decide
    case hc4 => decide
  · refine ⟨⟨[⟨.modified, TreeRecord.mk .tree "" "", none, none, [5, 3],
        none⟩,
      ⟨.removed, TreeRecord.mk .tree "D" "d", none, some 0, [4], none⟩,
      ⟨.removed, TreeRecord.mk .blob "H" "x", none, some 1, [], none⟩,
      ⟨.movedFrom, TreeRecord.mk .blob "H" "x", none, some 0, [], some 4⟩,
      ⟨.movedTo, TreeRecord.mk .blob "H" "x", none, some 5, [], some 3⟩,
      ⟨.modified, TreeRecord.mk .tree "D" "d", none, some 0, [4], none⟩],
      [], [("D", 1)]⟩,
      ⟨[⟨.modified, TreeRecord.mk .tree "" "", none, none, [1, 2], none⟩,
      ⟨.removed, TreeRecord.mk .blob "H" "x", none, some 0, [], none⟩,
      ⟨.added, TreeRecord.mk .tree "D" "d", none, some 0, [3], none⟩,
      ⟨.added, TreeRecord.mk .blob "H" "x", none, some 2, [], none⟩],
      [("D", 2), ("H", 3)], [("H", 1)]⟩, ?hF2, ?hB2, ?hn1, ?hn2⟩
    case hF2 => rfl
    case hB2 => rfl
    case hn1 => decide
    case hn2 => decide

/-! Step lemmas resolving one iteration of the two record loops, given
the results of the dictionary lookups the source performs. -/

/-- The move-pairing branch of the `records2` loop, extracted verbatim
(`potentially_removed` hit: allocate the `MovedFrom`, convert the
`Removed` into a `MovedTo`, cross-link, patch the parent's child list,
promote ancestors, adopt the children). -/
def pairMove2 (st : DState) (record2 : TreeRecord) (pidx removedIdx : Nat) :
    DState :=
  let st0 : DState := { st with potR := adel st.potR record2.hash }
  let prL := alloc st0 ⟨.movedFrom, record2, none, some pidx, [], none⟩
  let removed := dnGet prL.1 removedIdx
  let prM := alloc prL.1
    ⟨.movedTo, removed.record, none, removed.parent, [], some prL.2⟩
  let st3 := setPartner prM.1 prL.2 (some prM.2)
  let st4 := match removed.parent with
    | some rp => replaceChild st3 rp removedIdx prM.2
    | none => st3
  let st5 := promoteParents st4 prM.2
  let st6 := setChildren st5 prM.2 removed.children
  let st7 := removed.children.foldl
    (fun acc ch => setParent acc ch (some prM.2)) st6
  appendChild st7 pidx prL.2

theorem procRecords1_cons_skip (load1 load2 : Hash → Option Tree)
    (fuelE : Nat) (records2 : List (String × TreeRecord))
    (name : String) (record1 r2 : TreeRecord)
    (rest : List (String × TreeRecord)) (pidx : Nat) (st : DState)
    (pushes : List (Option Tree × Option Tree × Nat))
    (hl : alookup records2 name = some r2) (hh : record1.hash = r2.hash) :
    procRecords1 load1 load2 fuelE records2 ((name, record1) :: rest) pidx st
      pushes
      = procRecords1 load1 load2 fuelE records2 rest pidx st pushes := by
  simp [procRecords1, hl, hh]

theorem procRecords1_cons_removed_blob (load1 load2 : Hash → Option Tree)
    (fuelE : Nat) (records2 : List (String × TreeRecord))
    (name : String) (record1 : TreeRecord)
    (rest : List (String × TreeRecord)) (pidx : Nat) (st : DState)
    (pushes : List (Option Tree × Option Tree × Nat))
    (hl : alookup records2 name = none)
    (hA : alookup st.potA record1.hash = none)
    (hty : record1.type = .blob) :
    procRecords1 load1 load2 fuelE records2 ((name, record1) :: rest) pidx st
      pushes
      = procRecords1 load1 load2 fuelE records2 rest pidx
          (appendChild
            ⟨st.nodes ++ [⟨.removed, record1, none, some pidx, [], none⟩],
              st.potA, aset st.potR record1.hash st.nodes.length⟩
            pidx st.nodes.length) pushes := by
  simp [procRecords1, hl, hA, hty, alloc]

theorem procRecords1_cons_modified_blob (load1 load2 : Hash → Option Tree)
    (fuelE : Nat) (records2 : List (String × TreeRecord))
    (name : String) (record1 r2 : TreeRecord)
    (rest : List (String × TreeRecord)) (pidx : Nat) (st : DState)
    (pushes : List (Option Tree × Option Tree × Nat))
    (hl : alookup records2 name = some r2) (hh : record1.hash ≠ r2.hash)
    (hty : record1.type = .blob) :
    procRecords1 load1 load2 fuelE records2 ((name, record1) :: rest) pidx st
      pushes
      = procRecords1 load1 load2 fuelE records2 rest pidx
          (appendChild
            ⟨st.nodes ++ [⟨.modified, record1, some r2, some pidx, [], none⟩],
              st.potA, st.potR⟩
            pidx st.nodes.length) pushes := by
  simp [procRecords1, hl, hh, hty, alloc, appendChild]

theorem procRecords2_cons_skip (load1 load2 : Hash → Option Tree)
    (fuelE : Nat) (records1 : List (String × TreeRecord))
    (name : String) (record2 r1 : TreeRecord)
    (rest : List (String × TreeRecord)) (pidx : Nat) (st : DState)
    (hl : alookup records1 name = some r1) :
    procRecords2 load1 load2 fuelE records1 ((name, record2) :: rest) pidx st
      = procRecords2 load1 load2 fuelE records1 rest pidx st := by
  simp [procRecords2, hl]

theorem procRecords2_cons_pair (load1 load2 : Hash → Option Tree)
    (fuelE : Nat) (records1 : List (String × TreeRecord))
    (name : String) (record2 : TreeRecord)
    (rest : List (String × TreeRecord)) (pidx removedIdx : Nat) (st : DState)
    (hl : alookup records1 name = none)
    (hR : alookup st.potR record2.hash = some removedIdx) :
    procRecords2 load1 load2 fuelE records1 ((name, record2) :: rest) pidx st
      = procRecords2 load1 load2 fuelE records1 rest pidx
          (pairMove2 st record2 pidx removedIdx) := by
  simp [procRecords2, hl, hR, pairMove2]

theorem procRecords2_cons_added_blob (load1 load2 : Hash → Option Tree)
    (fuelE : Nat) (records1 : List (String × TreeRecord))
    (name : String) (record2 : TreeRecord)
    (rest : List (String × TreeRecord)) (pidx : Nat) (st : DState)
    (hl : alookup records1 name = none)
    (hR : alookup st.potR record2.hash = none)
    (hty : record2.type = .blob) :
    procRecords2 load1 load2 fuelE records1 ((name, record2) :: rest) pidx st
      = procRecords2 load1 load2 fuelE records1 rest pidx
          (appendChild
            ⟨st.nodes ++ [⟨.added, record2, none, some pidx, [], none⟩],
              aset st.potA record2.hash st.nodes.length, st.potR⟩
            pidx st.nodes.length) := by
  simp [procRecords2, hl, hR, hty, alloc]

/-- Records common to both trees with unchanged hashes are skipped by
the `records1` loop without touching the state. -/
theorem procRecords1_commons (load1 load2 : Hash → Option Tree)
    (fuelE : Nat) (records2 : List (String × TreeRecord)) :
    ∀ (l rest : List (String × TreeRecord)) (pidx : Nat) (st : DState)
      (pushes : List (Option Tree × Option Tree × Nat)),
      (∀ pr ∈ l, ∃ r2, alookup records2 pr.1 = some r2 ∧ pr.2.hash = r2.hash) →
      procRecords1 load1 load2 fuelE records2 (l ++ rest) pidx st pushes
        = procRecords1 load1 load2 fuelE records2 rest pidx st pushes
  | [], _, _, _, _, _ => rfl
  | (name, record1) :: l, rest, pidx, st, pushes, hc => by
      obtain ⟨r2, hl, hh⟩ := hc (name, record1) (List.mem_cons_self _ _)
      rw [List.cons_append,
        procRecords1_cons_skip load1 load2 fuelE records2 name record1 r2
          (l ++ rest) pidx st pushes hl hh]
      exact procRecords1_commons load1 load2 fuelE records2 l rest pidx st
        pushes (fun pr hpr => hc pr (List.mem_cons_of_mem _ hpr))

/-- Records whose name also occurs in the first tree are skipped by
the `records2` loop without touching the state. -/
theorem procRecords2_commons (load1 load2 : Hash → Option Tree)
    (fuelE : Nat) (records1 : List (String × TreeRecord)) :
    ∀ (l rest : List (String × TreeRecord)) (pidx : Nat) (st : DState),
      (∀ pr ∈ l, (alookup records1 pr.1).isSome = true) →
      procRecords2 load1 load2 fuelE records1 (l ++ rest) pidx st
        = procRecords2 load1 load2 fuelE records1 rest pidx st
  | [], _, _, _, _ => rfl
  | (name, record2) :: l, rest, pidx, st, hc => by
      obtain ⟨r1, hl⟩ := Option.isSome_iff_exists.mp
        (hc (name, record2) (List.mem_cons_self _ _))
      rw [List.cons_append,
        procRecords2_cons_skip load1 load2 fuelE records1 name record2 r1
          (l ++ rest) pidx st hl]
      exact procRecords2_commons load1 load2 fuelE records1 l rest pidx st
        (fun pr hpr => hc pr (List.mem_cons_of_mem _ hpr))

/-- Claim C3: move detection.  For two trees that differ only by
renaming one blob entry with content hash `H` from name `n1` to name
`n2` — every other entry of the first tree is present in the second
with an unchanged hash and every other entry of the second tree's name
occurs in the first — `diff_trees` returns a forest containing exactly
one `MovedTo` node (carrying the old record, at the old path) and
exactly one `MovedFrom` node (carrying the new record, at the new
path), cross-linked through their `moved_from` / `moved_to` partner
references, and containing zero `Added` and zero `Removed` nodes. -/
theorem diff_trees_move_detection
    (load1 load2 : Hash → Option Tree) (fuelE : Nat)
    (c1 c2 d1 d2 : List (String × TreeRecord)) (n1 n2 H : String)
    (R1 R2 : TreeRecord)
    (hR1 : R1 = TreeRecord.mk .blob H n1)
    (hR2 : R2 = TreeRecord.mk .blob H n2)
    (hc : ∀ pr ∈ c1 ++ c2, ∃ r2,
      alookup (d1 ++ (n2, R2) :: d2) pr.1 = some r2 ∧ pr.2.hash = r2.hash)
    (hd : ∀ pr ∈ d1 ++ d2,
      (alookup (c1 ++ (n1, R1) :: c2) pr.1).isSome = true)
    (hn1 : alookup (d1 ++ (n2, R2) :: d2) n1 = none)
    (hn2 : alookup (c1 ++ (n1, R1) :: c2) n2 = none) :
    ∃ st iMT iMF,
      diff_trees load1 load2 fuelE 2
        (some (Tree.mk (c1 ++ (n1, R1) :: c2)))
        (some (Tree.mk (d1 ++ (n2, R2) :: d2))) = .ok st ∧
      (rootForest st).filter
        (fun i => (dnGet st i).kind == DiffKind.movedTo) = [iMT] ∧
      (rootForest st).filter
        (fun i => (dnGet st i).kind == DiffKind.movedFrom) = [iMF] ∧
      dnGet st iMT = ⟨.movedTo, R1, none, some 0, [], some iMF⟩ ∧
      dnGet st iMF = ⟨.movedFrom, R2, none, some 0, [], some iMT⟩ ∧
      (rootForest st).filter
        (fun i => (dnGet st i).kind == DiffKind.added) = [] ∧
      (rootForest st).filter
        (fun i => (dnGet st i).kind == DiffKind.removed) = [] ∧
      (∀ r, ¬ addedAt st r) ∧ (∀ r, ¬ removedAt st r) := by
  subst hR1
  subst hR2
  refine ⟨⟨[⟨.modified, TreeRecord.mk .tree "" "", none, none, [3, 2], none⟩,
      ⟨.removed, TreeRecord.mk .blob H n1, none, some 0, [], none⟩,
      ⟨.movedFrom, TreeRecord.mk .blob H n2, none, some 0, [], some 3⟩,
      ⟨.movedTo, TreeRecord.mk .blob H n1, none, some 0, [], some 2⟩],
      [], []⟩, 3, 2, ?run, rfl, rfl, rfl, rfl, rfl, rfl, ?nadd, ?nrem⟩
  case run =>
    have hcl : ∀ pr ∈ c1, ∃ r2,
        alookup (d1 ++ (n2, TreeRecord.mk .blob H n2) :: d2) pr.1 = some r2 ∧
          pr.2.hash = r2.hash :=
      fun pr hpr => hc pr (List.mem_append_left _ hpr)
    have hcr : ∀ pr ∈ c2, ∃ r2,
        alookup (d1 ++ (n2, TreeRecord.mk .blob H n2) :: d2) pr.1 = some r2 ∧
          pr.2.hash = r2.hash :=
      fun pr hpr => hc pr (List.mem_append_right _ hpr)
    have hdl : ∀ pr ∈ d1,
        (alookup (c1 ++ (n1, TreeRecord.mk .blob H n1) :: c2) pr.1).isSome
          = true :=
      fun pr hpr => hd pr (List.mem_append_left _ hpr)
    have hdr : ∀ pr ∈ d2,
        (alookup (c1 ++ (n1, TreeRecord.mk .blob H n1) :: c2) pr.1).isSome
          = true :=
      fun pr hpr => hd pr (List.mem_append_right _ hpr)
    have h1 : procRecords1 load1 load2 fuelE
        (d1 ++ (n2, TreeRecord.mk .blob H n2) :: d2)
        (c1 ++ (n1, TreeRecord.mk .blob H n1) :: c2) 0
        ⟨[⟨.modified, TreeRecord.mk .tree "" "", none, none, [], none⟩], [], []⟩
        []
        = .ok (⟨[⟨.modified, TreeRecord.mk .tree "" "", none, none, [1], none⟩,
            ⟨.removed, TreeRecord.mk .blob H n1, none, some 0, [], none⟩],
            [], [(H, 1)]⟩, []) := by
      rw [procRecords1_commons load1 load2 fuelE _ c1 _ 0 _ [] hcl,
        procRecords1_cons_removed_blob load1 load2 fuelE
          (d1 ++ (n2, TreeRecord.mk .blob H n2) :: d2) n1
          (TreeRecord.mk .blob H n1) c2 0
          ⟨[⟨.modified, TreeRecord.mk .tree "" "", none, none, [], none⟩],
            [], []⟩ []
          hn1 rfl rfl]
      have hc2 := procRecords1_commons load1 load2 fuelE
        (d1 ++ (n2, TreeRecord.mk .blob H n2) :: d2) c2 [] 0
        ⟨[⟨.modified, TreeRecord.mk .tree "" "", none, none, [1], none⟩,
          ⟨.removed, TreeRecord.mk .blob H n1, none, some 0, [], none⟩],
          [], [(H, 1)]⟩ [] hcr
      rw [List.append_nil] at hc2
      exact hc2.trans rfl
    have hRlook : alookup
        ((⟨[⟨.modified, TreeRecord.mk .tree "" "", none, none, [1], none⟩,
          ⟨.removed, TreeRecord.mk .blob H n1, none, some 0, [], none⟩],
          [], [(H, 1)]⟩ : DState)).potR
        (TreeRecord.mk .blob H n2).hash = some 1 := by
      show alookup [(H, 1)] H = some 1
      rw [alookup_cons]
      simp
    have hpm : pairMove2
        ⟨[⟨.modified, TreeRecord.mk .tree "" "", none, none, [1], none⟩,
          ⟨.removed, TreeRecord.mk .blob H n1, none, some 0, [], none⟩],
          [], [(H, 1)]⟩ (TreeRecord.mk .blob H n2) 0 1
        = ⟨[⟨.modified, TreeRecord.mk .tree "" "", none, none, [3, 2], none⟩,
          ⟨.removed, TreeRecord.mk .blob H n1, none, some 0, [], none⟩,
          ⟨.movedFrom, TreeRecord.mk .blob H n2, none, some 0, [], some 3⟩,
          ⟨.movedTo, TreeRecord.mk .blob H n1, none, some 0, [], some 2⟩],
          [], []⟩ := by
      unfold pairMove2
      rw [show adel ([(H, 1)] : List (Hash × Nat))
        (TreeRecord.mk .blob H n2).hash = [] from by simp [adel]]
      rfl
    have h2 : procRecords2 load1 load2 fuelE
        (c1 ++ (n1, TreeRecord.mk .blob H n1) :: c2)
        (d1 ++ (n2, TreeRecord.mk .blob H n2) :: d2) 0
        ⟨[⟨.modified, TreeRecord.mk .tree "" "", none, none, [1], none⟩,
          ⟨.removed, TreeRecord.mk .blob H n1, none, some 0, [], none⟩],
          [], [(H, 1)]⟩
        = ⟨[⟨.modified, TreeRecord.mk .tree "" "", none, none, [3, 2], none⟩,
          ⟨.removed, TreeRecord.mk .blob H n1, none, some 0, [], none⟩,
          ⟨.movedFrom, TreeRecord.mk .blob H n2, none, some 0, [], some 3⟩,
          ⟨.movedTo, TreeRecord.mk .blob H n1, none, some 0, [], some 2⟩],
          [], []⟩ := by
      rw [procRecords2_commons load1 load2 fuelE _ d1 _ 0 _ hdl,
        procRecords2_cons_pair load1 load2 fuelE _ n2 _ d2 0 1 _ hn2 hRlook,
        hpm]
      have hd2 := procRecords2_commons load1 load2 fuelE
        (c1 ++ (n1, TreeRecord.mk .blob H n1) :: c2) d2 [] 0
        ⟨[⟨.modified, TreeRecord.mk .tree "" "", none, none, [3, 2], none⟩,
          ⟨.removed, TreeRecord.mk .blob H n1, none, some 0, [], none⟩,
          ⟨.movedFrom, TreeRecord.mk .blob H n2, none, some 0, [], some 3⟩,
          ⟨.movedTo, TreeRecord.mk .blob H n1, none, some 0, [], some 2⟩],
          [], []⟩ hdr
      rw [List.append_nil] at hd2
      exact hd2.trans rfl
    have hdn : diffNode load1 load2 fuelE
        (some (Tree.mk (c1 ++ (n1, TreeRecord.mk .blob H n1) :: c2)))
        (some (Tree.mk (d1 ++ (n2, TreeRecord.mk .blob H n2) :: d2))) 0
        ⟨[⟨.modified, TreeRecord.mk .tree "" "", none, none, [], none⟩], [], []⟩
        = .ok (⟨[⟨.modified, TreeRecord.mk .tree "" "", none, none, [3, 2],
              none⟩,
            ⟨.removed, TreeRecord.mk .blob H n1, none, some 0, [], none⟩,
            ⟨.movedFrom, TreeRecord.mk .blob H n2, none, some 0, [], some 3⟩,
            ⟨.movedTo, TreeRecord.mk .blob H n1, none, some 0, [], some 2⟩],
            [], []⟩, []) := by
      show ((match procRecords1 load1 load2 fuelE
          (d1 ++ (n2, TreeRecord.mk .blob H n2) :: d2)
          (c1 ++ (n1, TreeRecord.mk .blob H n1) :: c2) 0
          ⟨[⟨.modified, TreeRecord.mk .tree "" "", none, none, [], none⟩],
            [], []⟩ [] with
        | Except.error e => Except.error e
        | Except.ok (st1, pushes) =>
            Except.ok (procRecords2 load1 load2 fuelE
              (c1 ++ (n1, TreeRecord.mk .blob H n1) :: c2)
              (d1 ++ (n2, TreeRecord.mk .blob H n2) :: d2) 0 st1, pushes)) :
          Except Err (DState × List (Option Tree × Option Tree × Nat)))
        = .ok (⟨[⟨.modified, TreeRecord.mk .tree "" "", none, none, [3, 2],
              none⟩,
            ⟨.removed, TreeRecord.mk .blob H n1, none, some 0, [], none⟩,
            ⟨.movedFrom, TreeRecord.mk .blob H n2, none, some 0, [], some 3⟩,
            ⟨.movedTo, TreeRecord.mk .blob H n1, none, some 0, [], some 2⟩],
            [], []⟩, [])
      rw [h1]
      show Except.ok (procRecords2 load1 load2 fuelE
        (c1 ++ (n1, TreeRecord.mk .blob H n1) :: c2)
        (d1 ++ (n2, TreeRecord.mk .blob H n2) :: d2) 0
        ⟨[⟨.modified, TreeRecord.mk .tree "" "", none, none, [1], none⟩,
          ⟨.removed, TreeRecord.mk .blob H n1, none, some 0, [], none⟩],
          [], [(H, 1)]⟩, ([] : List (Option Tree × Option Tree × Nat)))
        = .ok (⟨[⟨.modified, TreeRecord.mk .tree "" "", none, none, [3, 2],
              none⟩,
            ⟨.removed, TreeRecord.mk .blob H n1, none, some 0, [], none⟩,
            ⟨.movedFrom, TreeRecord.mk .blob H n2, none, some 0, [], some 3⟩,
            ⟨.movedTo, TreeRecord.mk .blob H n1, none, some 0, [], some 2⟩],
            [], []⟩, [])
      rw [h2]
    show ((match diffNode load1 load2 fuelE
        (some (Tree.mk (c1 ++ (n1, TreeRecord.mk .blob H n1) :: c2)))
        (some (Tree.mk (d1 ++ (n2, TreeRecord.mk .blob H n2) :: d2))) 0
        ⟨[⟨.modified, TreeRecord.mk .tree "" "", none, none, [], none⟩],
          [], []⟩ with
      | Except.error e => Except.error e
      | Except.ok (st1, pushes) =>
          diffRun load1 load2 fuelE 1 (pushes.reverse ++ []) st1) :
        Except Err DState)
      = .ok ⟨[⟨.modified, TreeRecord.mk .tree "" "", none, none, [3, 2],
            none⟩,
          ⟨.removed, TreeRecord.mk .blob H n1, none, some 0, [], none⟩,
          ⟨.movedFrom, TreeRecord.mk .blob H n2, none, some 0, [], some 3⟩,
          ⟨.movedTo, TreeRecord.mk .blob H n1, none, some 0, [], some 2⟩],
          [], []⟩
    rw [hdn]
    rfl
  case nadd =>
    intro r hr
    obtain ⟨i, hi, hEq⟩ := hr
    have : i = 3 ∨ i = 2 := by simpa [rootForest, dnGet] using hi
    rcases this with h | h <;> subst h <;> simp [dnGet] at hEq
  case nrem =>
    intro r hr
    obtain ⟨i, hi, hEq⟩ := hr
    have : i = 3 ∨ i = 2 := by simpa [rootForest, dnGet] using hi
    rcases this with h | h <;> subst h <;> simp [dnGet] at hEq

/-- The move-detection theorem at a concrete instance: rename `b` to
`c` (content `H`) next to an unchanged sibling `x`. -/
theorem diff_trees_move_detection_witness :
    (∃ st iMT iMF,
      diff_trees (fun _ => none) (fun _ => none) 2 2
        (some (Tree.mk ([("x", TreeRecord.mk .blob "X" "x")] ++
          ("b", TreeRecord.mk .blob "H" "b") :: [])))
        (some (Tree.mk ([] ++
          ("c", TreeRecord.mk .blob "H" "c") ::
            [("x", TreeRecord.mk .blob "X" "x")]))) = .ok st ∧
      (rootForest st).filter
        (fun i => (dnGet st i).kind == DiffKind.movedTo) = [iMT] ∧
      (rootForest st).filter
        (fun i => (dnGet st i).kind == DiffKind.movedFrom) = [iMF] ∧
      dnGet st iMT = ⟨.movedTo, TreeRecord.mk .blob "H" "b", none, some 0, [],
        some iMF⟩ ∧
      dnGet st iMF = ⟨.movedFrom, TreeRecord.mk .blob "H" "c", none, some 0,
        [], some iMT⟩ ∧
      (rootForest st).filter
        (fun i => (dnGet st i).kind == DiffKind.added) = [] ∧
      (rootForest st).filter
        (fun i => (dnGet st i).kind == DiffKind.removed) = [] ∧
      (∀ r, ¬ addedAt st r) ∧ (∀ r, ¬ removedAt st r)) :=
  diff_trees_move_detection (fun _ => none) (fun _ => none) 2
    [("x", TreeRecord.mk .blob "X" "x")] [] []
    [("x", TreeRecord.mk .blob "X" "x")] "b" "c" "H" _ _ rfl rfl
    (by decide) (by decide) (by decide) (by decide)

/-! For trees whose records are all blobs, one pass of `diff_trees`
performs exactly one `records1` loop and one `records2` loop and never
recurses, loads, or errors.  `phase1Go` and `phase2Go` restate those
two loops (specialised to the blob-only branches actually taken) as
total state transformers; the bridge lemmas prove the loops equal to
them. -/

def phase1Go (records2 : List (String × TreeRecord)) :
    List (String × TreeRecord) → DState → DState
  | [], st => st
  | (name, record1) :: rest, st =>
      match alookup records2 name with
      | none =>
          phase1Go records2 rest
            (appendChild
              ⟨st.nodes ++ [⟨.removed, record1, none, some 0, [], none⟩],
                st.potA, aset st.potR record1.hash st.nodes.length⟩
              0 st.nodes.length)
      | some r2 =>
          if record1.hash = r2.hash then phase1Go records2 rest st
          else
            phase1Go records2 rest
              (appendChild
                ⟨st.nodes ++ [⟨.modified, record1, some r2, some 0, [], none⟩],
                  st.potA, st.potR⟩
                0 st.nodes.length)

def phase2Go (records1 : List (String × TreeRecord)) :
    List (String × TreeRecord) → DState → DState
  | [], st => st
  | (name, record2) :: rest, st =>
      match alookup records1 name with
      | some _ => phase2Go records1 rest st
      | none =>
          match alookup st.potR record2.hash with
          | some removedIdx =>
              phase2Go records1 rest (pairMove2 st record2 0 removedIdx)
          | none =>
              phase2Go records1 rest
                (appendChild
                  ⟨st.nodes ++ [⟨.added, record2, none, some 0, [], none⟩],
                    aset st.potA record2.hash st.nodes.length, st.potR⟩
                  0 st.nodes.length)

theorem procRecords1_flat (load1 load2 : Hash → Option Tree) (fuelE : Nat)
    (records2 : List (String × TreeRecord)) :
    ∀ (l : List (String × TreeRecord)) (st : DState)
      (pushes : List (Option Tree × Option Tree × Nat)),
      st.potA = [] → (∀ pr ∈ l, pr.2.type = .blob) →
      procRecords1 load1 load2 fuelE records2 l 0 st pushes
        = .ok (phase1Go records2 l st, pushes)
  | [], _, _, _, _ => rfl
  | (name, record1) :: l, st, pushes, hA, hb => by
      have hbl : record1.type = .blob :=
        hb (name, record1) (List.mem_cons_self _ _)
      have hbrest : ∀ pr ∈ l, pr.2.type = .blob :=
        fun pr hpr => hb pr (List.mem_cons_of_mem _ hpr)
      rcases h : alookup records2 name with _ | r2
      · have hAl : alookup st.potA record1.hash = none := by
          rw [hA]
          rfl
        simp only [phase1Go, h]
        rw [procRecords1_cons_removed_blob load1 load2 fuelE records2 name
          record1 l 0 st pushes h hAl hbl]
        exact procRecords1_flat load1 load2 fuelE records2 l _ pushes hA hbrest
      · by_cases hh : record1.hash = r2.hash
        · rw [procRecords1_cons_skip load1 load2 fuelE records2 name record1
            r2 l 0 st pushes h hh,
            procRecords1_flat load1 load2 fuelE records2 l st pushes hA hbrest]
          simp [phase1Go, h, hh]
        · simp only [phase1Go, h, if_neg hh]
          rw [procRecords1_cons_modified_blob load1 load2 fuelE records2 name
            record1 r2 l 0 st pushes h hh hbl]
          exact procRecords1_flat load1 load2 fuelE records2 l _ pushes hA
            hbrest

theorem procRecords2_flat (load1 load2 : Hash → Option Tree) (fuelE : Nat)
    (records1 : List (String × TreeRecord)) :
    ∀ (l : List (String × TreeRecord)) (st : DState),
      (∀ pr ∈ l, pr.2.type = .blob) →
      procRecords2 load1 load2 fuelE records1 l 0 st = phase2Go records1 l st
  | [], _, _ => rfl
  | (name, record2) :: l, st, hb => by
      have hbl : record2.type = .blob :=
        hb (name, record2) (List.mem_cons_self _ _)
      have hbrest : ∀ pr ∈ l, pr.2.type = .blob :=
        fun pr hpr => hb pr (List.mem_cons_of_mem _ hpr)
      rcases h : alookup records1 name with _ | r1
      · rcases hR : alookup st.potR record2.hash with _ | removedIdx
        · simp only [phase2Go, h, hR]
          rw [procRecords2_cons_added_blob load1 load2 fuelE records1 name
            record2 l 0 st h hR hbl]
          exact procRecords2_flat load1 load2 fuelE records1 l _ hbrest
        · simp only [phase2Go, h, hR]
          rw [procRecords2_cons_pair load1 load2 fuelE records1 name record2
            l 0 removedIdx st h hR]
          exact procRecords2_flat load1 load2 fuelE records1 l _ hbrest
      · rw [procRecords2_cons_skip load1 load2 fuelE records1 name record2 r1
          l 0 st h,
          procRecords2_flat load1 load2 fuelE records1 l st hbrest]
        simp [phase2Go, h]

theorem diff_trees_flat (load1 load2 : Hash → Option Tree)
    (fuelE fuel : Nat) (r1s r2s : List (String × TreeRecord))
    (hb1 : ∀ pr ∈ r1s, pr.2.type = .blob)
    (hb2 : ∀ pr ∈ r2s, pr.2.type = .blob) :
    diff_trees load1 load2 fuelE (fuel + 2) (some (Tree.mk r1s))
        (some (Tree.mk r2s))
      = .ok (phase2Go r1s r2s (phase1Go r2s r1s
          ⟨[⟨.modified, TreeRecord.mk .tree "" "", none, none, [], none⟩],
            [], []⟩)) := by
  have h1 := procRecords1_flat load1 load2 fuelE r2s r1s
    ⟨[⟨.modified, TreeRecord.mk .tree "" "", none, none, [], none⟩], [], []⟩
    [] rfl hb1
  have h2 := procRecords2_flat load1 load2 fuelE r1s r2s
    (phase1Go r2s r1s
      ⟨[⟨.modified, TreeRecord.mk .tree "" "", none, none, [], none⟩],
        [], []⟩) hb2
  have hdn : diffNode load1 load2 fuelE (some (Tree.mk r1s))
      (some (Tree.mk r2s)) 0
      ⟨[⟨.modified, TreeRecord.mk .tree "" "", none, none, [], none⟩], [], []⟩
      = .ok (phase2Go r1s r2s (phase1Go r2s r1s
          ⟨[⟨.modified, TreeRecord.mk .tree "" "", none, none, [], none⟩],
            [], []⟩), []) := by
    show ((match procRecords1 load1 load2 fuelE r2s r1s 0
        ⟨[⟨.modified, TreeRecord.mk .tree "" "", none, none, [], none⟩],
          [], []⟩ [] with
      | Except.error e => Except.error e
      | Except.ok (st1, pushes) =>
          Except.ok (procRecords2 load1 load2 fuelE r1s r2s 0 st1, pushes)) :
        Except Err (DState × List (Option Tree × Option Tree × Nat)))
      = .ok (phase2Go r1s r2s (phase1Go r2s r1s
          ⟨[⟨.modified, TreeRecord.mk .tree "" "", none, none, [], none⟩],
            [], []⟩), [])
    rw [h1]
    show Except.ok (procRecords2 load1 load2 fuelE r1s r2s 0
        (phase1Go r2s r1s
          ⟨[⟨.modified, TreeRecord.mk .tree "" "", none, none, [], none⟩],
            [], []⟩), ([] : List (Option Tree × Option Tree × Nat)))
      = .ok (phase2Go r1s r2s (phase1Go r2s r1s
          ⟨[⟨.modified, TreeRecord.mk .tree "" "", none, none, [], none⟩],
            [], []⟩), [])
    rw [h2]
  show ((match diffNode load1 load2 fuelE (some (Tree.mk r1s))
      (some (Tree.mk r2s)) 0
      ⟨[⟨.modified, TreeRecord.mk .tree "" "", none, none, [], none⟩],
        [], []⟩ with
    | Except.error e => Except.error e
    | Except.ok (st1, pushes) =>
        diffRun load1 load2 fuelE (fuel + 1) (pushes.reverse ++ []) st1) :
      Except Err DState)
    = .ok (phase2Go r1s r2s (phase1Go r2s r1s
        ⟨[⟨.modified, TreeRecord.mk .tree "" "", none, none, [], none⟩],
          [], []⟩))
  rw [hdn]
  rfl

/-! List access and dictionary lemmas used to evaluate the arena
operations on symbolic states. -/

theorem dgetD_append_lt {α : Type} :
    ∀ (l1 l2 : List α) (i : Nat) (d : α), i < l1.length →
      (l1 ++ l2).getD i d = l1.getD i d
  | [], _, i, _, h => absurd h (Nat.not_lt_zero i)
  | _ :: _, _, 0, _, _ => rfl
  | _ :: l1, l2, i+1, d, h =>
      dgetD_append_lt l1 l2 i d (Nat.lt_of_succ_lt_succ h)

theorem dgetD_append_len {α : Type} :
    ∀ (l1 : List α) (x : α) (l2 : List α) (d : α),
      (l1 ++ x :: l2).getD l1.length d = x
  | [], _, _, _ => rfl
  | _ :: l1, x, l2, d => dgetD_append_len l1 x l2 d

theorem dgetD_append_len1 {α : Type} :
    ∀ (l1 : List α) (x z : α) (l2 : List α) (d : α),
      (l1 ++ x :: z :: l2).getD (l1.length + 1) d = z
  | [], _, _, _, _ => rfl
  | _ :: l1, x, z, l2, d => dgetD_append_len1 l1 x z l2 d

theorem dset_append_lt {α : Type} :
    ∀ (l1 l2 : List α) (i : Nat) (x : α), i < l1.length →
      (l1 ++ l2).set i x = l1.set i x ++ l2
  | [], _, i, _, h => absurd h (Nat.not_lt_zero i)
  | _ :: _, _, 0, _, _ => rfl
  | y :: l1, l2, i+1, x, h =>
      congrArg (List.cons y) (dset_append_lt l1 l2 i x (Nat.lt_of_succ_lt_succ h))

theorem dset_append_len {α : Type} :
    ∀ (l1 : List α) (x : α) (l2 : List α) (y : α),
      (l1 ++ x :: l2).set l1.length y = l1 ++ y :: l2
  | [], _, _, _ => rfl
  | z :: l1, x, l2, y => congrArg (List.cons z) (dset_append_len l1 x l2 y)

theorem dset_append_len1 {α : Type} :
    ∀ (l1 : List α) (x z : α) (l2 : List α) (y : α),
      (l1 ++ x :: z :: l2).set (l1.length + 1) y = l1 ++ x :: y :: l2
  | [], _, _, _, _ => rfl
  | w :: l1, x, z, l2, y =>
      congrArg (List.cons w) (dset_append_len1 l1 x z l2 y)

theorem dgetD_set_self {α : Type} :
    ∀ (l : List α) (i : Nat) (x d : α), i < l.length →
      (l.set i x).getD i d = x
  | [], i, _, _, h => absurd h (Nat.not_lt_zero i)
  | _ :: _, 0, _, _, _ => rfl
  | _ :: l, i+1, x, d, h => dgetD_set_self l i x d (Nat.lt_of_succ_lt_succ h)

theorem dgetD_set_ne {α : Type} :
    ∀ (l : List α) (i j : Nat) (x d : α), i ≠ j →
      (l.set i x).getD j d = l.getD j d
  | [], _, _, _, _, _ => rfl
  | _ :: _, 0, 0, _, _, h => absurd rfl h
  | _ :: _, 0, _+1, _, _, _ => rfl
  | _ :: _, _+1, 0, _, _, _ => rfl
  | _ :: l, i+1, j+1, x, d, h =>
      dgetD_set_ne l i j x d (fun e => h (by rw [e]))

theorem alookup_aset_map {α : Type} (k : String) (v : α) :
    ∀ (l : List (String × α)),
      alookup (l.map (fun p => if p.1 == k then (k, v) else p)) k
        = if l.any (fun p => p.1 == k) then some v else none
  | [] => rfl
  | p :: l => by
      have ih := alookup_aset_map k v l
      by_cases hp : p.1 = k
      · simp [alookup_cons, hp]
      · have hfalse : (p.1 == k) = false := by simp [hp]
        rw [List.map_cons, alookup_cons,
          if_neg (show ¬((p.1 == k) = true) by simp [hp]), if_neg hp,
          List.any_cons, hfalse, Bool.false_or]
        exact ih

theorem alookup_aset_self {α : Type} (l : List (String × α)) (k : String)
    (v : α) : alookup (aset l k v) k = some v := by
  rw [aset]
  by_cases h : l.any (fun p => p.1 == k)
  · rw [if_pos h, alookup_aset_map, if_pos h]
  · have hmem : amem l k = false := by
      rw [amem]
      cases hb : l.any (fun p => p.1 == k) with
      | false => rfl
      | true => exact absurd hb h
    rw [if_neg h, alookup_append, alookup_none_of_amem_false hmem]
    rw [alookup_cons, if_pos rfl]

theorem alookup_map_aset_ne {α : Type} (k k' : String) (v : α)
    (h : k' ≠ k) :
    ∀ (l : List (String × α)),
      alookup (l.map (fun p => if p.1 == k then (k, v) else p)) k'
        = alookup l k'
  | [] => rfl
  | p :: l => by
      have ih := alookup_map_aset_ne k k' v h l
      by_cases hp : p.1 = k
      · simp only [List.map_cons, alookup_cons, hp, beq_self_eq_true,
          if_true]
        rw [if_neg (fun e => h (by simpa using e.symm)),
          if_neg (fun e => h (by rw [← e])), ih]
      · simp [alookup_cons, hp] at ih ⊢
        by_cases hpk : p.1 = k'
        · simp [hpk]
        · simp [hpk, ih]

theorem alookup_aset_ne {α : Type} (l : List (String × α)) (k k' : String)
    (v : α) (h : k' ≠ k) : alookup (aset l k v) k' = alookup l k' := by
  rw [aset]
  by_cases hany : l.any (fun p => p.1 == k)
  · rw [if_pos hany, alookup_map_aset_ne k k' v h]
  · rw [if_neg hany, alookup_append]
    rcases hl : alookup l k' with _ | w
    · rw [alookup_cons, if_neg (fun e => h e.symm)]
      rfl
    · rfl

theorem dgetD_set_append_len {α : Type} (l1 : List α) (p : Nat) (a x : α)
    (l2 : List α) (d : α) :
    ((l1.set p a) ++ x :: l2).getD l1.length d = x := by
  have h := dgetD_append_len (l1.set p a) x l2 d
  rwa [List.length_set] at h

theorem dgetD_set_append_len1 {α : Type} (l1 : List α) (p : Nat) (a x z : α)
    (l2 : List α) (d : α) :
    ((l1.set p a) ++ x :: z :: l2).getD (l1.length + 1) d = z := by
  have h := dgetD_append_len1 (l1.set p a) x z l2 d
  rwa [List.length_set] at h

theorem dset_set_append_len1 {α : Type} (l1 : List α) (p : Nat) (a x z : α)
    (l2 : List α) (y : α) :
    ((l1.set p a) ++ x :: z :: l2).set (l1.length + 1) y
      = (l1.set p a) ++ x :: y :: l2 := by
  have h := dset_append_len1 (l1.set p a) x z l2 y
  rwa [List.length_set] at h

theorem dgetD_set0_append {α : Type} (l1 : List α) (a : α) (l2 : List α)
    (d : α) (h0 : 0 < l1.length) :
    ((l1.set 0 a) ++ l2).getD 0 d = a := by
  rw [dgetD_append_lt (l1.set 0 a) l2 0 d (by rw [List.length_set]; exact h0),
    dgetD_set_self l1 0 a d h0]

theorem dset0_set0_append {α : Type} (l1 : List α) (a b : α) (l2 : List α)
    (h0 : 0 < l1.length) :
    ((l1.set 0 a) ++ l2).set 0 b = (l1.set 0 b) ++ l2 := by
  rw [dset_append_lt (l1.set 0 a) l2 0 b (by rw [List.length_set]; exact h0),
    List.set_set]

/-- The shared shape of the removal, modification, and addition steps:
append the new node to the arena and register it as a child of the
sentinel. -/
theorem appendStep_closed (ns : List DNode) (d : DNode)
    (pa pr : List (Hash × Nat)) (h0 : 0 < ns.length) :
    appendChild ⟨ns ++ [d], pa, pr⟩ 0 ns.length
      = ⟨ns.set 0 { ns.getD 0 default with children :=
          (ns.getD 0 default).children ++ [ns.length] } ++ [d], pa, pr⟩ := by
  show (⟨(ns ++ [d]).set 0 ({ (ns ++ [d]).getD 0 default with children :=
      ((ns ++ [d]).getD 0 default).children ++ [ns.length] }), pa, pr⟩ :
    DState) = _
  rw [dgetD_append_lt ns [d] 0 default h0, dset_append_lt ns [d] 0 _ h0]

/-- `_promote_parents_to_modified` stops immediately when the starting
node's parent is the parentless sentinel. -/
theorem promoteGo_stop (fuel : Nat) (st : DState)
    (hp0 : (dnGet st 0).parent = none) : promoteGo (fuel + 1) st (some 0) = st := by
  rw [show promoteGo (fuel + 1) st (some 0)
      = (match (dnGet st 0).parent with
        | none => st
        | some p =>
            if (dnGet st 0).kind = .added ∨ (dnGet st 0).kind = .removed then
              let pr := alloc st ⟨.modified, (dnGet st 0).record, none,
                (dnGet st 0).parent, (dnGet st 0).children, none⟩
              let st2 := replaceChild pr.1 p 0 pr.2
              let st3 := (dnGet st 0).children.foldl
                (fun acc ch => setParent acc ch (some pr.2)) st2
              promoteGo fuel st3 (dnGet st 0).parent
            else promoteGo fuel st (dnGet st 0).parent) from rfl, hp0]

/-- The full effect of a successful move pairing at the root: the
`MovedFrom` and `MovedTo` nodes are appended, the stale `Removed` node
is unlinked from the sentinel's child list (replaced by the `MovedTo`),
the `MovedFrom` is appended as a child, and the consumed hash leaves
`potentially_removed`.  Promotion is a no-op because the sentinel has
no parent. -/
theorem pairMove2_closed (st : DState) (r : TreeRecord) (i : Nat)
    (hi : i < st.nodes.length) (h0 : 0 < st.nodes.length)
    (hpar : (dnGet st i).parent = some 0)
    (hch : (dnGet st i).children = [])
    (hpar0 : (dnGet st 0).parent = none) :
    pairMove2 st r 0 i
      = ⟨st.nodes.set 0
          { st.nodes.getD 0 default with
            children := (st.nodes.getD 0 default).children.map
                (fun c => if c = i then st.nodes.length + 1 else c) ++
              [st.nodes.length] } ++
          [⟨.movedFrom, r, none, some 0, [], some (st.nodes.length + 1)⟩,
            ⟨.movedTo, (st.nodes.getD i default).record, none, some 0, [],
              some st.nodes.length⟩],
        st.potA, adel st.potR r.hash⟩ := by
  simp only [dnGet] at hpar hch hpar0
  simp only [pairMove2, alloc, setPartner, setNode, replaceChild,
    setChildren, appendChild, promoteParents, dnGet,
    List.append_assoc, List.singleton_append, List.cons_append,
    List.nil_append,
    List.length_append, List.length_cons, List.length_nil, List.length_set,
    Nat.zero_add,
    dgetD_append_lt, dgetD_append_len, dgetD_append_len1,
    dset_append_len, dset_append_len1,
    dgetD_set_append_len, dgetD_set_append_len1, dset_set_append_len1,
    dgetD_set0_append, dset0_set0_append,
    hpar, hch, hpar0, hi, h0,
    promoteGo_stop, List.foldl_nil, dset_append_lt, dgetD_set_self,
    List.set_set]

/-! Observations of the two step shapes: how the sentinel's child
list, the nodes reachable by index, and the pending dictionaries
change. -/

theorem astep_rootForest (st : DState) (d : DNode)
    (pa pr : List (Hash × Nat)) (h0 : 0 < st.nodes.length) :
    rootForest (appendChild ⟨st.nodes ++ [d], pa, pr⟩ 0 st.nodes.length)
      = rootForest st ++ [st.nodes.length] := by
  rw [appendStep_closed st.nodes d pa pr h0]
  show ((st.nodes.set 0 _ ++ [d]).getD 0 default).children = _
  rw [dgetD_set0_append st.nodes _ [d] default h0]
  rfl

theorem astep_dnGet_lt (st : DState) (d : DNode)
    (pa pr : List (Hash × Nat)) (j : Nat) (h0 : 0 < st.nodes.length)
    (hj : j < st.nodes.length) (hj0 : j ≠ 0) :
    dnGet (appendChild ⟨st.nodes ++ [d], pa, pr⟩ 0 st.nodes.length) j
      = dnGet st j := by
  rw [appendStep_closed st.nodes d pa pr h0]
  show (st.nodes.set 0 _ ++ [d]).getD j default = st.nodes.getD j default
  rw [dgetD_append_lt _ [d] j default (by rw [List.length_set]; exact hj),
    dgetD_set_ne st.nodes 0 j _ default (fun e => hj0 e.symm)]

theorem astep_dnGet_new (st : DState) (d : DNode)
    (pa pr : List (Hash × Nat)) (h0 : 0 < st.nodes.length) :
    dnGet (appendChild ⟨st.nodes ++ [d], pa, pr⟩ 0 st.nodes.length)
      st.nodes.length = d := by
  rw [appendStep_closed st.nodes d pa pr h0]
  show (st.nodes.set 0 _ ++ d :: []).getD st.nodes.length default = d
  rw [dgetD_set_append_len st.nodes 0 _ d [] default]

theorem astep_parent0 (st : DState) (d : DNode)
    (pa pr : List (Hash × Nat)) (h0 : 0 < st.nodes.length) :
    (dnGet (appendChild ⟨st.nodes ++ [d], pa, pr⟩ 0 st.nodes.length)
      0).parent = (dnGet st 0).parent := by
  rw [appendStep_closed st.nodes d pa pr h0]
  show ((st.nodes.set 0 _ ++ [d]).getD 0 default).parent = _
  rw [dgetD_set0_append st.nodes _ [d] default h0]
  rfl

theorem astep_len (st : DState) (d : DNode)
    (pa pr : List (Hash × Nat)) :
    (appendChild ⟨st.nodes ++ [d], pa, pr⟩ 0 st.nodes.length).nodes.length
      = st.nodes.length + 1 := by
  show ((st.nodes ++ [d]).set 0 _).length = _
  rw [List.length_set, List.length_append, List.length_cons,
    List.length_nil, Nat.zero_add]

theorem astep_potA (st : DState) (d : DNode)
    (pa pr : List (Hash × Nat)) :
    (appendChild ⟨st.nodes ++ [d], pa, pr⟩ 0 st.nodes.length).potA = pa :=
  rfl

theorem astep_potR (st : DState) (d : DNode)
    (pa pr : List (Hash × Nat)) :
    (appendChild ⟨st.nodes ++ [d], pa, pr⟩ 0 st.nodes.length).potR = pr :=
  rfl

theorem pair_rootForest (st : DState) (r : TreeRecord) (i : Nat)
    (hi : i < st.nodes.length) (h0 : 0 < st.nodes.length)
    (hpar : (dnGet st i).parent = some 0)
    (hch : (dnGet st i).children = [])
    (hpar0 : (dnGet st 0).parent = none) :
    rootForest (pairMove2 st r 0 i)
      = (rootForest st).map
          (fun c => if c = i then st.nodes.length + 1 else c) ++
        [st.nodes.length] := by
  rw [pairMove2_closed st r i hi h0 hpar hch hpar0]
  show ((st.nodes.set 0 _ ++ _).getD 0 default).children = _
  rw [dgetD_set0_append st.nodes _ _ default h0]
  rfl

theorem pair_dnGet_lt (st : DState) (r : TreeRecord) (i j : Nat)
    (hi : i < st.nodes.length) (h0 : 0 < st.nodes.length)
    (hpar : (dnGet st i).parent = some 0)
    (hch : (dnGet st i).children = [])
    (hpar0 : (dnGet st 0).parent = none)
    (hj : j < st.nodes.length) (hj0 : j ≠ 0) :
    dnGet (pairMove2 st r 0 i) j = dnGet st j := by
  rw [pairMove2_closed st r i hi h0 hpar hch hpar0]
  show (st.nodes.set 0 _ ++ _).getD j default = st.nodes.getD j default
  rw [dgetD_append_lt _ _ j default (by rw [List.length_set]; exact hj),
    dgetD_set_ne st.nodes 0 j _ default (fun e => hj0 e.symm)]

theorem pair_dnGet_mf (st : DState) (r : TreeRecord) (i : Nat)
    (hi : i < st.nodes.length) (h0 : 0 < st.nodes.length)
    (hpar : (dnGet st i).parent = some 0)
    (hch : (dnGet st i).children = [])
    (hpar0 : (dnGet st 0).parent = none) :
    dnGet (pairMove2 st r 0 i) st.nodes.length
      = ⟨.movedFrom, r, none, some 0, [], some (st.nodes.length + 1)⟩ := by
  rw [pairMove2_closed st r i hi h0 hpar hch hpar0]
  show (st.nodes.set 0 _ ++ _ :: [_]).getD st.nodes.length default = _
  rw [dgetD_set_append_len st.nodes 0 _ _ _ default]

theorem pair_dnGet_mt (st : DState) (r : TreeRecord) (i : Nat)
    (hi : i < st.nodes.length) (h0 : 0 < st.nodes.length)
    (hpar : (dnGet st i).parent = some 0)
    (hch : (dnGet st i).children = [])
    (hpar0 : (dnGet st 0).parent = none) :
    dnGet (pairMove2 st r 0 i) (st.nodes.length + 1)
      = ⟨.movedTo, (dnGet st i).record, none, some 0, [],
          some st.nodes.length⟩ := by
  rw [pairMove2_closed st r i hi h0 hpar hch hpar0]
  show (st.nodes.set 0 _ ++ _ :: _ :: []).getD (st.nodes.length + 1) default
    = _
  rw [dgetD_set_append_len1 st.nodes 0 _ _ _ [] default]
  rfl

theorem pair_parent0 (st : DState) (r : TreeRecord) (i : Nat)
    (hi : i < st.nodes.length) (h0 : 0 < st.nodes.length)
    (hpar : (dnGet st i).parent = some 0)
    (hch : (dnGet st i).children = [])
    (hpar0 : (dnGet st 0).parent = none) :
    (dnGet (pairMove2 st r 0 i) 0).parent = (dnGet st 0).parent := by
  rw [pairMove2_closed st r i hi h0 hpar hch hpar0]
  show ((st.nodes.set 0 _ ++ _).getD 0 default).parent = _
  rw [dgetD_set0_append st.nodes _ _ default h0]
  rfl

theorem pair_len (st : DState) (r : TreeRecord) (i : Nat)
    (hi : i < st.nodes.length) (h0 : 0 < st.nodes.length)
    (hpar : (dnGet st i).parent = some 0)
    (hch : (dnGet st i).children = [])
    (hpar0 : (dnGet st 0).parent = none) :
    (pairMove2 st r 0 i).nodes.length = st.nodes.length + 2 := by
  rw [pairMove2_closed st r i hi h0 hpar hch hpar0]
  show (st.nodes.set 0 _ ++ _ :: _ :: []).length = _
  rw [List.length_append, List.length_set, List.length_cons,
    List.length_cons, List.length_nil, Nat.zero_add]

theorem pair_potA (st : DState) (r : TreeRecord) (i : Nat)
    (hi : i < st.nodes.length) (h0 : 0 < st.nodes.length)
    (hpar : (dnGet st i).parent = some 0)
    (hch : (dnGet st i).children = [])
    (hpar0 : (dnGet st 0).parent = none) :
    (pairMove2 st r 0 i).potA = st.potA := by
  rw [pairMove2_closed st r i hi h0 hpar hch hpar0]

theorem pair_potR (st : DState) (r : TreeRecord) (i : Nat)
    (hi : i < st.nodes.length) (h0 : 0 < st.nodes.length)
    (hpar : (dnGet st i).parent = some 0)
    (hch : (dnGet st i).children = [])
    (hpar0 : (dnGet st 0).parent = none) :
    (pairMove2 st r 0 i).potR = adel st.potR r.hash := by
  rw [pairMove2_closed st r i hi h0 hpar hch hpar0]

theorem alookup_adel_self {α : Type} (l : List (String × α)) (k : String) :
    alookup (adel l k) k = none := by
  rw [adel]
  induction l with
  | nil => rfl
  | cons p t ih =>
      rw [List.filter_cons]
      by_cases hp : p.1 = k
      · rw [if_neg (by simp [hp])]
        exact ih
      · rw [if_pos (by simpa using hp), alookup_cons, if_neg hp]
        exact ih

theorem alookup_adel_ne {α : Type} (l : List (String × α)) (k k' : String)
    (h : k' ≠ k) : alookup (adel l k) k' = alookup l k' := by
  rw [adel]
  induction l with
  | nil => rfl
  | cons p t ih =>
      rw [List.filter_cons]
      by_cases hp : p.1 = k
      · rw [if_neg (by simp [hp]), alookup_cons,
          if_neg (fun e => h (by rw [← e]; exact hp)), ih]
      · rw [if_pos (by simpa using hp), alookup_cons, alookup_cons, ih]

/-! Specifications of the four diff outcomes for flat trees, written
symmetrically in the two record lists. -/

/-- The node shapes produced at the root for flat inputs. -/
def RemN (r : TreeRecord) : DNode := ⟨.removed, r, none, some 0, [], none⟩

def AddN (r : TreeRecord) : DNode := ⟨.added, r, none, some 0, [], none⟩

def ModN (r1 r2 : TreeRecord) : DNode := ⟨.modified, r1, some r2, some 0, [], none⟩

/-- `r` is an entry of `a` whose name does not occur in `b`. -/
def onlySpec (a b : List (String × TreeRecord)) (r : TreeRecord) : Prop :=
  ∃ n, (n, r) ∈ a ∧ alookup b n = none

/-- No name-only entry of `a` (relative to `b`) carries content hash `h`. -/
def freshFor (a b : List (String × TreeRecord)) (h : Hash) : Prop :=
  ∀ pr ∈ a, alookup b pr.1 = none → pr.2.hash ≠ h

/-- A common name whose two records differ in hash. -/
def modSpec (a b : List (String × TreeRecord)) (r1 r2 : TreeRecord) : Prop :=
  ∃ n, alookup a n = some r1 ∧ alookup b n = some r2 ∧ r1.hash ≠ r2.hash

theorem nodup_map_split {α β : Type} (f : α → β) (l1 l2 : List α) (x : α)
    (h : ((l1 ++ x :: l2).map f).Nodup) : ∀ y ∈ l1, f y ≠ f x := by
  intro y hy e
  rw [List.map_append, List.map_cons] at h
  rcases List.nodup_append.mp h with ⟨_, _, hdisj⟩
  exact hdisj (List.mem_map_of_mem f hy)
    (by rw [e]; exact List.mem_cons_self _ _)

theorem mem_of_alookup_some {α : Type} :
    ∀ (l : List (String × α)) (n : String) (r : α),
      alookup l n = some r → (n, r) ∈ l
  | [], _, _, h => absurd h (by rw [alookup_nil]; simp)
  | (a, b) :: t, n, r, h => by
      rw [alookup_cons] at h
      by_cases hp : a = n
      · rw [if_pos hp] at h
        injection h with hbr
        subst hp
        subst hbr
        exact List.mem_cons_self _ _
      · rw [if_neg hp] at h
        exact List.mem_cons_of_mem _ (mem_of_alookup_some t n r h)

theorem alookup_some_of_mem {α : Type} (l : List (String × α))
    (Hn : (l.map Prod.fst).Nodup) (n : String) (r : α)
    (hmem : (n, r) ∈ l) : alookup l n = some r := by
  induction l with
  | nil => exact absurd hmem (by simp)
  | cons p t ih =>
      rw [List.map_cons, List.nodup_cons] at Hn
      rcases List.mem_cons.mp hmem with he | ht
      · rw [← he, alookup_cons, if_pos rfl]
      · rw [alookup_cons]
        by_cases hp : p.1 = n
        · refine absurd ?_ Hn.1
          rw [hp]
          exact List.mem_map_of_mem Prod.fst ht
        · rw [if_neg hp]
          exact ih Hn.2 ht

/-- Invariant of the `records1` loop over flat inputs, after the
entries of `done1` have been processed against `records2 = r2s`. -/
structure Inv1 (r2s done1 : List (String × TreeRecord)) (st : DState) :
    Prop where
  par0 : (dnGet st 0).parent = none
  pos : 0 < st.nodes.length
  bound : ∀ i ∈ rootForest st, i ≠ 0 ∧ i < st.nodes.length
  rem : ∀ r, (∃ i ∈ rootForest st, dnGet st i = RemN r) ↔
    ∃ n, (n, r) ∈ done1 ∧ alookup r2s n = none
  kinds : ∀ i ∈ rootForest st,
    (dnGet st i).kind = .removed ∨ (dnGet st i).kind = .modified
  md : ∀ r1 r2, (∃ i ∈ rootForest st, dnGet st i = ModN r1 r2) ↔
    ∃ n, (n, r1) ∈ done1 ∧ alookup r2s n = some r2 ∧ r1.hash ≠ r2.hash
  potRsome : ∀ h i, alookup st.potR h = some i →
    ∃ n r, (n, r) ∈ done1 ∧ alookup r2s n = none ∧ r.hash = h ∧
      i ∈ rootForest st ∧ dnGet st i = RemN r
  potRnone : ∀ h, alookup st.potR h = none →
    ∀ n r, (n, r) ∈ done1 → alookup r2s n = none → r.hash ≠ h
  uniq : ∀ i ∈ rootForest st, ∀ j ∈ rootForest st, ∀ r r',
    dnGet st i = RemN r → dnGet st j = RemN r' → r.hash = r'.hash → i = j

theorem Inv1_removed (r2s done1 : List (String × TreeRecord)) (st : DState)
    (name : String) (record1 : TreeRecord)
    (h : alookup r2s name = none)
    (hfresh : ∀ pr ∈ done1, pr.2.hash ≠ record1.hash)
    (hinv : Inv1 r2s done1 st) :
    Inv1 r2s (done1 ++ [(name, record1)])
      (appendChild ⟨st.nodes ++ [⟨.removed, record1, none, some 0, [], none⟩],
        st.potA, aset st.potR record1.hash st.nodes.length⟩ 0
        st.nodes.length) := by
  have h0 := hinv.pos
  have hF := astep_rootForest st ⟨.removed, record1, none, some 0, [], none⟩
    st.potA (aset st.potR record1.hash st.nodes.length) h0
  have hG := fun j hj hj0 => astep_dnGet_lt st
    ⟨.removed, record1, none, some 0, [], none⟩
    st.potA (aset st.potR record1.hash st.nodes.length) j h0 hj hj0
  have hN := astep_dnGet_new st ⟨.removed, record1, none, some 0, [], none⟩
    st.potA (aset st.potR record1.hash st.nodes.length) h0
  have hP0 := astep_parent0 st ⟨.removed, record1, none, some 0, [], none⟩
    st.potA (aset st.potR record1.hash st.nodes.length) h0
  have hLen := astep_len st ⟨.removed, record1, none, some 0, [], none⟩
    st.potA (aset st.potR record1.hash st.nodes.length)
  refine ⟨?_, ?_, ?_, ?_, ?_, ?_, ?_, ?_, ?_⟩
  · rw [hP0]
    exact hinv.par0
  · rw [hLen]
    exact Nat.succ_pos _
  · intro i hiC
    rw [hF] at hiC
    rcases List.mem_append.mp hiC with hiOld | hiNew
    · obtain ⟨hi0, hiL⟩ := hinv.bound i hiOld
      exact ⟨hi0, by rw [hLen]; exact Nat.lt_succ_of_lt hiL⟩
    · have hi := List.mem_singleton.mp hiNew
      subst hi
      exact ⟨Nat.pos_iff_ne_zero.mp h0, by rw [hLen]; exact Nat.lt_succ_self _⟩
  · intro r
    constructor
    · rintro ⟨i, hiC, hEq⟩
      rw [hF] at hiC
      rcases List.mem_append.mp hiC with hiOld | hiNew
      · obtain ⟨hi0, hiL⟩ := hinv.bound i hiOld
        rw [hG i hiL hi0] at hEq
        obtain ⟨n, hmem, hnone⟩ := (hinv.rem r).mp ⟨i, hiOld, hEq⟩
        exact ⟨n, List.mem_append_left _ hmem, hnone⟩
      · have hi := List.mem_singleton.mp hiNew
        subst hi
        rw [hN] at hEq
        have hr : record1 = r := by simpa [RemN] using hEq
        subst hr
        exact ⟨name, List.mem_append_right _ (List.mem_singleton.mpr rfl), h⟩
    · rintro ⟨n, hmem, hnone⟩
      rcases List.mem_append.mp hmem with hOld | hNew
      · obtain ⟨i, hiC, hEq⟩ := (hinv.rem r).mpr ⟨n, hOld, hnone⟩
        obtain ⟨hi0, hiL⟩ := hinv.bound i hiC
        exact ⟨i, by rw [hF]; exact List.mem_append_left _ hiC,
          by rw [hG i hiL hi0]; exact hEq⟩
      · have hr : r = record1 := congrArg Prod.snd (List.mem_singleton.mp hNew)
        refine ⟨st.nodes.length,
          by rw [hF]; exact List.mem_append_right _ (List.mem_singleton.mpr rfl),
          ?_⟩
        rw [hN, hr]
        rfl
  · intro i hiC
    rw [hF] at hiC
    rcases List.mem_append.mp hiC with hiOld | hiNew
    · obtain ⟨hi0, hiL⟩ := hinv.bound i hiOld
      rw [hG i hiL hi0]
      exact hinv.kinds i hiOld
    · have hi := List.mem_singleton.mp hiNew
      subst hi
      rw [hN]
      left
      rfl
  · intro r1 r2
    constructor
    · rintro ⟨i, hiC, hEq⟩
      rw [hF] at hiC
      rcases List.mem_append.mp hiC with hiOld | hiNew
      · obtain ⟨hi0, hiL⟩ := hinv.bound i hiOld
        rw [hG i hiL hi0] at hEq
        obtain ⟨n, hmem, hsome, hne⟩ := (hinv.md r1 r2).mp ⟨i, hiOld, hEq⟩
        exact ⟨n, List.mem_append_left _ hmem, hsome, hne⟩
      · have hi := List.mem_singleton.mp hiNew
        subst hi
        rw [hN] at hEq
        exact absurd hEq (by simp [ModN])
    · rintro ⟨n, hmem, hsome, hne⟩
      rcases List.mem_append.mp hmem with hOld | hNew
      · obtain ⟨i, hiC, hEq⟩ := (hinv.md r1 r2).mpr ⟨n, hOld, hsome, hne⟩
        obtain ⟨hi0, hiL⟩ := hinv.bound i hiC
        exact ⟨i, by rw [hF]; exact List.mem_append_left _ hiC,
          by rw [hG i hiL hi0]; exact hEq⟩
      · have hn : n = name := congrArg Prod.fst (List.mem_singleton.mp hNew)
        rw [hn, h] at hsome
        exact absurd hsome (by simp)
  · intro hh i hlook
    have hlook' : alookup (aset st.potR record1.hash st.nodes.length) hh
        = some i := hlook
    by_cases hcase : hh = record1.hash
    · subst hcase
      rw [alookup_aset_self] at hlook'
      injection hlook' with hLi
      subst hLi
      refine ⟨name, record1,
        List.mem_append_right _ (List.mem_singleton.mpr rfl), h, rfl,
        by rw [hF]; exact List.mem_append_right _ (List.mem_singleton.mpr rfl),
        by rw [hN]; rfl⟩
    · rw [alookup_aset_ne st.potR record1.hash hh _ hcase] at hlook'
      obtain ⟨n, r, hmem, hnone, hhash, hiC, hEq⟩ := hinv.potRsome hh i hlook'
      obtain ⟨hi0, hiL⟩ := hinv.bound i hiC
      exact ⟨n, r, List.mem_append_left _ hmem, hnone, hhash,
        by rw [hF]; exact List.mem_append_left _ hiC,
        by rw [hG i hiL hi0]; exact hEq⟩
  · intro hh hlook n r hmem hnone
    have hlook' : alookup (aset st.potR record1.hash st.nodes.length) hh
        = none := hlook
    have hcase : hh ≠ record1.hash := by
      intro e
      subst e
      rw [alookup_aset_self] at hlook'
      exact absurd hlook' (by simp)
    rw [alookup_aset_ne st.potR record1.hash hh _ hcase] at hlook'
    rcases List.mem_append.mp hmem with hOld | hNew
    · exact hinv.potRnone hh hlook' n r hOld hnone
    · have hr : r = record1 := congrArg Prod.snd (List.mem_singleton.mp hNew)
      rw [hr]
      exact fun e => hcase e.symm
  · intro i hiC j hjC r r' hEqi hEqj hhash
    rw [hF] at hiC hjC
    rcases List.mem_append.mp hiC with hiOld | hiNew <;>
      rcases List.mem_append.mp hjC with hjOld | hjNew
    · obtain ⟨hi0, hiL⟩ := hinv.bound i hiOld
      obtain ⟨hj0, hjL⟩ := hinv.bound j hjOld
      rw [hG i hiL hi0] at hEqi
      rw [hG j hjL hj0] at hEqj
      exact hinv.uniq i hiOld j hjOld r r' hEqi hEqj hhash
    · obtain ⟨hi0, hiL⟩ := hinv.bound i hiOld
      rw [hG i hiL hi0] at hEqi
      have hj := List.mem_singleton.mp hjNew
      subst hj
      rw [hN] at hEqj
      have hr' : record1 = r' := by simpa [RemN] using hEqj
      obtain ⟨n, hmem, _⟩ := (hinv.rem r).mp ⟨i, hiOld, hEqi⟩
      exact absurd (hhash.trans (congrArg TreeRecord.hash hr').symm)
        (hfresh (n, r) hmem)
    · obtain ⟨hj0, hjL⟩ := hinv.bound j hjOld
      rw [hG j hjL hj0] at hEqj
      have hi := List.mem_singleton.mp hiNew
      subst hi
      rw [hN] at hEqi
      have hr : record1 = r := by simpa [RemN] using hEqi
      obtain ⟨n, hmem, _⟩ := (hinv.rem r').mp ⟨j, hjOld, hEqj⟩
      exact absurd (hhash.symm.trans (congrArg TreeRecord.hash hr).symm)
        (hfresh (n, r') hmem)
    · have hi := List.mem_singleton.mp hiNew
      have hj := List.mem_singleton.mp hjNew
      rw [hi, hj]

theorem Inv1_modified (r2s done1 : List (String × TreeRecord)) (st : DState)
    (name : String) (record1 rec2 : TreeRecord)
    (h : alookup r2s name = some rec2)
    (hh : record1.hash ≠ rec2.hash)
    (hinv : Inv1 r2s done1 st) :
    Inv1 r2s (done1 ++ [(name, record1)])
      (appendChild
        ⟨st.nodes ++ [⟨.modified, record1, some rec2, some 0, [], none⟩],
          st.potA, st.potR⟩ 0 st.nodes.length) := by
  have h0 := hinv.pos
  have hF := astep_rootForest st
    ⟨.modified, record1, some rec2, some 0, [], none⟩ st.potA st.potR h0
  have hG := fun j hj hj0 => astep_dnGet_lt st
    ⟨.modified, record1, some rec2, some 0, [], none⟩ st.potA st.potR j h0
    hj hj0
  have hN := astep_dnGet_new st
    ⟨.modified, record1, some rec2, some 0, [], none⟩ st.potA st.potR h0
  have hP0 := astep_parent0 st
    ⟨.modified, record1, some rec2, some 0, [], none⟩ st.potA st.potR h0
  have hLen := astep_len st
    ⟨.modified, record1, some rec2, some 0, [], none⟩ st.potA st.potR
  refine ⟨?_, ?_, ?_, ?_, ?_, ?_, ?_, ?_, ?_⟩
  · rw [hP0]
    exact hinv.par0
  · rw [hLen]
    exact Nat.succ_pos _
  · intro i hiC
    rw [hF] at hiC
    rcases List.mem_append.mp hiC with hiOld | hiNew
    · obtain ⟨hi0, hiL⟩ := hinv.bound i hiOld
      exact ⟨hi0, by rw [hLen]; exact Nat.lt_succ_of_lt hiL⟩
    · have hi := List.mem_singleton.mp hiNew
      subst hi
      exact ⟨Nat.pos_iff_ne_zero.mp h0, by rw [hLen]; exact Nat.lt_succ_self _⟩
  · intro r
    constructor
    · rintro ⟨i, hiC, hEq⟩
      rw [hF] at hiC
      rcases List.mem_append.mp hiC with hiOld | hiNew
      · obtain ⟨hi0, hiL⟩ := hinv.bound i hiOld
        rw [hG i hiL hi0] at hEq
        obtain ⟨n, hmem, hnone⟩ := (hinv.rem r).mp ⟨i, hiOld, hEq⟩
        exact ⟨n, List.mem_append_left _ hmem, hnone⟩
      · have hi := List.mem_singleton.mp hiNew
        subst hi
        rw [hN] at hEq
        exact absurd hEq (by simp [RemN])
    · rintro ⟨n, hmem, hnone⟩
      rcases List.mem_append.mp hmem with hOld | hNew
      · obtain ⟨i, hiC, hEq⟩ := (hinv.rem r).mpr ⟨n, hOld, hnone⟩
        obtain ⟨hi0, hiL⟩ := hinv.bound i hiC
        exact ⟨i, by rw [hF]; exact List.mem_append_left _ hiC,
          by rw [hG i hiL hi0]; exact hEq⟩
      · have hn : n = name := congrArg Prod.fst (List.mem_singleton.mp hNew)
        rw [hn, h] at hnone
        exact absurd hnone (by simp)
  · intro i hiC
    rw [hF] at hiC
    rcases List.mem_append.mp hiC with hiOld | hiNew
    · obtain ⟨hi0, hiL⟩ := hinv.bound i hiOld
      rw [hG i hiL hi0]
      exact hinv.kinds i hiOld
    · have hi := List.mem_singleton.mp hiNew
      subst hi
      rw [hN]
      right
      rfl
  · intro r1 r2
    constructor
    · rintro ⟨i, hiC, hEq⟩
      rw [hF] at hiC
      rcases List.mem_append.mp hiC with hiOld | hiNew
      · obtain ⟨hi0, hiL⟩ := hinv.bound i hiOld
        rw [hG i hiL hi0] at hEq
        obtain ⟨n, hmem, hsome, hne⟩ := (hinv.md r1 r2).mp ⟨i, hiOld, hEq⟩
        exact ⟨n, List.mem_append_left _ hmem, hsome, hne⟩
      · have hi := List.mem_singleton.mp hiNew
        subst hi
        rw [hN] at hEq
        obtain ⟨hr1, hr2⟩ : record1 = r1 ∧ rec2 = r2 := by
          simpa [ModN] using hEq
        subst hr1
        subst hr2
        exact ⟨name, List.mem_append_right _ (List.mem_singleton.mpr rfl),
          h, hh⟩
    · rintro ⟨n, hmem, hsome, hne⟩
      rcases List.mem_append.mp hmem with hOld | hNew
      · obtain ⟨i, hiC, hEq⟩ := (hinv.md r1 r2).mpr ⟨n, hOld, hsome, hne⟩
        obtain ⟨hi0, hiL⟩ := hinv.bound i hiC
        exact ⟨i, by rw [hF]; exact List.mem_append_left _ hiC,
          by rw [hG i hiL hi0]; exact hEq⟩
      · have hpair := List.mem_singleton.mp hNew
        have hn : n = name := congrArg Prod.fst hpair
        have hr1 : r1 = record1 := congrArg Prod.snd hpair
        rw [hn, h] at hsome
        injection hsome with hr2
        refine ⟨st.nodes.length,
          by rw [hF]; exact List.mem_append_right _ (List.mem_singleton.mpr rfl),
          ?_⟩
        rw [hN, hr1, hr2]
        rfl
  · intro hh2 i hlook
    have hlook' : alookup st.potR hh2 = some i := hlook
    obtain ⟨n, r, hmem, hnone, hhash, hiC, hEq⟩ := hinv.potRsome hh2 i hlook'
    obtain ⟨hi0, hiL⟩ := hinv.bound i hiC
    exact ⟨n, r, List.mem_append_left _ hmem, hnone, hhash,
      by rw [hF]; exact List.mem_append_left _ hiC,
      by rw [hG i hiL hi0]; exact hEq⟩
  · intro hh2 hlook n r hmem hnone
    have hlook' : alookup st.potR hh2 = none := hlook
    rcases List.mem_append.mp hmem with hOld | hNew
    · exact hinv.potRnone hh2 hlook' n r hOld hnone
    · have hn : n = name := congrArg Prod.fst (List.mem_singleton.mp hNew)
      rw [hn, h] at hnone
      exact absurd hnone (by simp)
  · intro i hiC j hjC r r' hEqi hEqj hhash
    rw [hF] at hiC hjC
    rcases List.mem_append.mp hiC with hiOld | hiNew <;>
      rcases List.mem_append.mp hjC with hjOld | hjNew
    · obtain ⟨hi0, hiL⟩ := hinv.bound i hiOld
      obtain ⟨hj0, hjL⟩ := hinv.bound j hjOld
      rw [hG i hiL hi0] at hEqi
      rw [hG j hjL hj0] at hEqj
      exact hinv.uniq i hiOld j hjOld r r' hEqi hEqj hhash
    · have hj := List.mem_singleton.mp hjNew
      subst hj
      rw [hN] at hEqj
      exact absurd hEqj (by simp [RemN])
    · have hi := List.mem_singleton.mp hiNew
      subst hi
      rw [hN] at hEqi
      exact absurd hEqi (by simp [RemN])
    · have hi := List.mem_singleton.mp hiNew
      have hj := List.mem_singleton.mp hjNew
      rw [hi, hj]

theorem Inv1_skip (r2s done1 : List (String × TreeRecord)) (st : DState)
    (name : String) (record1 rec2 : TreeRecord)
    (h : alookup r2s name = some rec2)
    (hh : record1.hash = rec2.hash)
    (hinv : Inv1 r2s done1 st) :
    Inv1 r2s (done1 ++ [(name, record1)]) st := by
  refine ⟨hinv.par0, hinv.pos, hinv.bound, ?_, hinv.kinds, ?_, ?_, ?_,
    hinv.uniq⟩
  · intro r
    rw [hinv.rem r]
    constructor
    · rintro ⟨n, hmem, hnone⟩
      exact ⟨n, List.mem_append_left _ hmem, hnone⟩
    · rintro ⟨n, hmem, hnone⟩
      rcases List.mem_append.mp hmem with hOld | hNew
      · exact ⟨n, hOld, hnone⟩
      · have hn : n = name := congrArg Prod.fst (List.mem_singleton.mp hNew)
        rw [hn, h] at hnone
        exact absurd hnone (by simp)
  · intro r1 r2
    rw [hinv.md r1 r2]
    constructor
    · rintro ⟨n, hmem, hsome, hne⟩
      exact ⟨n, List.mem_append_left _ hmem, hsome, hne⟩
    · rintro ⟨n, hmem, hsome, hne⟩
      rcases List.mem_append.mp hmem with hOld | hNew
      · exact ⟨n, hOld, hsome, hne⟩
      · have hpair := List.mem_singleton.mp hNew
        have hn : n = name := congrArg Prod.fst hpair
        have hr1 : r1 = record1 := congrArg Prod.snd hpair
        rw [hn, h] at hsome
        injection hsome with hr2
        rw [hr1, ← hr2] at hne
        exact absurd hh hne
  · intro hh2 i hlook
    obtain ⟨n, r, hmem, hnone, hhash, hiC, hEq⟩ := hinv.potRsome hh2 i hlook
    exact ⟨n, r, List.mem_append_left _ hmem, hnone, hhash, hiC, hEq⟩
  · intro hh2 hlook n r hmem hnone
    rcases List.mem_append.mp hmem with hOld | hNew
    · exact hinv.potRnone hh2 hlook n r hOld hnone
    · have hn : n = name := congrArg Prod.fst (List.mem_singleton.mp hNew)
      rw [hn, h] at hnone
      exact absurd hnone (by simp)

theorem phase1_inv (r2s r1s : List (String × TreeRecord))
    (Hh1 : (r1s.map (fun pr => pr.2.hash)).Nodup) :
    ∀ (todo1 done1 : List (String × TreeRecord)) (st : DState),
      r1s = done1 ++ todo1 → Inv1 r2s done1 st →
      Inv1 r2s r1s (phase1Go r2s todo1 st)
  | [], done1, st, hsplit, hinv => by
      rw [List.append_nil] at hsplit
      subst hsplit
      exact hinv
  | (name, record1) :: todo1, done1, st, hsplit, hinv => by
      have hsplit' : r1s = (done1 ++ [(name, record1)]) ++ todo1 := by
        rw [hsplit, List.append_cons]
      cases h : alookup r2s name with
      | none =>
          have hfresh : ∀ pr ∈ done1, pr.2.hash ≠ record1.hash :=
            nodup_map_split (fun pr => pr.2.hash) done1 todo1
              (name, record1) (by rw [← hsplit]; exact Hh1)
          simp only [phase1Go, h]
          exact phase1_inv r2s r1s Hh1 todo1 (done1 ++ [(name, record1)]) _
            hsplit' (Inv1_removed r2s done1 st name record1 h hfresh hinv)
      | some rec2 =>
          by_cases hh : record1.hash = rec2.hash
          · simp only [phase1Go, h]
            rw [if_pos hh]
            exact phase1_inv r2s r1s Hh1 todo1 (done1 ++ [(name, record1)]) st
              hsplit' (Inv1_skip r2s done1 st name record1 rec2 h hh hinv)
          · simp only [phase1Go, h]
            rw [if_neg hh]
            exact phase1_inv r2s r1s Hh1 todo1 (done1 ++ [(name, record1)]) _
              hsplit' (Inv1_modified r2s done1 st name record1 rec2 h hh hinv)

theorem Inv1_init (r2s : List (String × TreeRecord)) :
    Inv1 r2s []
      ⟨[⟨.modified, TreeRecord.mk .tree "" "", none, none, [], none⟩],
        [], []⟩ := by
  refine ⟨rfl, Nat.one_pos, ?_, ?_, ?_, ?_, ?_, ?_, ?_⟩
  · intro i hiC
    exact absurd hiC (by simp [rootForest, dnGet])
  · intro r
    constructor
    · rintro ⟨i, hiC, _⟩
      exact absurd hiC (by simp [rootForest, dnGet])
    · rintro ⟨n, hmem, _⟩
      exact absurd hmem (by simp)
  · intro i hiC
    exact absurd hiC (by simp [rootForest, dnGet])
  · intro r1 r2
    constructor
    · rintro ⟨i, hiC, _⟩
      exact absurd hiC (by simp [rootForest, dnGet])
    · rintro ⟨n, hmem, _⟩
      exact absurd hmem (by simp)
  · intro h i hlook
    exact absurd hlook (by simp [alookup])
  · intro h _ n r hmem _
    exact absurd hmem (by simp)
  · intro i hiC
    exact absurd hiC (by simp [rootForest, dnGet])

/-- Invariant of the `records2` loop over flat inputs after processing
`done` (a prefix of `records2 = r2s`), starting from the final state of
the `records1` loop. -/
structure Inv2 (r1s r2s done : List (String × TreeRecord)) (st : DState) :
    Prop where
  par0 : (dnGet st 0).parent = none
  pos : 0 < st.nodes.length
  bound : ∀ i ∈ rootForest st, i ≠ 0 ∧ i < st.nodes.length
  rem : ∀ r, (∃ i ∈ rootForest st, dnGet st i = RemN r) ↔
    (onlySpec r1s r2s r ∧
      ∀ pr ∈ done, alookup r1s pr.1 = none → pr.2.hash ≠ r.hash)
  add : ∀ r, (∃ i ∈ rootForest st, dnGet st i = AddN r) ↔
    ((∃ n, (n, r) ∈ done ∧ alookup r1s n = none) ∧
      freshFor r1s r2s r.hash)
  md : ∀ r1 r2, (∃ i ∈ rootForest st, dnGet st i = ModN r1 r2) ↔
    (∃ n, (n, r1) ∈ r1s ∧ alookup r2s n = some r2 ∧ r1.hash ≠ r2.hash)
  mv : ∀ r1 r2, movedPairAt st r1 r2 ↔
    (onlySpec r1s r2s r1 ∧
      (∃ n, (n, r2) ∈ done ∧ alookup r1s n = none) ∧ r1.hash = r2.hash)
  potRsome : ∀ h i, alookup st.potR h = some i →
    ∃ n r, (n, r) ∈ r1s ∧ alookup r2s n = none ∧ r.hash = h ∧
      i ∈ rootForest st ∧ dnGet st i = RemN r
  potRnone : ∀ h, alookup st.potR h = none →
    ∀ n r, (n, r) ∈ r1s → alookup r2s n = none → r.hash = h →
      ∃ pr ∈ done, alookup r1s pr.1 = none ∧ pr.2.hash = h
  uniq : ∀ i ∈ rootForest st, ∀ j ∈ rootForest st, ∀ r r',
    dnGet st i = RemN r → dnGet st j = RemN r' → r.hash = r'.hash → i = j

theorem Inv2_skip (r1s r2s done : List (String × TreeRecord)) (st : DState)
    (name : String) (rec2 r1x : TreeRecord)
    (hl : alookup r1s name = some r1x)
    (hinv : Inv2 r1s r2s done st) :
    Inv2 r1s r2s (done ++ [(name, rec2)]) st := by
  refine ⟨hinv.par0, hinv.pos, hinv.bound, ?_, ?_, hinv.md, ?_,
    hinv.potRsome, ?_, hinv.uniq⟩
  · intro r
    rw [hinv.rem r]
    constructor
    · rintro ⟨hOnly, hCond⟩
      refine ⟨hOnly, ?_⟩
      intro pr hpr hprnone
      rcases List.mem_append.mp hpr with hOld | hNew
      · exact hCond pr hOld hprnone
      · rw [List.mem_singleton.mp hNew] at hprnone
        rw [hl] at hprnone
        exact absurd hprnone (by simp)
    · rintro ⟨hOnly, hCond⟩
      exact ⟨hOnly, fun pr hpr => hCond pr (List.mem_append_left _ hpr)⟩
  · intro r
    rw [hinv.add r]
    constructor
    · rintro ⟨⟨n, hmem, hnone⟩, hfresh⟩
      exact ⟨⟨n, List.mem_append_left _ hmem, hnone⟩, hfresh⟩
    · rintro ⟨⟨n, hmem, hnone⟩, hfresh⟩
      rcases List.mem_append.mp hmem with hOld | hNew
      · exact ⟨⟨n, hOld, hnone⟩, hfresh⟩
      · have hn : n = name := congrArg Prod.fst (List.mem_singleton.mp hNew)
        rw [hn, hl] at hnone
        exact absurd hnone (by simp)
  · intro r1 r2
    rw [hinv.mv r1 r2]
    constructor
    · rintro ⟨hOnly, ⟨n, hmem, hnone⟩, hhash⟩
      exact ⟨hOnly, ⟨n, List.mem_append_left _ hmem, hnone⟩, hhash⟩
    · rintro ⟨hOnly, ⟨n, hmem, hnone⟩, hhash⟩
      rcases List.mem_append.mp hmem with hOld | hNew
      · exact ⟨hOnly, ⟨n, hOld, hnone⟩, hhash⟩
      · have hn : n = name := congrArg Prod.fst (List.mem_singleton.mp hNew)
        rw [hn, hl] at hnone
        exact absurd hnone (by simp)
  · intro h hlook n r hmem hnone hhash
    obtain ⟨pr, hpr, hprnone, hprh⟩ :=
      hinv.potRnone h hlook n r hmem hnone hhash
    exact ⟨pr, List.mem_append_left _ hpr, hprnone, hprh⟩

theorem Inv2_added (r1s r2s done : List (String × TreeRecord)) (st : DState)
    (name : String) (rec2 : TreeRecord)
    (hl : alookup r1s name = none)
    (hR : alookup st.potR rec2.hash = none)
    (hfresh2 : ∀ pr ∈ done, pr.2.hash ≠ rec2.hash)
    (hinv : Inv2 r1s r2s done st) :
    Inv2 r1s r2s (done ++ [(name, rec2)])
      (appendChild ⟨st.nodes ++ [⟨.added, rec2, none, some 0, [], none⟩],
        aset st.potA rec2.hash st.nodes.length, st.potR⟩ 0
        st.nodes.length) := by
  have h0 := hinv.pos
  have hF := astep_rootForest st ⟨.added, rec2, none, some 0, [], none⟩
    (aset st.potA rec2.hash st.nodes.length) st.potR h0
  have hG := fun j hj hj0 => astep_dnGet_lt st
    ⟨.added, rec2, none, some 0, [], none⟩
    (aset st.potA rec2.hash st.nodes.length) st.potR j h0 hj hj0
  have hN := astep_dnGet_new st ⟨.added, rec2, none, some 0, [], none⟩
    (aset st.potA rec2.hash st.nodes.length) st.potR h0
  have hP0 := astep_parent0 st ⟨.added, rec2, none, some 0, [], none⟩
    (aset st.potA rec2.hash st.nodes.length) st.potR h0
  have hLen := astep_len st ⟨.added, rec2, none, some 0, [], none⟩
    (aset st.potA rec2.hash st.nodes.length) st.potR
  have hfreshSpec : freshFor r1s r2s rec2.hash := by
    intro pr hpr hprnone e
    obtain ⟨q, hq, _, hqh⟩ :=
      hinv.potRnone rec2.hash hR pr.1 pr.2 hpr hprnone e
    exact hfresh2 q hq hqh
  refine ⟨?_, ?_, ?_, ?_, ?_, ?_, ?_, ?_, ?_, ?_⟩
  · rw [hP0]
    exact hinv.par0
  · rw [hLen]
    exact Nat.succ_pos _
  · intro i hiC
    rw [hF] at hiC
    rcases List.mem_append.mp hiC with hiOld | hiNew
    · obtain ⟨hi0, hiL⟩ := hinv.bound i hiOld
      exact ⟨hi0, by rw [hLen]; exact Nat.lt_succ_of_lt hiL⟩
    · have hi := List.mem_singleton.mp hiNew
      subst hi
      exact ⟨Nat.pos_iff_ne_zero.mp h0, by rw [hLen]; exact Nat.lt_succ_self _⟩
  · intro r
    constructor
    · rintro ⟨i, hiC, hEq⟩
      rw [hF] at hiC
      rcases List.mem_append.mp hiC with hiOld | hiNew
      · obtain ⟨hi0, hiL⟩ := hinv.bound i hiOld
        rw [hG i hiL hi0] at hEq
        obtain ⟨hOnly, hCond⟩ := (hinv.rem r).mp ⟨i, hiOld, hEq⟩
        refine ⟨hOnly, ?_⟩
        intro pr hpr hprnone
        rcases List.mem_append.mp hpr with hOld | hNew
        · exact hCond pr hOld hprnone
        · rw [List.mem_singleton.mp hNew]
          intro e
          obtain ⟨n', hmem', hnone'⟩ := hOnly
          exact hfreshSpec (n', r) hmem' hnone' e.symm
      · have hi := List.mem_singleton.mp hiNew
        subst hi
        rw [hN] at hEq
        exact absurd hEq (by simp [RemN])
    · rintro ⟨hOnly, hCond⟩
      obtain ⟨i, hiC, hEq⟩ := (hinv.rem r).mpr
        ⟨hOnly, fun pr hpr => hCond pr (List.mem_append_left _ hpr)⟩
      obtain ⟨hi0, hiL⟩ := hinv.bound i hiC
      exact ⟨i, by rw [hF]; exact List.mem_append_left _ hiC,
        by rw [hG i hiL hi0]; exact hEq⟩
  · intro r
    constructor
    · rintro ⟨i, hiC, hEq⟩
      rw [hF] at hiC
      rcases List.mem_append.mp hiC with hiOld | hiNew
      · obtain ⟨hi0, hiL⟩ := hinv.bound i hiOld
        rw [hG i hiL hi0] at hEq
        obtain ⟨⟨n, hmem, hnone⟩, hfresh⟩ := (hinv.add r).mp ⟨i, hiOld, hEq⟩
        exact ⟨⟨n, List.mem_append_left _ hmem, hnone⟩, hfresh⟩
      · have hi := List.mem_singleton.mp hiNew
        subst hi
        rw [hN] at hEq
        have hr : rec2 = r := by simpa [AddN] using hEq
        subst hr
        exact ⟨⟨name, List.mem_append_right _ (List.mem_singleton.mpr rfl),
          hl⟩, hfreshSpec⟩
    · rintro ⟨⟨n, hmem, hnone⟩, hfresh⟩
      rcases List.mem_append.mp hmem with hOld | hNew
      · obtain ⟨i, hiC, hEq⟩ := (hinv.add r).mpr ⟨⟨n, hOld, hnone⟩, hfresh⟩
        obtain ⟨hi0, hiL⟩ := hinv.bound i hiC
        exact ⟨i, by rw [hF]; exact List.mem_append_left _ hiC,
          by rw [hG i hiL hi0]; exact hEq⟩
      · have hr : r = rec2 := congrArg Prod.snd (List.mem_singleton.mp hNew)
        refine ⟨st.nodes.length,
          by rw [hF]; exact List.mem_append_right _ (List.mem_singleton.mpr rfl),
          ?_⟩
        rw [hN, hr]
        rfl
  · intro r1 r2
    constructor
    · rintro ⟨i, hiC, hEq⟩
      rw [hF] at hiC
      rcases List.mem_append.mp hiC with hiOld | hiNew
      · obtain ⟨hi0, hiL⟩ := hinv.bound i hiOld
        rw [hG i hiL hi0] at hEq
        exact (hinv.md r1 r2).mp ⟨i, hiOld, hEq⟩
      · have hi := List.mem_singleton.mp hiNew
        subst hi
        rw [hN] at hEq
        exact absurd hEq (by simp [ModN, AddN])
    · intro hRHS
      obtain ⟨i, hiC, hEq⟩ := (hinv.md r1 r2).mpr hRHS
      obtain ⟨hi0, hiL⟩ := hinv.bound i hiC
      exact ⟨i, by rw [hF]; exact List.mem_append_left _ hiC,
        by rw [hG i hiL hi0]; exact hEq⟩
  · intro r1 r2
    constructor
    · rintro ⟨i, hiC, j, hjC, hEqi, hEqj⟩
      rw [hF] at hiC hjC
      rcases List.mem_append.mp hiC with hiOld | hiNew
      · rcases List.mem_append.mp hjC with hjOld | hjNew
        · obtain ⟨hi0, hiL⟩ := hinv.bound i hiOld
          obtain ⟨hj0, hjL⟩ := hinv.bound j hjOld
          rw [hG i hiL hi0] at hEqi
          rw [hG j hjL hj0] at hEqj
          obtain ⟨hOnly, ⟨n, hmem, hnone⟩, hhash⟩ :=
            (hinv.mv r1 r2).mp ⟨i, hiOld, j, hjOld, hEqi, hEqj⟩
          exact ⟨hOnly, ⟨n, List.mem_append_left _ hmem, hnone⟩, hhash⟩
        · have hj := List.mem_singleton.mp hjNew
          subst hj
          rw [hN] at hEqj
          exact absurd hEqj (by simp)
      · have hi := List.mem_singleton.mp hiNew
        subst hi
        rw [hN] at hEqi
        exact absurd hEqi (by simp)
    · rintro ⟨hOnly, ⟨n, hmem, hnone⟩, hhash⟩
      rcases List.mem_append.mp hmem with hOld | hNew
      · obtain ⟨i, hiC, j, hjC, hEqi, hEqj⟩ :=
          (hinv.mv r1 r2).mpr ⟨hOnly, ⟨n, hOld, hnone⟩, hhash⟩
        obtain ⟨hi0, hiL⟩ := hinv.bound i hiC
        obtain ⟨hj0, hjL⟩ := hinv.bound j hjC
        exact ⟨i, by rw [hF]; exact List.mem_append_left _ hiC,
          j, by rw [hF]; exact List.mem_append_left _ hjC,
          by rw [hG i hiL hi0]; exact hEqi,
          by rw [hG j hjL hj0]; exact hEqj⟩
      · have hr : r2 = rec2 := congrArg Prod.snd (List.mem_singleton.mp hNew)
        obtain ⟨n1, hmem1, hnone1⟩ := hOnly
        exact absurd (by rw [← hr]; exact hhash)
          (fun e => hfreshSpec (n1, r1) hmem1 hnone1 e)
  · intro h i hlook
    have hlook' : alookup st.potR h = some i := hlook
    obtain ⟨n, r, hmem, hnone, hhash, hiC, hEq⟩ := hinv.potRsome h i hlook'
    obtain ⟨hi0, hiL⟩ := hinv.bound i hiC
    exact ⟨n, r, hmem, hnone, hhash,
      by rw [hF]; exact List.mem_append_left _ hiC,
      by rw [hG i hiL hi0]; exact hEq⟩
  · intro h hlook n r hmem hnone hhash
    have hlook' : alookup st.potR h = none := hlook
    obtain ⟨pr, hpr, hprnone, hprh⟩ :=
      hinv.potRnone h hlook' n r hmem hnone hhash
    exact ⟨pr, List.mem_append_left _ hpr, hprnone, hprh⟩
  · intro i hiC j hjC r r' hEqi hEqj hhash
    rw [hF] at hiC hjC
    rcases List.mem_append.mp hiC with hiOld | hiNew
    · rcases List.mem_append.mp hjC with hjOld | hjNew
      · obtain ⟨hi0, hiL⟩ := hinv.bound i hiOld
        obtain ⟨hj0, hjL⟩ := hinv.bound j hjOld
        rw [hG i hiL hi0] at hEqi
        rw [hG j hjL hj0] at hEqj
        exact hinv.uniq i hiOld j hjOld r r' hEqi hEqj hhash
      · have hj := List.mem_singleton.mp hjNew
        subst hj
        rw [hN] at hEqj
        exact absurd hEqj (by simp [RemN])
    · have hi := List.mem_singleton.mp hiNew
      subst hi
      rw [hN] at hEqi
      exact absurd hEqi (by simp [RemN])

theorem Inv2_pair (r1s r2s done : List (String × TreeRecord)) (st : DState)
    (name : String) (rec2 : TreeRecord) (i0 : Nat)
    (hl : alookup r1s name = none)
    (hR : alookup st.potR rec2.hash = some i0)
    (hfresh2 : ∀ pr ∈ done, pr.2.hash ≠ rec2.hash)
    (Hinj1 : ∀ p ∈ r1s, ∀ q ∈ r1s, p.2.hash = q.2.hash → p = q)
    (hinv : Inv2 r1s r2s done st) :
    Inv2 r1s r2s (done ++ [(name, rec2)]) (pairMove2 st rec2 0 i0) := by
  obtain ⟨n0, r0, hmem0, hnone0, hhash0, hi0C, hEq0⟩ :=
    hinv.potRsome rec2.hash i0 hR
  obtain ⟨hi00, hi0L⟩ := hinv.bound i0 hi0C
  have h0 := hinv.pos
  have hpar : (dnGet st i0).parent = some 0 := by rw [hEq0]; rfl
  have hch : (dnGet st i0).children = [] := by rw [hEq0]; rfl
  have hF := pair_rootForest st rec2 i0 hi0L h0 hpar hch hinv.par0
  have hG := fun j hj hj0 =>
    pair_dnGet_lt st rec2 i0 j hi0L h0 hpar hch hinv.par0 hj hj0
  have hMF := pair_dnGet_mf st rec2 i0 hi0L h0 hpar hch hinv.par0
  have hMT := pair_dnGet_mt st rec2 i0 hi0L h0 hpar hch hinv.par0
  rw [hEq0] at hMT
  simp only [RemN] at hMT
  have hP0 := pair_parent0 st rec2 i0 hi0L h0 hpar hch hinv.par0
  have hLen := pair_len st rec2 i0 hi0L h0 hpar hch hinv.par0
  have hPR := pair_potR st rec2 i0 hi0L h0 hpar hch hinv.par0
  have hMemFwd : ∀ j ∈ rootForest (pairMove2 st rec2 0 i0),
      j = st.nodes.length ∨ j = st.nodes.length + 1 ∨
        (j ∈ rootForest st ∧ j ≠ i0) := by
    intro j hj
    rw [hF] at hj
    rcases List.mem_append.mp hj with hmap | hsing
    · obtain ⟨c, hcC, hcEq⟩ := List.mem_map.mp hmap
      by_cases hc : c = i0
      · rw [if_pos hc] at hcEq
        right
        left
        exact hcEq.symm
      · rw [if_neg hc] at hcEq
        right
        right
        rw [← hcEq]
        exact ⟨hcC, hc⟩
    · left
      exact List.mem_singleton.mp hsing
  have hMemL : st.nodes.length ∈ rootForest (pairMove2 st rec2 0 i0) := by
    rw [hF]
    exact List.mem_append_right _ (List.mem_singleton.mpr rfl)
  have hMemM : st.nodes.length + 1 ∈ rootForest (pairMove2 st rec2 0 i0) := by
    rw [hF]
    exact List.mem_append_left _ (List.mem_map.mpr ⟨i0, hi0C, if_pos rfl⟩)
  have hMemOld : ∀ j ∈ rootForest st, j ≠ i0 →
      j ∈ rootForest (pairMove2 st rec2 0 i0) := by
    intro j hj hne
    rw [hF]
    exact List.mem_append_left _ (List.mem_map.mpr ⟨j, hj, if_neg hne⟩)
  refine ⟨?_, ?_, ?_, ?_, ?_, ?_, ?_, ?_, ?_, ?_⟩
  · rw [hP0]
    exact hinv.par0
  · rw [hLen]
    exact Nat.succ_pos _
  · intro i hiC'
    rcases hMemFwd i hiC' with hIsL | hIsM | ⟨hiC, hiNe⟩
    · subst hIsL
      exact ⟨Nat.pos_iff_ne_zero.mp h0, by rw [hLen]; omega⟩
    · subst hIsM
      exact ⟨Nat.succ_ne_zero _, by rw [hLen]; omega⟩
    · obtain ⟨hi0', hiL'⟩ := hinv.bound i hiC
      exact ⟨hi0', by rw [hLen]; omega⟩
  · intro r
    constructor
    · rintro ⟨j, hjC', hEq⟩
      rcases hMemFwd j hjC' with hIsL | hIsM | ⟨hjC, hjNe⟩
      · subst hIsL
        rw [hMF] at hEq
        exact absurd hEq (by simp [RemN])
      · subst hIsM
        rw [hMT] at hEq
        exact absurd hEq (by simp [RemN])
      · obtain ⟨hj0', hjL'⟩ := hinv.bound j hjC
        rw [hG j hjL' hj0'] at hEq
        obtain ⟨hOnly, hCond⟩ := (hinv.rem r).mp ⟨j, hjC, hEq⟩
        refine ⟨hOnly, ?_⟩
        intro pr hpr hprnone
        rcases List.mem_append.mp hpr with hOld | hNew
        · exact hCond pr hOld hprnone
        · rw [List.mem_singleton.mp hNew]
          intro e
          exact hjNe (hinv.uniq j hjC i0 hi0C r r0 hEq hEq0
            (e.symm.trans hhash0.symm))
    · rintro ⟨hOnly, hCond'⟩
      obtain ⟨j, hjC, hEq⟩ := (hinv.rem r).mpr
        ⟨hOnly, fun pr hpr => hCond' pr (List.mem_append_left _ hpr)⟩
      have hjNe : j ≠ i0 := by
        intro e
        rw [e, hEq0] at hEq
        have hr : r0 = r := by simpa [RemN] using hEq
        exact hCond' (name, rec2)
          (List.mem_append_right _ (List.mem_singleton.mpr rfl)) hl
          (by rw [← hhash0, hr])
      obtain ⟨hj0', hjL'⟩ := hinv.bound j hjC
      exact ⟨j, hMemOld j hjC hjNe, by rw [hG j hjL' hj0']; exact hEq⟩
  · intro r
    constructor
    · rintro ⟨j, hjC', hEq⟩
      rcases hMemFwd j hjC' with hIsL | hIsM | ⟨hjC, hjNe⟩
      · subst hIsL
        rw [hMF] at hEq
        exact absurd hEq (by simp [AddN])
      · subst hIsM
        rw [hMT] at hEq
        exact absurd hEq (by simp [AddN])
      · obtain ⟨hj0', hjL'⟩ := hinv.bound j hjC
        rw [hG j hjL' hj0'] at hEq
        obtain ⟨⟨n, hmem, hnone⟩, hfresh⟩ := (hinv.add r).mp ⟨j, hjC, hEq⟩
        exact ⟨⟨n, List.mem_append_left _ hmem, hnone⟩, hfresh⟩
    · rintro ⟨⟨n, hmem, hnone⟩, hfresh⟩
      rcases List.mem_append.mp hmem with hOld | hNew
      · obtain ⟨j, hjC, hEq⟩ := (hinv.add r).mpr ⟨⟨n, hOld, hnone⟩, hfresh⟩
        have hjNe : j ≠ i0 := by
          intro e
          rw [e, hEq0] at hEq
          exact absurd hEq (by simp [RemN, AddN])
        obtain ⟨hj0', hjL'⟩ := hinv.bound j hjC
        exact ⟨j, hMemOld j hjC hjNe, by rw [hG j hjL' hj0']; exact hEq⟩
      · have hr : r = rec2 := congrArg Prod.snd (List.mem_singleton.mp hNew)
        exact absurd hhash0
          (fun e => hfresh (n0, r0) hmem0 hnone0 (by rw [hr]; exact e))
  · intro r1 r2
    constructor
    · rintro ⟨j, hjC', hEq⟩
      rcases hMemFwd j hjC' with hIsL | hIsM | ⟨hjC, hjNe⟩
      · subst hIsL
        rw [hMF] at hEq
        exact absurd hEq (by simp [ModN])
      · subst hIsM
        rw [hMT] at hEq
        exact absurd hEq (by simp [ModN])
      · obtain ⟨hj0', hjL'⟩ := hinv.bound j hjC
        rw [hG j hjL' hj0'] at hEq
        exact (hinv.md r1 r2).mp ⟨j, hjC, hEq⟩
    · intro hRHS
      obtain ⟨j, hjC, hEq⟩ := (hinv.md r1 r2).mpr hRHS
      have hjNe : j ≠ i0 := by
        intro e
        rw [e, hEq0] at hEq
        exact absurd hEq (by simp [RemN, ModN])
      obtain ⟨hj0', hjL'⟩ := hinv.bound j hjC
      exact ⟨j, hMemOld j hjC hjNe, by rw [hG j hjL' hj0']; exact hEq⟩
  · intro r1 r2
    constructor
    · rintro ⟨i, hiC', j, hjC', hEqi, hEqj⟩
      rcases hMemFwd i hiC' with hiIsL | hiIsM | ⟨hiC, hiNe⟩
      · subst hiIsL
        rw [hMF] at hEqi
        exact absurd hEqi (by simp)
      · subst hiIsM
        rw [hMT] at hEqi
        obtain ⟨hr1, hj⟩ : r0 = r1 ∧ st.nodes.length = j := by
          simpa using hEqi
        subst hr1
        subst hj
        have hEqj' := hMF.symm.trans hEqj
        have hr2 : rec2 = r2 := by simpa using hEqj'
        subst hr2
        exact ⟨⟨n0, hmem0, hnone0⟩,
          ⟨name, List.mem_append_right _ (List.mem_singleton.mpr rfl), hl⟩,
          hhash0⟩
      · obtain ⟨hi0', hiL'⟩ := hinv.bound i hiC
        rw [hG i hiL' hi0'] at hEqi
        rcases hMemFwd j hjC' with hjIsL | hjIsM | ⟨hjC, hjNe⟩
        · subst hjIsL
          rw [hMF] at hEqj
          obtain ⟨hr2, hi1⟩ : rec2 = r2 ∧ st.nodes.length + 1 = i := by
            simpa using hEqj
          rw [← hi1] at hiL'
          exact absurd hiL' (by omega)
        · subst hjIsM
          rw [hMT] at hEqj
          exact absurd hEqj (by simp)
        · obtain ⟨hj0', hjL'⟩ := hinv.bound j hjC
          rw [hG j hjL' hj0'] at hEqj
          obtain ⟨hOnly, ⟨n, hmem, hnone⟩, hhash⟩ :=
            (hinv.mv r1 r2).mp ⟨i, hiC, j, hjC, hEqi, hEqj⟩
          exact ⟨hOnly, ⟨n, List.mem_append_left _ hmem, hnone⟩, hhash⟩
    · rintro ⟨hOnly1, ⟨n2, hmem2, hnone2⟩, hhash⟩
      rcases List.mem_append.mp hmem2 with hOld | hNew
      · obtain ⟨i, hiC, j, hjC, hEqi, hEqj⟩ :=
          (hinv.mv r1 r2).mpr ⟨hOnly1, ⟨n2, hOld, hnone2⟩, hhash⟩
        have hiNe : i ≠ i0 := by
          intro e
          rw [e, hEq0] at hEqi
          exact absurd hEqi (by simp [RemN])
        have hjNe : j ≠ i0 := by
          intro e
          rw [e, hEq0] at hEqj
          exact absurd hEqj (by simp [RemN])
        obtain ⟨hi0', hiL'⟩ := hinv.bound i hiC
        obtain ⟨hj0', hjL'⟩ := hinv.bound j hjC
        exact ⟨i, hMemOld i hiC hiNe, j, hMemOld j hjC hjNe,
          by rw [hG i hiL' hi0']; exact hEqi,
          by rw [hG j hjL' hj0']; exact hEqj⟩
      · have hr2 : r2 = rec2 := congrArg Prod.snd (List.mem_singleton.mp hNew)
        obtain ⟨n1, hmem1, hnone1⟩ := hOnly1
        have hpq : (n1, r1) = (n0, r0) :=
          Hinj1 (n1, r1) hmem1 (n0, r0) hmem0
            (by
              show r1.hash = r0.hash
              exact (hhash.trans (congrArg TreeRecord.hash hr2)).trans
                hhash0.symm)
        have hr1 : r1 = r0 := congrArg Prod.snd hpq
        refine ⟨st.nodes.length + 1, hMemM, st.nodes.length, hMemL, ?_, ?_⟩
        · rw [hMT, hr1]
        · rw [hMF, hr2]
  · intro h i hlook
    have hlook' : alookup (adel st.potR rec2.hash) h = some i := by
      rw [← hPR]
      exact hlook
    by_cases hcase : h = rec2.hash
    · subst hcase
      rw [alookup_adel_self] at hlook'
      exact absurd hlook' (by simp)
    · rw [alookup_adel_ne st.potR rec2.hash h hcase] at hlook'
      obtain ⟨n, r, hmem, hnone, hhash, hiC, hEq⟩ := hinv.potRsome h i hlook'
      have hiNe : i ≠ i0 := by
        intro e
        rw [e, hEq0] at hEq
        have hr : r0 = r := by simpa [RemN] using hEq
        exact hcase (by rw [← hhash, ← hr, hhash0])
      obtain ⟨hi0', hiL'⟩ := hinv.bound i hiC
      exact ⟨n, r, hmem, hnone, hhash, hMemOld i hiC hiNe,
        by rw [hG i hiL' hi0']; exact hEq⟩
  · intro h hlook n r hmem hnone hhash
    have hlook' : alookup (adel st.potR rec2.hash) h = none := by
      rw [← hPR]
      exact hlook
    by_cases hcase : h = rec2.hash
    · exact ⟨(name, rec2),
        List.mem_append_right _ (List.mem_singleton.mpr rfl), hl, hcase.symm⟩
    · rw [alookup_adel_ne st.potR rec2.hash h hcase] at hlook'
      obtain ⟨pr, hpr, hprnone, hprh⟩ :=
        hinv.potRnone h hlook' n r hmem hnone hhash
      exact ⟨pr, List.mem_append_left _ hpr, hprnone, hprh⟩
  · intro i hiC' j hjC' r r' hEqi hEqj hhash
    rcases hMemFwd i hiC' with hiIsL | hiIsM | ⟨hiC, hiNe⟩
    · subst hiIsL
      rw [hMF] at hEqi
      exact absurd hEqi (by simp [RemN])
    · subst hiIsM
      rw [hMT] at hEqi
      exact absurd hEqi (by simp [RemN])
    · rcases hMemFwd j hjC' with hjIsL | hjIsM | ⟨hjC, hjNe⟩
      · subst hjIsL
        rw [hMF] at hEqj
        exact absurd hEqj (by simp [RemN])
      · subst hjIsM
        rw [hMT] at hEqj
        exact absurd hEqj (by simp [RemN])
      · obtain ⟨hi0', hiL'⟩ := hinv.bound i hiC
        obtain ⟨hj0', hjL'⟩ := hinv.bound j hjC
        rw [hG i hiL' hi0'] at hEqi
        rw [hG j hjL' hj0'] at hEqj
        exact hinv.uniq i hiC j hjC r r' hEqi hEqj hhash

theorem phase2_inv (r1s r2s : List (String × TreeRecord))
    (Hh2 : (r2s.map (fun pr => pr.2.hash)).Nodup)
    (Hinj1 : ∀ p ∈ r1s, ∀ q ∈ r1s, p.2.hash = q.2.hash → p = q) :
    ∀ (todo done : List (String × TreeRecord)) (st : DState),
      r2s = done ++ todo → Inv2 r1s r2s done st →
      Inv2 r1s r2s r2s (phase2Go r1s todo st)
  | [], done, st, hsplit, hinv => by
      rw [List.append_nil] at hsplit
      subst hsplit
      exact hinv
  | (name, rec2) :: todo, done, st, hsplit, hinv => by
      have hsplit' : r2s = (done ++ [(name, rec2)]) ++ todo := by
        rw [hsplit, List.append_cons]
      have hfresh2 : ∀ pr ∈ done, pr.2.hash ≠ rec2.hash :=
        nodup_map_split (fun pr => pr.2.hash) done todo (name, rec2)
          (by rw [← hsplit]; exact Hh2)
      cases hlk : alookup r1s name with
      | some r1x =>
          simp only [phase2Go, hlk]
          exact phase2_inv r1s r2s Hh2 Hinj1 todo (done ++ [(name, rec2)]) st
            hsplit' (Inv2_skip r1s r2s done st name rec2 r1x hlk hinv)
      | none =>
          cases hRk : alookup st.potR rec2.hash with
          | none =>
              simp only [phase2Go, hlk, hRk]
              exact phase2_inv r1s r2s Hh2 Hinj1 todo
                (done ++ [(name, rec2)]) _ hsplit'
                (Inv2_added r1s r2s done st name rec2 hlk hRk hfresh2 hinv)
          | some removedIdx =>
              simp only [phase2Go, hlk, hRk]
              exact phase2_inv r1s r2s Hh2 Hinj1 todo
                (done ++ [(name, rec2)]) _ hsplit'
                (Inv2_pair r1s r2s done st name rec2 removedIdx hlk hRk
                  hfresh2 Hinj1 hinv)

theorem Inv2_init (r1s r2s : List (String × TreeRecord)) (st : DState)
    (hinv : Inv1 r2s r1s st) : Inv2 r1s r2s [] st := by
  refine ⟨hinv.par0, hinv.pos, hinv.bound, ?_, ?_, hinv.md, ?_,
    hinv.potRsome, ?_, hinv.uniq⟩
  · intro r
    rw [hinv.rem r]
    constructor
    · rintro ⟨n, hmem, hnone⟩
      exact ⟨⟨n, hmem, hnone⟩, fun pr hpr => absurd hpr (by simp)⟩
    · rintro ⟨⟨n, hmem, hnone⟩, _⟩
      exact ⟨n, hmem, hnone⟩
  · intro r
    constructor
    · rintro ⟨i, hiC, hEq⟩
      exfalso
      rcases hinv.kinds i hiC with hk | hk <;> rw [hEq] at hk <;>
        simp [AddN] at hk
    · rintro ⟨⟨n, hmem, _⟩, _⟩
      exact absurd hmem (by simp)
  · intro r1 r2
    constructor
    · rintro ⟨i, hiC, j, hjC, hEqi, _⟩
      exfalso
      rcases hinv.kinds i hiC with hk | hk <;> rw [hEqi] at hk <;>
        simp at hk
    · rintro ⟨_, ⟨n, hmem, _⟩, _⟩
      exact absurd hmem (by simp)
  · intro h hlook n r hmem hnone hhash
    exact absurd hhash (hinv.potRnone h hlook n r hmem hnone)

/-- The full characterization of a flat diff: the forest contains an
`Added` / `Removed` / `Modified` / cross-linked move pair exactly as
dictated by name-only membership, hash freshness, and common-name hash
changes. -/
theorem diff_flat_spec (load1 load2 : Hash → Option Tree) (fuelE fuel : Nat)
    (r1s r2s : List (String × TreeRecord))
    (Hb1 : ∀ pr ∈ r1s, pr.2.type = .blob)
    (Hb2 : ∀ pr ∈ r2s, pr.2.type = .blob)
    (Hn1 : (r1s.map Prod.fst).Nodup)
    (Hh1 : (r1s.map (fun pr => pr.2.hash)).Nodup)
    (Hh2 : (r2s.map (fun pr => pr.2.hash)).Nodup) :
    ∃ F, diff_trees load1 load2 fuelE (fuel + 2) (some (Tree.mk r1s))
        (some (Tree.mk r2s)) = .ok F ∧
      (∀ r, addedAt F r ↔ onlySpec r2s r1s r ∧ freshFor r1s r2s r.hash) ∧
      (∀ r, removedAt F r ↔ onlySpec r1s r2s r ∧ freshFor r2s r1s r.hash) ∧
      (∀ r1 r2, modifiedAt F r1 r2 ↔ modSpec r1s r2s r1 r2) ∧
      (∀ r1 r2, movedPairAt F r1 r2 ↔
        onlySpec r1s r2s r1 ∧ onlySpec r2s r1s r2 ∧ r1.hash = r2.hash) := by
  have Hinj1 : ∀ p ∈ r1s, ∀ q ∈ r1s, p.2.hash = q.2.hash → p = q :=
    fun p hp q hq e => List.inj_on_of_nodup_map Hh1 hp hq e
  have hInv1 := phase1_inv r2s r1s Hh1 r1s []
    ⟨[⟨.modified, TreeRecord.mk .tree "" "", none, none, [], none⟩], [], []⟩
    rfl (Inv1_init r2s)
  have hInv2 := phase2_inv r1s r2s Hh2 Hinj1 r2s []
    (phase1Go r2s r1s
      ⟨[⟨.modified, TreeRecord.mk .tree "" "", none, none, [], none⟩],
        [], []⟩)
    rfl (Inv2_init r1s r2s _ hInv1)
  refine ⟨phase2Go r1s r2s (phase1Go r2s r1s
      ⟨[⟨.modified, TreeRecord.mk .tree "" "", none, none, [], none⟩],
        [], []⟩),
    diff_trees_flat load1 load2 fuelE fuel r1s r2s Hb1 Hb2, ?_, ?_, ?_, ?_⟩
  · intro r
    exact hInv2.add r
  · intro r
    exact hInv2.rem r
  · intro r1 r2
    constructor
    · intro hmdAt
      obtain ⟨n, hmem, hsome, hne⟩ := (hInv2.md r1 r2).mp hmdAt
      exact ⟨n, alookup_some_of_mem r1s Hn1 n r1 hmem, hsome, hne⟩
    · rintro ⟨n, hsome1, hsome2, hne⟩
      exact (hInv2.md r1 r2).mpr
        ⟨n, mem_of_alookup_some r1s n r1 hsome1, hsome2, hne⟩
  · intro r1 r2
    exact hInv2.mv r1 r2

/-- Claim C4 (amended): diff duality for flat blob trees.  The claim
as stated over arbitrary trees is false (see the counterexample: a
repeated content hash makes `potentially_added` / `potentially_removed`
overwrite earlier candidates, breaking the symmetry).  For trees whose
records are all blobs with per-tree unique names and per-tree unique
content hashes, swapping the arguments of `diff_trees` swaps the forest
node-for-node: every `Added` record corresponds to a `Removed` record
of the swapped diff and vice versa, every cross-linked
`MovedTo`/`MovedFrom` pair appears swapped in the swapped diff, and
every `Modified` node appears with its old and new records exchanged. -/
theorem diff_trees_flat_duality
    (load1 load2 load1' load2' : Hash → Option Tree)
    (fuelE fuelE' fuel fuel' : Nat)
    (r1s r2s : List (String × TreeRecord))
    (Hb1 : ∀ pr ∈ r1s, pr.2.type = .blob)
    (Hb2 : ∀ pr ∈ r2s, pr.2.type = .blob)
    (Hn1 : (r1s.map Prod.fst).Nodup)
    (Hn2 : (r2s.map Prod.fst).Nodup)
    (Hh1 : (r1s.map (fun pr => pr.2.hash)).Nodup)
    (Hh2 : (r2s.map (fun pr => pr.2.hash)).Nodup) :
    ∃ F B,
      diff_trees load1 load2 fuelE (fuel + 2) (some (Tree.mk r1s))
        (some (Tree.mk r2s)) = .ok F ∧
      diff_trees load1' load2' fuelE' (fuel' + 2) (some (Tree.mk r2s))
        (some (Tree.mk r1s)) = .ok B ∧
      (∀ r, addedAt F r ↔ removedAt B r) ∧
      (∀ r, removedAt F r ↔ addedAt B r) ∧
      (∀ r1 r2, modifiedAt F r1 r2 ↔ modifiedAt B r2 r1) ∧
      (∀ r1 r2, movedPairAt F r1 r2 ↔ movedPairAt B r2 r1) := by
  obtain ⟨F, hFrun, hFadd, hFrem, hFmd, hFmv⟩ :=
    diff_flat_spec load1 load2 fuelE fuel r1s r2s Hb1 Hb2 Hn1 Hh1 Hh2
  obtain ⟨B, hBrun, hBadd, hBrem, hBmd, hBmv⟩ :=
    diff_flat_spec load1' load2' fuelE' fuel' r2s r1s Hb2 Hb1 Hn2 Hh2 Hh1
  refine ⟨F, B, hFrun, hBrun, ?_, ?_, ?_, ?_⟩
  · intro r
    rw [hFadd r, hBrem r]
  · intro r
    rw [hFrem r, hBadd r]
  · intro r1 r2
    rw [hFmd r1 r2, hBmd r2 r1]
    constructor
    · rintro ⟨n, h1, h2, hne⟩
      exact ⟨n, h2, h1, fun e => hne e.symm⟩
    · rintro ⟨n, h1, h2, hne⟩
      exact ⟨n, h2, h1, fun e => hne e.symm⟩
  · intro r1 r2
    rw [hFmv r1 r2, hBmv r2 r1]
    constructor
    · rintro ⟨h1, h2, he⟩
      exact ⟨h2, h1, he.symm⟩
    · rintro ⟨h1, h2, he⟩
      exact ⟨h2, h1, he.symm⟩

/-- The flat duality theorem at a concrete instance: `a` modified, `b`
renamed to `c` keeping content `H`. -/
theorem diff_trees_flat_duality_witness :
    (∃ F B,
      diff_trees (fun _ => none) (fun _ => none) 2 (0 + 2)
        (some (Tree.mk [("a", TreeRecord.mk .blob "X" "a"),
          ("b", TreeRecord.mk .blob "H" "b")]))
        (some (Tree.mk [("a", TreeRecord.mk .blob "Y" "a"),
          ("c", TreeRecord.mk .blob "H" "c")])) = .ok F ∧
      diff_trees (fun _ => none) (fun _ => none) 2 (0 + 2)
        (some (Tree.mk [("a", TreeRecord.mk .blob "Y" "a"),
          ("c", TreeRecord.mk .blob "H" "c")]))
        (some (Tree.mk [("a", TreeRecord.mk .blob "X" "a"),
          ("b", TreeRecord.mk .blob "H" "b")])) = .ok B ∧
      (∀ r, addedAt F r ↔ removedAt B r) ∧
      (∀ r, removedAt F r ↔ addedAt B r) ∧
      (∀ r1 r2, modifiedAt F r1 r2 ↔ modifiedAt B r2 r1) ∧
      (∀ r1 r2, movedPairAt F r1 r2 ↔ movedPairAt B r2 r1)) :=
  diff_trees_flat_duality (fun _ => none) (fun _ => none) (fun _ => none)
    (fun _ => none) 2 2 0 0
    [("a", TreeRecord.mk .blob "X" "a"), ("b", TreeRecord.mk .blob "H" "b")]
    [("a", TreeRecord.mk .blob "Y" "a"), ("c", TreeRecord.mk .blob "H" "c")]
    (by decide) (by decide) (by decide) (by decide) (by decide) (by decide)

end Caf
